import Mathlib

/-
Verification of the idencomp FASTQ compressor/decompressor (Rust) against its
natural-language specification.

The development is a shallow embedding of the relevant parts of the source:

* machine integers (`u8`, `u32`, `usize`) are modelled as `Nat`; wherever the
  source relies on wrap-around or bit masks, the reduction is explicit;
* `f32` probabilities and entropies are modelled as exact rationals (`ℚ`);
  the transcendental entropy term (`-x * x.log2()`) has no rational value,
  so functions that depend on it are parameterised by the per-symbol term;
* fallible Rust functions returning `Result`/panicking on asserts are
  modelled with `Except`/`Option`;
* loops whose termination is not structural are given an explicit fuel
  parameter together with lemmas showing the chosen fuel is sufficient.

Each `C<n>` theorem corresponds to one claim about the program.
-/

namespace Idencomp

/-- Type of a model (src/idencomp/src/model.rs, `ModelType`): either a model
for nucleic acids or a model for quality scores. -/
inductive ModelType where
  | Acids : ModelType
  | QualityScores : ModelType
deriving DecidableEq, Repr

/-- Embedding of `FastqSequence` (src/idencomp/src/sequence.rs,
`NucleotideSequence`): an identifier, a list of acids (codes `0..4` for
`N, A, C, T, G`) and a list of quality scores (`0..93`).  The approximate
byte size only feeds progress reporting and is omitted. -/
structure FastqSequence where
  identifier : String
  acids : List ℕ
  qualityScores : List ℕ
deriving DecidableEq, Repr

/-- Length of a sequence (`NucleotideSequence::len`): the number of acids. -/
def FastqSequence.len (s : FastqSequence) : ℕ :=
  s.acids.length

/-- Embedding of `NucleotideSequence::with_identifier_discarded`: the same
sequence with an empty identifier. -/
def FastqSequence.withIdentifierDiscarded (s : FastqSequence) : FastqSequence :=
  { s with identifier := "" }

/-!
## Integer-packed bounded queue (src/idencomp/src/int_queue.rs)

`IntQueue<MAX_SINGLE_VAL, LENGTH>` packs a fixed-length FIFO of small
integers into a single `u32` in base `MAX_SINGLE_VAL`.  The two const
generics are modelled as fields `maxSingleVal` and `length`; the packed
word is the field `state`.
-/

/-- State of an `IntQueue<maxSingleVal, length>`: the packed integer. -/
structure IntQueue where
  maxSingleVal : ℕ
  length : ℕ
  state : ℕ
deriving DecidableEq, Repr

/-- Embedding of `IntQueue::calc_default_state`.  Note that the Rust base
case returns the literal `0` (not `cur_state`), so the result is `0` for
every length; all call sites pass `value = 0`, which hides this. -/
def IntQueue.calcDefaultState (m curState value : ℕ) : ℕ → ℕ
  | 0 => 0
  | l + 1 => IntQueue.calcDefaultState m (curState * m + value) value l

/-- Embedding of `IntQueue::with_default`. -/
def IntQueue.withDefault (m l value : ℕ) : IntQueue :=
  ⟨m, l, IntQueue.calcDefaultState m 0 value l⟩

/-- Embedding of `IntQueue::with_state`. -/
def IntQueue.withState (m l state : ℕ) : IntQueue :=
  ⟨m, l, state⟩

/-- Embedding of `IntQueue::num_bits`:
`32 - (MAX_SINGLE_VAL.pow(LENGTH) - 1).leading_zeros()`, which is the bit
length of `m ^ l - 1` (`Nat.size`). -/
def IntQueue.numBits (m l : ℕ) : ℕ :=
  Nat.size (m ^ l - 1)

/-- Embedding of `IntQueue::mask`: `(1 << num_bits()) - 1`. -/
def IntQueue.mask (m l : ℕ) : ℕ :=
  2 ^ IntQueue.numBits m l - 1

/-- Embedding of `IntQueue::last_pow`. -/
def IntQueue.lastPow (m l : ℕ) : ℕ :=
  if l = 0 then 0 else m ^ (l - 1)

/-- Embedding of `IntQueue::with_pushed_back`: for `LENGTH = 0` the queue is
returned unchanged; otherwise the front element is dropped and `value` is
appended at the back. -/
def IntQueue.withPushedBack (q : IntQueue) (value : ℕ) : IntQueue :=
  if q.length = 0 then q
  else ⟨q.maxSingleVal, q.length,
    q.state % IntQueue.lastPow q.maxSingleVal q.length * q.maxSingleVal + value⟩

/-- Embedding of `IntQueue::with_popped_back`: integer division by the base. -/
def IntQueue.withPoppedBack (q : IntQueue) : IntQueue :=
  ⟨q.maxSingleVal, q.length, q.state / q.maxSingleVal⟩

/-- Embedding of `IntQueue::back`.  The Rust function starts with
`assert!(LENGTH > 0)`, so it panics for `LENGTH = 0`; the panic is modelled
by `none`. -/
def IntQueue.back (q : IntQueue) : Option ℕ :=
  if q.length = 0 then none else some (q.state % q.maxSingleVal)

/-!
## IDN compressor front-end (src/idencomp/src/idn/compressor.rs)

`IdnCompressor` batches accepted sequences into blocks bounded by
`max_block_total_len` total acids and hands complete blocks to the data
queue (field `emitted`, in submission order).  The pure embedding has no
worker pool, so the paths that surface stored worker/I-O errors
(`thread_pool.get_status`, serialization) always succeed.
-/

/-- Embedding of `IdnCompressorError` (the variants relevant to the pure
front-end). -/
inductive IdnCompressorError where
  | invalidState : IdnCompressorError
  | sequenceTooLong : ℕ → ℕ → IdnCompressorError
deriving DecidableEq, Repr

/-- Front-end state of `IdnCompressor`: configuration, the block being
filled, its total acid count, and the blocks already submitted. -/
structure IdnCompressor where
  maxBlockTotalLen : ℕ
  includeIdentifiers : Bool
  block : List FastqSequence
  blockLength : ℕ
  emitted : List (List FastqSequence)
deriving Repr

/-- Embedding of `IdnCompressor::with_params` restricted to the front-end
fields: empty pending block, nothing submitted yet. -/
def IdnCompressor.withParams (maxBlockTotalLen : ℕ) (includeIdentifiers : Bool) :
    IdnCompressor :=
  ⟨maxBlockTotalLen, includeIdentifiers, [], 0, []⟩

/-- Embedding of `IdnCompressor::max_seq_len`: half the configured block
length limit. -/
def IdnCompressor.maxSeqLen (c : IdnCompressor) : ℕ :=
  c.maxBlockTotalLen / 2

/-- Embedding of `IdnCompressor::make_block`: the pending block is moved to
the data queue.  (`thread_pool.get_status` cannot fail in the pure model.) -/
def IdnCompressor.makeBlock (c : IdnCompressor) : IdnCompressor :=
  { c with block := [], blockLength := 0, emitted := c.emitted ++ [c.block] }

/-- Embedding of `IdnCompressor::add_sequence`.  The result pairs the new
state with the error, if any; on error the state is returned unchanged,
exactly as the early `return Err(...)` leaves `self` unmodified. -/
def IdnCompressor.addSequence (c : IdnCompressor) (sequence : FastqSequence) :
    IdnCompressor × Option IdnCompressorError :=
  let seqLen := sequence.len
  if seqLen > c.maxSeqLen then
    (c, some (IdnCompressorError.sequenceTooLong seqLen c.maxSeqLen))
  else
    let c := if c.blockLength + seqLen > c.maxBlockTotalLen then c.makeBlock else c
    let sequence :=
      if c.includeIdentifiers then sequence else sequence.withIdentifierDiscarded
    ({ c with block := c.block ++ [sequence], blockLength := c.blockLength + seqLen },
      none)

/-- Embedding of `IdnCompressor::finish`: submit the pending block if it is
non-empty, then submit one more (empty) block as the stream terminator, and
return the full list of submitted blocks. -/
def IdnCompressor.finish (c : IdnCompressor) :
    Except IdnCompressorError (List (List FastqSequence)) :=
  let c := if c.block.isEmpty then c else c.makeBlock
  Except.ok c.makeBlock.emitted

/-!
## IDN container entities and block writer (src/idencomp/src/idn/data.rs,
src/idencomp/src/idn/writer_block.rs)

Headers are serialized big-endian (`binrw` with `brw(big)`).  Bytes are
modelled as naturals below 256.
-/

/-- Big-endian serialization of a `u32` value into four bytes. -/
def u32BE (n : ℕ) : List ℕ :=
  [n / 2 ^ 24 % 256, n / 2 ^ 16 % 256, n / 2 ^ 8 % 256, n % 256]

/-- Embedding of `IdnIdentifierCompression`: tag `0` is Brotli, tag `1` is
Deflate. -/
inductive IdnIdentifierCompression where
  | Brotli : IdnIdentifierCompression
  | Deflate : IdnIdentifierCompression
deriving DecidableEq, Repr

/-- Serialization tag of an identifier-compression method (`repr = u8`). -/
def IdnIdentifierCompression.tag : IdnIdentifierCompression → ℕ
  | .Brotli => 0
  | .Deflate => 1

/-- Embedding of `IdnBlockHeader`: payload length, CRC-32 of the block's
sequences, and the `block_num` field. -/
structure IdnBlockHeader where
  length : ℕ
  seqChecksum : ℕ
  blockNum : ℕ
deriving DecidableEq, Repr

/-- Big-endian serialization of an `IdnBlockHeader`. -/
def IdnBlockHeader.toBytes (h : IdnBlockHeader) : List ℕ :=
  u32BE h.length ++ u32BE h.seqChecksum ++ u32BE h.blockNum

/-- Embedding of `IdnSliceHeader` with its three variants (magic bytes `0`,
`1`, `2`). -/
inductive IdnSliceHeader where
  | identifiers : ℕ → IdnIdentifierCompression → IdnSliceHeader
  | switchModel : ℕ → IdnSliceHeader
  | sequenceSlice : ℕ → ℕ → IdnSliceHeader
deriving DecidableEq, Repr

/-- Big-endian serialization of an `IdnSliceHeader` (magic byte followed by
the variant's fields). -/
def IdnSliceHeader.toBytes : IdnSliceHeader → List ℕ
  | .identifiers length compression => 0 :: (u32BE length ++ [compression.tag])
  | .switchModel modelIndex => [1, modelIndex % 256]
  | .sequenceSlice length seqLen => 2 :: (u32BE length ++ u32BE seqLen)

/-- Embedding of `BlockWriter` (src/idencomp/src/idn/writer_block.rs): the
staged payload bytes, the number of slices written so far, and the sequences
fed to the CRC-32 hasher, in order.  The CRC value itself is computed by the
external `crc32fast` crate and is modelled as a parameter where needed. -/
structure BlockWriter where
  data : List ℕ
  slicesNum : ℕ
  hashed : List FastqSequence
deriving Repr

/-- Embedding of `BlockWriter::new`. -/
def BlockWriter.new : BlockWriter :=
  ⟨[], 0, []⟩

/-- Embedding of `BlockWriter::write_slice_header`: bumps `slices_num` and
appends the serialized slice header to the staged data. -/
def BlockWriter.writeSliceHeader (w : BlockWriter) (header : IdnSliceHeader) :
    BlockWriter :=
  { w with slicesNum := w.slicesNum + 1, data := w.data ++ header.toBytes }

/-- Embedding of `BlockWriter::write_identifiers`. -/
def BlockWriter.writeIdentifiers (w : BlockWriter)
    (compressionMethod : IdnIdentifierCompression) (data : List ℕ) : BlockWriter :=
  let w := w.writeSliceHeader (IdnSliceHeader.identifiers data.length compressionMethod)
  { w with data := w.data ++ data }

/-- Embedding of `BlockWriter::write_sequence`: the sequence is hashed into
the block checksum, then a sequence slice header and the rANS payload are
staged. -/
def BlockWriter.writeSequence (w : BlockWriter) (sequence : FastqSequence)
    (data : List ℕ) : BlockWriter :=
  let w := { w with hashed := w.hashed ++ [sequence] }
  let w := w.writeSliceHeader (IdnSliceHeader.sequenceSlice data.length sequence.len)
  { w with data := w.data ++ data }

/-- Embedding of `BlockWriter::write_switch_model`. -/
def BlockWriter.writeSwitchModel (w : BlockWriter) (index : ℕ) : BlockWriter :=
  w.writeSliceHeader (IdnSliceHeader.switchModel index)

/-- Block header built by `BlockWriter::write_to`.  The source fills the
`block_num` field with `self.slices_num` — the number of slices written into
the block — not with the block's index. -/
def BlockWriter.header (crc : List FastqSequence → ℕ) (w : BlockWriter) :
    IdnBlockHeader :=
  ⟨w.data.length, crc w.hashed, w.slicesNum⟩

/-- Embedding of `BlockWriter::write_to`: the serialized header followed by
the staged payload bytes. -/
def BlockWriter.writeTo (crc : List FastqSequence → ℕ) (w : BlockWriter) : List ℕ :=
  (w.header crc).toBytes ++ w.data

/-!
## IDN block decompressor (src/idencomp/src/idn/decompressor_block.rs)

The block decompressor parses slices sequentially.  Identifier payloads are
decompressed by the external Brotli/Deflate crates, so a parsed identifiers
slice is modelled as carrying the decoded identifier lines; sequence payloads
are decoded by the rANS decoder, modelled as a parameter `decode`.
-/

/-- Embedding of `IdnDecompressorError` (src/idencomp/src/idn/decompressor.rs). -/
inductive IdnDecompressorError where
  | invalidState : IdnDecompressorError
  | invalidVersion : ℕ → IdnDecompressorError
  | blockChecksumMismatch : ℕ → ℕ → IdnDecompressorError
  | invalidModelIndex : ℕ → ℕ → IdnDecompressorError
  | noActiveModel : ModelType → IdnDecompressorError
deriving DecidableEq, Repr

/-- Parsed slice of a block as consumed by `next_sequence_internal`: an
identifiers slice (already decoded into lines by the external Brotli/Deflate
decompressor), a switch-model slice, or a sequence slice with its declared
compressed length, sequence length and payload bytes. -/
inductive IdnSlice where
  | identifiers : List String → IdnSlice
  | switchModel : ℕ → IdnSlice
  | sequenceSlice : ℕ → ℕ → List ℕ → IdnSlice
deriving DecidableEq, Repr

/-- Mutable state of `IdnBlockDecompressor`: the active model provider's
model types (in index order), the identifier pop-stack, and the current acid
and quality-score model indices. -/
structure IdnBlockDecompressor where
  modelTypes : List ModelType
  identifiers : List String
  currentAcidModel : Option ℕ
  currentQScoreModel : Option ℕ
deriving DecidableEq, Repr

/-- Initial state of a block decompressor for a given model provider. -/
def IdnBlockDecompressor.new (modelTypes : List ModelType) : IdnBlockDecompressor :=
  ⟨modelTypes, [], none, none⟩

/-- Embedding of `IdnBlockDecompressor::handle_identifiers_slice` (after the
external decompression): the decoded lines are reversed to form a pop-stack. -/
def IdnBlockDecompressor.handleIdentifiersSlice (st : IdnBlockDecompressor)
    (lines : List String) : IdnBlockDecompressor :=
  { st with identifiers := lines.reverse }

/-- Embedding of `IdnBlockDecompressor::handle_switch_model_slice`: the index
must be below the number of active models (both reported modulo 256, as the
source casts them to `u8`), and the current model of the corresponding
alphabet is set. -/
def IdnBlockDecompressor.handleSwitchModelSlice (st : IdnBlockDecompressor)
    (modelIndex : ℕ) : Except IdnDecompressorError IdnBlockDecompressor :=
  let numModels := st.modelTypes.length
  if modelIndex ≥ numModels then
    Except.error (IdnDecompressorError.invalidModelIndex (modelIndex % 256)
      (numModels % 256))
  else
    match st.modelTypes.getD modelIndex ModelType.Acids with
    | ModelType.Acids =>
        Except.ok { st with currentAcidModel := some modelIndex }
    | ModelType.QualityScores =>
        Except.ok { st with currentQScoreModel := some modelIndex }

/-- Embedding of `IdnBlockDecompressor::get_current_acid_model`: fails with a
no-active-model error naming `Acids` when no switch-model slice has set an
acid model yet. -/
def IdnBlockDecompressor.getCurrentAcidModel (st : IdnBlockDecompressor) :
    Except IdnDecompressorError ℕ :=
  match st.currentAcidModel with
  | none => Except.error (IdnDecompressorError.noActiveModel ModelType.Acids)
  | some index => Except.ok index

/-- Embedding of `IdnBlockDecompressor::get_current_q_score_model`. -/
def IdnBlockDecompressor.getCurrentQScoreModel (st : IdnBlockDecompressor) :
    Except IdnDecompressorError ℕ :=
  match st.currentQScoreModel with
  | none => Except.error (IdnDecompressorError.noActiveModel ModelType.QualityScores)
  | some index => Except.ok index

/-- Embedding of `IdnBlockDecompressor::handle_sequence_slice`: requires both
current models (acid first, then quality score), decodes the payload with the
rANS decoder (`decode`, a parameter: the coder lives in the external `rans`
crate), and pops an identifier from the stack if one is present. -/
def IdnBlockDecompressor.handleSequenceSlice
    (decode : ℕ → ℕ → ℕ → List ℕ → FastqSequence) (st : IdnBlockDecompressor)
    (seqLen : ℕ) (data : List ℕ) :
    Except IdnDecompressorError (IdnBlockDecompressor × FastqSequence) := do
  let acidModel ← st.getCurrentAcidModel
  let qScoreModel ← st.getCurrentQScoreModel
  let sequence := decode acidModel qScoreModel seqLen data
  match st.identifiers.getLast? with
  | some identifier =>
      Except.ok ({ st with identifiers := st.identifiers.dropLast },
        { sequence with identifier := identifier })
  | none => Except.ok (st, sequence)

/-- Embedding of the slice loop in
`IdnBlockDecompressor::next_sequence_internal`: non-sequence slices are
handled in order until a sequence slice produces a sequence or the block data
is exhausted. -/
def IdnBlockDecompressor.nextSequenceInternal
    (decode : ℕ → ℕ → ℕ → List ℕ → FastqSequence) :
    List IdnSlice → IdnBlockDecompressor →
    Except IdnDecompressorError
      (Option (FastqSequence × IdnBlockDecompressor × List IdnSlice))
  | [], _ => Except.ok none
  | IdnSlice.identifiers lines :: rest, st =>
      IdnBlockDecompressor.nextSequenceInternal decode rest
        (st.handleIdentifiersSlice lines)
  | IdnSlice.switchModel index :: rest, st => do
      let st ← st.handleSwitchModelSlice index
      IdnBlockDecompressor.nextSequenceInternal decode rest st
  | IdnSlice.sequenceSlice _ seqLen data :: rest, st => do
      let (st, sequence) ← st.handleSequenceSlice decode seqLen data
      Except.ok (some (sequence, st, rest))

/-- Per-sequence loop of `IdnBlockCompressor::prepare_to_write`
(src/idencomp/src/idn/compressor_block.rs, non-fast path): for each
sequence the model chooser picks an acid and a quality-score model index
(`chooseAcid`/`chooseQScore`, abstracting
`ModelChooser::get_best_*_model_for` composed with
`model_provider.index_of`); a switch-model slice is written whenever the
choice differs from the current model, then the rANS payload (`encode`,
abstracting `SequenceCompressor::compress` over the external `rans`
crate) is written as a sequence slice carrying the payload length and the
sequence length. -/
def IdnBlockCompressor.slicesLoop (encode : ℕ → ℕ → FastqSequence → List ℕ)
    (chooseAcid chooseQScore : Option ℕ → FastqSequence → ℕ) :
    List FastqSequence → Option ℕ → Option ℕ → List IdnSlice
  | [], _, _ => []
  | s :: rest, curAcid, curQ =>
      let acid := chooseAcid curAcid s
      let q := chooseQScore curQ s
      let acidSlices : List IdnSlice :=
        if curAcid = some acid then [] else [IdnSlice.switchModel acid]
      let qSlices : List IdnSlice :=
        if curQ = some q then [] else [IdnSlice.switchModel q]
      let data := encode acid q s
      acidSlices ++ qSlices ++ [IdnSlice.sequenceSlice data.length s.len data] ++
        IdnBlockCompressor.slicesLoop encode chooseAcid chooseQScore rest
          (some acid) (some q)

/-- Slice emission of `IdnBlockCompressor::prepare_to_write` (non-fast
path): nothing for an empty block; otherwise the identifiers slice when
identifiers are included (its Brotli/Deflate payload is modelled by the
decoded identifier lines it carries), followed by the per-sequence
slices. -/
def IdnBlockCompressor.slices (encode : ℕ → ℕ → FastqSequence → List ℕ)
    (chooseAcid chooseQScore : Option ℕ → FastqSequence → ℕ)
    (includeIdentifiers : Bool) (sequences : List FastqSequence) : List IdnSlice :=
  if sequences.isEmpty then []
  else
    (if includeIdentifiers then
      [IdnSlice.identifiers (sequences.map FastqSequence.identifier)] else []) ++
    IdnBlockCompressor.slicesLoop encode chooseAcid chooseQScore sequences none none

/-- The block decompressor's `process` loop
(src/idencomp/src/idn/decompressor_block.rs): `next_sequence` until the
block is exhausted, collecting the sequences in order.  Fuelled; fuel
beyond the number of produced sequences is sufficient. -/
def IdnBlockDecompressor.allSequences
    (decode : ℕ → ℕ → ℕ → List ℕ → FastqSequence) :
    ℕ → List IdnSlice → IdnBlockDecompressor →
    Except IdnDecompressorError (List FastqSequence)
  | 0, _, _ => Except.ok []
  | fuel + 1, slices, st =>
      match IdnBlockDecompressor.nextSequenceInternal decode slices st with
      | Except.error e => Except.error e
      | Except.ok none => Except.ok []
      | Except.ok (some (seq, st2, rest)) =>
          match IdnBlockDecompressor.allSequences decode fuel rest st2 with
          | Except.error e => Except.error e
          | Except.ok seqs => Except.ok (seq :: seqs)

/-!
## Context model (src/idencomp/src/context.rs)

`Probability`, `Entropy` and `ContextMergeCost` are `f32` newtypes; they are
modelled as exact rationals.  The entropy term `-x * x.log2()` has no value
in `ℚ`, so every function that computes entropies takes the per-symbol term
as a parameter `h : ℚ → ℚ`; no theorem below depends on the value of `h`.
-/

/-- Embedding of `Context`: the probability of the context, the per-symbol
probabilities, and the cached entropy. -/
structure Context where
  contextProb : ℚ
  symbolProb : List ℚ
  entropy : ℚ
deriving DecidableEq, Repr

/-- Embedding of `Context::calc_entropy`: sums the entropy term `h` over the
symbol probabilities at or above `ZERO_THRESHOLD` (`1e-6`); an empty sum is
the default entropy `0`. -/
def Context.calcEntropy (h : ℚ → ℚ) (symbolProb : List ℚ) : ℚ :=
  ((symbolProb.filter (fun x => 1 / 1000000 ≤ x)).map h).sum

/-- Embedding of `Context::new`. -/
def Context.new (h : ℚ → ℚ) (contextProb : ℚ) (symbolProb : List ℚ) : Context :=
  ⟨contextProb, symbolProb, Context.calcEntropy h symbolProb⟩

/-- Embedding of `Context::symbol_num`. -/
def Context.symbolNum (c : Context) : ℕ :=
  c.symbolProb.length

/-- Embedding of `Context::dummy`: uniform probabilities over `numSymbols`
symbols, with context probability one. -/
def Context.dummy (h : ℚ → ℚ) (numSymbols : ℕ) : Context :=
  Context.new h 1 (List.replicate numSymbols (1 / (numSymbols : ℚ)))

/-- Embedding of `Context::merge_with`.  The merged context probability is
clamped at one; each merged symbol probability is the probability-weighted
average, clamped at one, with the `0/0` NaN case replaced by zero (in `ℚ`
the divisor is zero exactly in that case, given non-negative inputs). -/
def Context.mergeWith (h : ℚ → ℚ) (a b : Context) : Context :=
  let contextProb := min (a.contextProb + b.contextProb) 1
  let symbolProb := List.zipWith
    (fun x y =>
      if contextProb = 0 then 0
      else min ((a.contextProb * x + b.contextProb * y) / contextProb) 1)
    a.symbolProb b.symbolProb
  Context.new h contextProb symbolProb

/-- Embedding of `Context::merge_cost`. -/
def Context.mergeCost (merged left right : Context) : ℚ :=
  merged.contextProb * merged.entropy -
    (left.contextProb * left.entropy + right.contextProb * right.entropy)

/-- Rounding of a non-negative value as `f32::round` does (`.round() as u32`
in the source): half-way cases round away from zero, which for non-negative
arguments is `⌊x + 1/2⌋`. -/
def roundNonneg (x : ℚ) : ℕ :=
  (x + 1 / 2).floor.toNat

/-- Exclusive prefix sums, the `scan` stage of
`Context::as_integer_cum_freqs`: element `i` of the output is the sum of the
first `i` inputs. -/
def exclusivePrefixSums (acc : ℚ) : List ℚ → List ℚ
  | [] => []
  | x :: xs => acc :: exclusivePrefixSums (acc + x) xs

/-- Embedding of `Context::cum_freq_to_freq`: consecutive differences, the
last entry becoming `total` minus the last cumulative frequency.  `u32`
subtraction is modelled by truncated `ℕ` subtraction; the monotonicity
results below show no truncation occurs for the inputs the coder builds. -/
def cumFreqToFreq : List ℕ → ℕ → List ℕ
  | [], _ => []
  | [x], total => [total - x]
  | x :: y :: rest, total => (y - x) :: cumFreqToFreq (y :: rest) total

/-- Embedding of `Context::freq_to_cum_freq` (exclusive integer prefix
sums). -/
def freqToCumFreqAux (acc : ℕ) : List ℕ → List ℕ
  | [] => []
  | x :: xs => acc :: freqToCumFreqAux (acc + x) xs

/-- Embedding of `Context::freq_to_cum_freq`. -/
def freqToCumFreq (freqs : List ℕ) : List ℕ :=
  freqToCumFreqAux 0 freqs

/-- One step of the `while zero_count > 0` loop of
`Context::fix_zero_freqs`, with an explicit fuel bound: at position `i`, an
entry greater than one is decremented (consuming one unit of `zero_count`),
then the position advances cyclically.  Lemma `fixZeroLoop_spec` shows that
the fuel chosen in `fixZeroFreqs` is never exhausted when the frequencies sum
to more than the list length, which `as_integer_cum_freqs` asserts. -/
def fixZeroLoop : ℕ → ℕ → ℕ → List ℕ → List ℕ
  | 0, _, _, freqs => freqs
  | _ + 1, 0, _, freqs => freqs
  | fuel + 1, zeroCount + 1, i, freqs =>
      let cur := freqs.getD i 0
      let freqs' := if 1 < cur then freqs.set i (cur - 1) else freqs
      let zeroCount' := if 1 < cur then zeroCount else zeroCount + 1
      let i' := if i + 1 ≥ freqs.length then 0 else i + 1
      fixZeroLoop fuel zeroCount' i' freqs'

/-- Embedding of `Context::fix_zero_freqs`: every zero frequency is bumped to
one, and the excess is subtracted, scanning positions round-robin from the
start, from frequencies greater than one. -/
def fixZeroFreqs (freqs : List ℕ) : List ℕ :=
  let zeroCount := freqs.count 0
  let bumped := freqs.map (fun f => if f = 0 then 1 else f)
  fixZeroLoop (zeroCount * freqs.length + freqs.length + 1) zeroCount 0 bumped

/-- Embedding of `Context::as_integer_cum_freqs`: scale the symbol
probabilities to `total = 1 << scale_bits`, take rounded exclusive prefix
sums, convert to frequencies, fix zero frequencies, and convert back to
cumulative frequencies.  The source's assertions (`total > symbols_num`,
all-unique output, last output below `total`) are established as theorems. -/
def Context.asIntegerCumFreqs (c : Context) (scaleBits : ℕ) : List ℕ :=
  let total : ℕ := 2 ^ scaleBits
  let cum := (exclusivePrefixSums 0 (c.symbolProb.map (fun x => x * total))).map
    roundNonneg
  let freqs := cumFreqToFreq cum total
  freqToCumFreq (fixZeroFreqs freqs)

/-- Index of a maximal entry of a frequency list (first maximum wins). -/
def idxOfMax (freqs : List ℕ) : ℕ :=
  (List.range freqs.length).foldl
    (fun best i => if freqs.getD best 0 < freqs.getD i 0 then i else best) 0

/-- Modelled from the spec: "any originally-zero freq is bumped to 1 and the
excess is subtracted from the largest freqs round-robin" — after bumping the
zeros, each unit of excess is taken from a currently-largest frequency.  This
is the specification-side reading of `fix_zero_freqs`, to be compared against
the source-side `fixZeroFreqs`. -/
def fixZeroFreqsSpec (freqs : List ℕ) : List ℕ :=
  let zeroCount := freqs.count 0
  let bumped := freqs.map (fun f => if f = 0 then 1 else f)
  (List.range zeroCount).foldl
    (fun fs _ => fs.set (idxOfMax fs) (fs.getD (idxOfMax fs) 0 - 1)) bumped

/-- Modelled from the spec: `as_integer_cum_freqs` with the excess subtracted
from the largest frequencies, as the spec sentence describes. -/
def Context.asIntegerCumFreqsSpec (c : Context) (scaleBits : ℕ) : List ℕ :=
  let total : ℕ := 2 ^ scaleBits
  let cum := (exclusivePrefixSums 0 (c.symbolProb.map (fun x => x * total))).map
    roundNonneg
  let freqs := cumFreqToFreq cum total
  freqToCumFreq (fixZeroFreqsSpec freqs)

/-!
## Context binning (src/idencomp/src/context_binning.rs)

`ContextSpec` is an opaque `u32` and is modelled as `ℕ`.  The priority
queues (`BinaryHeap`) order queued merges by ascending merge cost through a
reversed `Ord`; ties are broken by the heap's internal layout, which the
`Ord` instances leave unspecified.  The heap is therefore modelled as
selection of a minimal-cost element, first occurrence winning ties; no
theorem below depends on the tie order.
-/

/-- Stable insertion into a sorted list: the new element goes after every
element `y` with `le y x`.  Together with `stableSort` this computes the
unique stable sort, the behaviour `Vec::sort`/`sort_by` guarantee; unlike
`List.mergeSort` it is structurally recursive, so concrete instances reduce
inside `decide`. -/
def stableInsert (le : α → α → Bool) (x : α) : List α → List α
  | [] => [x]
  | y :: ys => if le y x then y :: stableInsert le x ys else x :: y :: ys

/-- Stable sort by a total comparison (the semantics of Rust's stable
`sort`/`sort_by`).  Elements are inserted left to right, each after the
elements already placed that compare less-or-equal, so ties keep their
input order. -/
def stableSort (le : α → α → Bool) (l : List α) : List α :=
  l.foldl (fun acc x => stableInsert le x acc) []

/-- Embedding of `ComplexContext::new`: the spec list is sorted ascending.
The source also asserts the sorted list is duplicate-free; the theorems
establish that assertion for the lists the binning produces. -/
structure ComplexContext where
  specs : List ℕ
  context : Context
deriving DecidableEq, Repr

/-- Constructor `ComplexContext::new` (sorts the specs). -/
def ComplexContext.new (specs : List ℕ) (context : Context) : ComplexContext :=
  ⟨stableSort (fun a b => a ≤ b) specs, context⟩

/-- Constructor `ComplexContext::with_single_spec`. -/
def ComplexContext.withSingleSpec (spec : ℕ) (context : Context) : ComplexContext :=
  ⟨[spec], context⟩

/-- Embedding of `ContextNode`: a leaf carrying specs and a context, or an
inner node carrying the merged context, the merge cost and the two child
indices. -/
inductive ContextNode where
  | leaf : List ℕ → Context → ContextNode
  | node : Context → ℚ → ℕ → ℕ → ContextNode
deriving DecidableEq, Repr

/-- Embedding of `ContextNode::new_leaf`. -/
def ContextNode.newLeaf (spec : ℕ) (context : Context) : ContextNode :=
  ContextNode.leaf [spec] context

/-- Embedding of `ContextNode::new_leaf_multi`. -/
def ContextNode.newLeafMulti (specs : List ℕ) (context : Context) : ContextNode :=
  ContextNode.leaf specs context

/-- Embedding of `ContextNode::context`. -/
def ContextNode.context : ContextNode → Context
  | ContextNode.leaf _ c => c
  | ContextNode.node c _ _ _ => c

/-- Embedding of `ContextNode::merge_cost` (`ZERO` for leaves). -/
def ContextNode.mergeCostOf : ContextNode → ℚ
  | ContextNode.leaf _ _ => 0
  | ContextNode.node _ cost _ _ => cost

/-- Embedding of `ContextNode::new_from_merge`. -/
def ContextNode.newFromMerge (h : ℚ → ℚ) (left right : Context)
    (leftIndex rightIndex : ℕ) : ContextNode :=
  let context := Context.mergeWith h left right
  ContextNode.node context (Context.mergeCost context left right) leftIndex rightIndex

/-- Embedding of `ContextTree`: a vector of nodes; children refer to earlier
entries by index, the root is the last entry. -/
structure ContextTree where
  vec : List ContextNode
deriving Repr

/-- Specs collected below a node, as `traverse_and_combine` collects them
(left subtree first).  The recursion is fuelled; for trees whose children
indices are below the parent index, fuel `index + 1` is exact. -/
def specsUnder (nodes : List ContextNode) : ℕ → ℕ → List ℕ
  | 0, _ => []
  | fuel + 1, index =>
      match nodes[index]? with
      | some (ContextNode.leaf specs _) => specs
      | some (ContextNode.node _ _ left right) =>
          specsUnder nodes fuel left ++ specsUnder nodes fuel right
      | none => []

/-- Number of leaves below a node (fuelled like `specsUnder`). -/
def leavesUnder (nodes : List ContextNode) : ℕ → ℕ → ℕ
  | 0, _ => 0
  | fuel + 1, index =>
      match nodes[index]? with
      | some (ContextNode.leaf _ _) => 1
      | some (ContextNode.node _ _ left right) =>
          leavesUnder nodes fuel left + leavesUnder nodes fuel right
      | none => 0

/-- Number of nodes below (and including) a node (fuelled like
`specsUnder`); the termination measure of the traversal loop. -/
def nodesUnder (nodes : List ContextNode) : ℕ → ℕ → ℕ
  | 0, _ => 0
  | fuel + 1, index =>
      match nodes[index]? with
      | some (ContextNode.leaf _ _) => 1
      | some (ContextNode.node _ _ left right) =>
          nodesUnder nodes fuel left + nodesUnder nodes fuel right + 1
      | none => 0

/-- Indices of the leaves below a node, in `traverse_and_combine` order
(fuelled like `specsUnder`). -/
def leafIndicesUnder (nodes : List ContextNode) : ℕ → ℕ → List ℕ
  | 0, _ => []
  | fuel + 1, index =>
      match nodes[index]? with
      | some (ContextNode.leaf _ _) => [index]
      | some (ContextNode.node _ _ left right) =>
          leafIndicesUnder nodes fuel left ++ leafIndicesUnder nodes fuel right
      | none => []

/-- Check that a node's children indices (if any) are below a bound. -/
def nodeChildrenLt : ContextNode → ℕ → Bool
  | ContextNode.leaf _ _, _ => true
  | ContextNode.node _ _ left right, i => decide (left < i) && decide (right < i)

/-- Well-formedness of a node vector as built by the binning: every inner
node's children are earlier entries. -/
def wfTree (nodes : List ContextNode) : Prop :=
  ∀ i, i < nodes.length →
    nodeChildrenLt (nodes.getD i (ContextNode.leaf [] ⟨0, [], 0⟩)) i = true

/-- Embedding of `ContextTree::combine_contexts`. -/
def combineContexts (nodes : List ContextNode) (index : ℕ) : ComplexContext :=
  ComplexContext.new (specsUnder nodes nodes.length index)
    ((nodes.getD index (ContextNode.leaf [] ⟨0, [], 0⟩)).context)

/-- Merge cost of the node at an index (used as the priority of queue
entries; out-of-range indices never occur for well-formed trees). -/
def costAt (nodes : List ContextNode) (index : ℕ) : ℚ :=
  (nodes.getD index (ContextNode.leaf [] ⟨0, [], 0⟩)).mergeCostOf

/-- Pop from the modelled priority queue: removes an element with minimal
cost (the `BinaryHeap`s order by reversed cost), first occurrence winning
ties. -/
def popBest (cost : ℕ → ℚ) : List ℕ → Option (ℕ × List ℕ)
  | [] => none
  | i :: rest =>
      match popBest cost rest with
      | none => some (i, [])
      | some (j, rest') =>
          if cost i ≤ cost j then some (i, rest) else some (j, i :: rest')

/-- Drain phase of `ContextTree::traverse` (the second `while` loop):
remaining queue entries are combined into complex contexts in pop order.
Fuel `queue.length` is exact. -/
def drainLoop (nodes : List ContextNode) :
    ℕ → List ℕ → List ComplexContext → List ComplexContext
  | 0, _, result => result
  | fuel + 1, queue, result =>
      match popBest (costAt nodes) queue with
      | none => result
      | some (i, rest) => drainLoop nodes fuel rest (result ++ [combineContexts nodes i])

/-- Main phase of `ContextTree::traverse` (the first `while` loop): while
the open set plus the finalized leaves are fewer than `numContexts`, pop a
minimal-cost entry; a leaf is finalized, an inner node is expanded into its
children.  Fuel exhaustion (`none`) cannot happen for well-formed trees
with the fuel chosen in `ContextTree.traverse`. -/
def traverseLoop (nodes : List ContextNode) (numContexts : ℕ) :
    ℕ → List ℕ → List ComplexContext → Option (List ComplexContext)
  | 0, _, _ => none
  | fuel + 1, queue, result =>
      if result.length + queue.length < numContexts then
        match popBest (costAt nodes) queue with
        | none => some (drainLoop nodes queue.length queue result)
        | some (i, rest) =>
            match nodes[i]? with
            | some (ContextNode.leaf _ _) =>
                traverseLoop nodes numContexts fuel rest
                  (result ++ [combineContexts nodes i])
            | some (ContextNode.node _ _ left right) =>
                traverseLoop nodes numContexts fuel (rest ++ [left, right]) result
            | none => none
      else
        some (drainLoop nodes queue.length queue result)

/-- Embedding of `ContextTree::traverse`.  The source starts with
`assert!(num_contexts > 0)`, so the call panics for `num_contexts = 0`;
the panic is modelled by `none`.  The fuel `2 ^ vec.length` bounds the
number of loop iterations for every tree whose children indices are below
the parent index. -/
def ContextTree.traverse (t : ContextTree) (numContexts : ℕ) :
    Option (List ComplexContext) :=
  if numContexts = 0 then none
  else traverseLoop t.vec numContexts (2 ^ t.vec.length) [t.vec.length - 1] []

/-- All ordered pairs `(i, j)` with `i < j < n`, in the enumeration order of
`tuple_combinations`. -/
def allPairs (n : ℕ) : List (ℕ × ℕ) :=
  (List.range n).flatMap (fun i => ((List.range n).filter (fun j => i < j)).map
    (fun j => (i, j)))

/-- Context stored at an index of the node vector. -/
def contextAt (nodes : List ContextNode) (index : ℕ) : Context :=
  (nodes.getD index (ContextNode.leaf [] ⟨0, [], 0⟩)).context

/-- Embedding of `QueuedNode::from_merge`'s cost: the merge cost of the node
that merging `i` and `j` would create. -/
def pairCost (h : ℚ → ℚ) (nodes : List ContextNode) (p : ℕ × ℕ) : ℚ :=
  (ContextNode.newFromMerge h (contextAt nodes p.1) (contextAt nodes p.2)
    p.1 p.2).mergeCostOf

/-- Minimal-cost element of a list (first occurrence wins ties); models a
`BinaryHeap` pop over the queued pair merges. -/
def selectMin (cost : ℕ × ℕ → ℚ) : List (ℕ × ℕ) → Option (ℕ × ℕ)
  | [] => none
  | x :: xs =>
      match selectMin cost xs with
      | none => some x
      | some y => if cost x ≤ cost y then some x else some y

/-- One round of the agglomeration loop of `bin_contexts_nodes`: the
lazy-deletion heap yields the minimal-cost pair whose endpoints are both
still available (stale entries with a consumed endpoint are discarded, and
every pair of available nodes is in the heap); the pair's merge node is
appended and its endpoints are consumed. -/
def binRound (h : ℚ → ℚ) (st : List ContextNode × List Bool) :
    List ContextNode × List Bool :=
  let nodes := st.1
  let avail := st.2
  match selectMin (pairCost h nodes)
      ((allPairs nodes.length).filter
        (fun p => avail.getD p.1 false && avail.getD p.2 false)) with
  | none => st
  | some (i, j) =>
      (nodes ++ [ContextNode.newFromMerge h (contextAt nodes i) (contextAt nodes j) i j],
        ((avail.set i false).set j false) ++ [true])

/-- Embedding of `bin_contexts_nodes`: starting from the leaves, run
`input_length - 1` agglomeration rounds. -/
def binContextsNodes (h : ℚ → ℚ) (nodes : List ContextNode) : ContextTree :=
  ⟨((List.range (nodes.length - 1)).foldl (fun st _ => binRound h st)
    (nodes, List.replicate nodes.length true)).1⟩

/-- Pre-binning loop of `bin_contexts_with_keys`: while more than
`preBinningNum - 1` contexts remain, pop the lowest-probability context (the
last of the descending-sorted list) and merge it into the accumulator.  Fuel
`contexts.length` is exact; the `none` fallback of `getLast?` mirrors the
`unwrap` panic, reachable only for `preBinningNum = 0`. -/
def preBinLoop (h : ℚ → ℚ) (preBinningNum : ℕ) :
    ℕ → List (ℕ × Context) → List ℕ → Context →
    List (ℕ × Context) × List ℕ × Context
  | 0, contexts, specs, ctx => (contexts, specs, ctx)
  | fuel + 1, contexts, specs, ctx =>
      if preBinningNum < contexts.length + 1 then
        match contexts.getLast? with
        | none => (contexts, specs, ctx)
        | some (spec, c) =>
            preBinLoop h preBinningNum fuel contexts.dropLast (specs ++ [spec])
              (Context.mergeWith h ctx c)
      else (contexts, specs, ctx)

/-- Embedding of `bin_contexts_with_keys`: optional pre-binning (sort by
context probability descending — `sort_by` is stable — and merge the
lowest-probability contexts into one multi-spec leaf), then agglomeration. -/
def binContextsWithKeys (h : ℚ → ℚ) (preBinningNum : ℕ)
    (contexts : List (ℕ × Context)) : ContextTree :=
  if preBinningNum < contexts.length then
    let sorted := stableSort
      (fun a b => decide (b.2.contextProb ≤ a.2.contextProb)) contexts
    match sorted.getLast? with
    | some (spec, ctx0) =>
        let res := preBinLoop h preBinningNum sorted.length sorted.dropLast [spec] ctx0
        binContextsNodes h
          ((res.1.map (fun sc => ContextNode.newLeaf sc.1 sc.2)) ++
            [ContextNode.newLeafMulti res.2.1 res.2.2])
    | none => binContextsNodes h []
  else
    binContextsNodes h (contexts.map (fun sc => ContextNode.newLeaf sc.1 sc.2))

/-!
## Model and model identifier (src/idencomp/src/model.rs)

`ContextSpecType` is a closed, macro-generated enumeration; each variant is
observed here only through its stable textual name and its `spec_num()`
bound, so it is modelled by that pair.  `ModelIdentifier` is the SHA-3/256
digest of a canonical serialization; since equal serializations have equal
digests (and distinct serializations have distinct digests barring a SHA-3
collision), the identifier is modelled by the serialized token stream that
is fed to the hasher.
-/

/-- Closed `ContextSpecType` enumeration, modelled by its observables: the
stable textual name and the `spec_num()` upper bound of emitted specs. -/
structure ContextSpecType where
  name : String
  specNum : ℕ
deriving DecidableEq, Repr

/-- Serialization token written into the SHA-3 hasher by
`Model::make_identifier`: a `u8`, a UTF-8 name, an IEEE-754 big-endian `f32`
probability, or a big-endian `u32`. -/
inductive IdToken where
  | byte : ℕ → IdToken
  | name : String → IdToken
  | prob : ℚ → IdToken
  | word : ℕ → IdToken
deriving DecidableEq, Repr

/-- Serialization tag of a model type (`model_type as u8`). -/
def ModelType.tag : ModelType → ℕ
  | ModelType.Acids => 0
  | ModelType.QualityScores => 1

/-- Number of symbols of a model type (`ModelType::symbols_num`): 5 acids or
94 quality scores. -/
def ModelType.symbolsNum : ModelType → ℕ
  | ModelType.Acids => 5
  | ModelType.QualityScores => 94

/-- Lexicographic order on spec lists, the `Ord` of `Vec<u32>` used by
`ComplexContext::cmp` (a strict prefix is smaller). -/
def specsLe : List ℕ → List ℕ → Bool
  | [], _ => true
  | _ :: _, [] => false
  | a :: as_, b :: bs => if a < b then true else if b < a then false else specsLe as_ bs

/-- Lexicographic order on `(u32, u32)` pairs, used when
`Model::make_identifier` sorts the map entries ascending. -/
def pairLe (a b : ℕ × ℕ) : Bool :=
  if a.1 < b.1 then true else if b.1 < a.1 then false else a.2 ≤ b.2

/-- Insertion into the spec-to-index map with `HashMap::insert` overwrite
semantics.  The map is kept as an association list; its order is irrelevant
because the identifier sorts the entries. -/
def insertSpec (map : List (ℕ × ℕ)) (spec index : ℕ) : List (ℕ × ℕ) :=
  map.filter (fun kv => kv.1 ≠ spec) ++ [(spec, index)]

/-- Embedding of `Model::map_contexts`: sort the complex contexts by their
spec lists (`Vec::sort` is a stable sort), then assign context indices in
order and record every spec in the map. -/
def mapContexts (contexts : List ComplexContext) : List Context × List (ℕ × ℕ) :=
  let sorted := stableSort (fun a b => specsLe a.specs b.specs) contexts
  sorted.foldl
    (fun acc cc =>
      (acc.1 ++ [cc.context],
        cc.specs.foldl (fun m spec => insertSpec m spec acc.1.length) acc.2))
    ([], [])

/-- Embedding of `Model::make_identifier`: the token stream fed to the
SHA-3/256 hasher — the model type byte, the spec type name, every context's
symbol probabilities in context order, and the map entries sorted
ascending. -/
def makeIdentifier (modelType : ModelType) (specType : ContextSpecType)
    (contexts : List Context) (map : List (ℕ × ℕ)) : List IdToken :=
  IdToken.byte modelType.tag :: IdToken.name specType.name ::
    (contexts.flatMap (fun c => c.symbolProb.map IdToken.prob) ++
      (stableSort pairLe map).flatMap (fun kv => [IdToken.word kv.1, IdToken.word kv.2]))

/-- Embedding of `Model`: identifier, model type, spec type, contexts and
the spec-to-context-index map. -/
structure Model where
  identifier : List IdToken
  modelType : ModelType
  specType : ContextSpecType
  contexts : List Context
  map : List (ℕ × ℕ)
deriving Repr

/-- Embedding of `Model::with_model_and_spec_type` (the constructor sorts
the complex contexts via `map_contexts` and derives the identifier).  The
assertion that every context has the alphabet's symbol count is a theorem
hypothesis where needed. -/
def Model.withModelAndSpecType (modelType : ModelType) (specType : ContextSpecType)
    (complexContexts : List ComplexContext) : Model :=
  let pair := mapContexts complexContexts
  ⟨makeIdentifier modelType specType pair.1 pair.2, modelType, specType,
    pair.1, pair.2⟩

/-!
## rANS coder models (src/idencomp/src/sequence_compressor.rs,
src/idencomp/src/compressor.rs)

`RansEncContext`/`RansDecContext` derive per-context tables from the integer
cumulative frequencies; `RansEncModel`/`RansDecModel` add the dense
spec-to-table map with the reserved dummy context at table index `0`.
-/

/-- Embedding of `RansEncContext::from_context`: per-symbol
`(cum_freq, freq)` pairs scaled to `1 << scale_bits`. -/
structure RansEncContext where
  symbols : List (ℕ × ℕ)
deriving DecidableEq, Repr

/-- Constructor of `RansEncContext`. -/
def RansEncContext.fromContext (c : Context) (scaleBits : ℕ) : RansEncContext :=
  let cumFreqs := c.asIntegerCumFreqs scaleBits
  ⟨cumFreqs.zip (cumFreqToFreq cumFreqs (2 ^ scaleBits))⟩

/-- Embedding of `Vec::resize`: pad with `value` up to `newLen`, or truncate
down to it. -/
def resizeList (l : List ℕ) (newLen : ℕ) (value : ℕ) : List ℕ :=
  if newLen ≤ l.length then l.take newLen
  else l ++ List.replicate (newLen - l.length) value

/-- The `freq_to_symbol` lookup of `RansDecContext::from_context`: slot `f`
holds the index of the symbol whose cumulative range contains `f`. -/
def freqToSymbolTable (cumFreqs : List ℕ) (total : ℕ) : List ℕ :=
  resizeList
    ((List.range (cumFreqs.length - 1)).foldl
      (fun table i => resizeList table (cumFreqs.getD (i + 1) 0) i) [])
    total (cumFreqs.length - 1)

/-- Embedding of `RansDecContext::from_context`. -/
structure RansDecContext where
  symbols : List (ℕ × ℕ)
  freqToSymbol : List ℕ
  scaleBits : ℕ
deriving DecidableEq, Repr

/-- Constructor of `RansDecContext`. -/
def RansDecContext.fromContext (c : Context) (scaleBits : ℕ) : RansDecContext :=
  let totalFreq := 2 ^ scaleBits
  let cumFreqs := c.asIntegerCumFreqs scaleBits
  ⟨cumFreqs.zip (cumFreqToFreq cumFreqs totalFreq),
    freqToSymbolTable cumFreqs totalFreq, scaleBits⟩

/-- Embedding of `RansDecContext::cum_freq_to_symbol_index`. -/
def RansDecContext.cumFreqToSymbolIndex (c : RansDecContext) (cumFreq : ℕ) : ℕ :=
  c.freqToSymbol.getD cumFreq 0

/-- Embedding of `check_model`: models with more than 10,000 contexts are
rejected (the source panics; modelled as `false`). -/
def checkModel (model : Model) : Bool :=
  model.contexts.length ≤ 10000

/-- Dense spec-to-table map built by `RansEncModel::from_model` and
`RansDecModel::from_model`: a vector of `spec_num()` zeros, overwritten at
every mapped spec with the context index plus one. -/
def buildSpecMap (specNum : ℕ) (entries : List (ℕ × ℕ)) : List ℕ :=
  entries.foldl (fun m kv => m.set kv.1 (kv.2 + 1)) (List.replicate specNum 0)

/-- Embedding of `RansEncModel<SYMBOLS_NUM>`. -/
structure RansEncModel where
  identifier : List IdToken
  contextSpecType : ContextSpecType
  contexts : List RansEncContext
  map : List ℕ
deriving Repr

/-- Embedding of `RansEncModel::from_model` (`symbolsNum` is the
`SYMBOLS_NUM` const generic and `h` the entropy term): the reserved dummy
context over a uniform distribution is table entry `0`, followed by the
model's contexts; `check_model`'s panic is modelled by `none`. -/
def RansEncModel.fromModel (h : ℚ → ℚ) (symbolsNum : ℕ) (model : Model)
    (scaleBits : ℕ) : Option RansEncModel :=
  if checkModel model then
    some
      ⟨model.identifier, model.specType,
        RansEncContext.fromContext (Context.dummy h symbolsNum) scaleBits ::
          model.contexts.map (fun c => RansEncContext.fromContext c scaleBits),
        buildSpecMap model.specType.specNum model.map⟩
  else none

/-- Embedding of `RansEncModel::context_for`. -/
def RansEncModel.contextFor (m : RansEncModel) (spec : ℕ) : RansEncContext :=
  m.contexts.getD (m.map.getD spec 0) ⟨[]⟩

/-- Embedding of `RansDecModel<SYMBOLS_NUM>`. -/
structure RansDecModel where
  contextSpecType : ContextSpecType
  contexts : List RansDecContext
  map : List ℕ
deriving Repr

/-- Embedding of `RansDecModel::from_model`. -/
def RansDecModel.fromModel (h : ℚ → ℚ) (symbolsNum : ℕ) (model : Model)
    (scaleBits : ℕ) : Option RansDecModel :=
  if checkModel model then
    some
      ⟨model.specType,
        RansDecContext.fromContext (Context.dummy h symbolsNum) scaleBits ::
          model.contexts.map (fun c => RansDecContext.fromContext c scaleBits),
        buildSpecMap model.specType.specNum model.map⟩
  else none

/-- Embedding of `RansDecModel::context_for`. -/
def RansDecModel.contextFor (m : RansDecModel) (spec : ℕ) : RansDecContext :=
  m.contexts.getD (m.map.getD spec 0) ⟨[], [], 0⟩

/-- Invariant of the agglomeration loop of `bin_contexts_nodes`, after `t`
rounds starting from the single-spec leaves of `input`: `S` is the list of
still-available node indices.  It records the vector sizes, tree
well-formedness, that every leaf carries exactly one spec, that `S` is
duplicate-free, in range, of size `input.length - t`, contains the last
node, agrees with the availability vector, and that the specs below the
available nodes are a permutation of the input specs. -/
def BinInv (input : List (ℕ × Context)) (st : List ContextNode × List Bool)
    (S : List ℕ) (t : ℕ) : Prop :=
  st.1.length = input.length + t ∧
  st.2.length = input.length + t ∧
  wfTree st.1 ∧
  (∀ (j : ℕ) (sp : List ℕ) (c : Context),
    st.1[j]? = some (ContextNode.leaf sp c) → sp.length = 1) ∧
  S.Nodup ∧
  (∀ k ∈ S, k < st.1.length) ∧
  S.length + 2 * t = input.length + t ∧
  (st.1.length - 1) ∈ S ∧
  (∀ k, k < st.1.length → (st.2.getD k false = true ↔ k ∈ S)) ∧
  ((S.map (fun i => specsUnder st.1 st.1.length i)).flatten).Perm
    (input.map Prod.fst)

/-!
## Theorems

Helper lemmas come first; the claim theorems are named after the behaviour
they settle.
-/

/-- Helper for C8: slices handled before the first sequence slice that are
all identifiers slices leave the current acid model untouched. -/
theorem nextSequenceInternal_identifiers_only_acid_none
    (decode : ℕ → ℕ → ℕ → List ℕ → FastqSequence) (pre : List IdnSlice)
    (dataLen seqLen : ℕ) (data : List ℕ) (rest : List IdnSlice) :
    ∀ st : IdnBlockDecompressor, st.currentAcidModel = none →
      (∀ sl ∈ pre, ∃ lines, sl = IdnSlice.identifiers lines) →
      IdnBlockDecompressor.nextSequenceInternal decode
          (pre ++ IdnSlice.sequenceSlice dataLen seqLen data :: rest) st =
        Except.error (IdnDecompressorError.noActiveModel ModelType.Acids) := by
  induction pre with
  | nil =>
      intro st hAcid _
      simp only [IdnBlockDecompressor.nextSequenceInternal,
        IdnBlockDecompressor.handleSequenceSlice,
        IdnBlockDecompressor.getCurrentAcidModel, hAcid, List.nil_append]
      rfl
  | cons sl pre ih =>
      intro st hAcid hPre
      obtain ⟨lines, rfl⟩ := hPre sl (List.mem_cons_self sl pre)
      have := ih { st with identifiers := lines.reverse }
        (by simpa [IdnBlockDecompressor.handleIdentifiersSlice] using hAcid)
        (fun s hs => hPre s (List.mem_cons_of_mem _ hs))
      simpa [IdnBlockDecompressor.nextSequenceInternal,
        IdnBlockDecompressor.handleIdentifiersSlice] using this

/-- C8: a switch-model slice whose index is not below the active-model count
fails with an invalid-model-index error carrying the index and the model
count; and a sequence slice reached while the acid model (checked first) or
the quality-score model is still unset fails with a no-active-model error
naming the missing model type — identifiers slices in between do not set
any model. -/
theorem switch_model_and_sequence_slice_errors
    (decode : ℕ → ℕ → ℕ → List ℕ → FastqSequence) (st : IdnBlockDecompressor)
    (idx : ℕ) (pre : List IdnSlice) (dataLen seqLen : ℕ) (data : List ℕ)
    (rest : List IdnSlice) (models : List ModelType) :
    (st.modelTypes.length ≤ idx → idx < 256 → st.modelTypes.length < 256 →
      st.handleSwitchModelSlice idx =
        Except.error
          (IdnDecompressorError.invalidModelIndex idx st.modelTypes.length)) ∧
    ((∀ sl ∈ pre, ∃ lines, sl = IdnSlice.identifiers lines) →
      IdnBlockDecompressor.nextSequenceInternal decode
          (pre ++ IdnSlice.sequenceSlice dataLen seqLen data :: rest)
          (IdnBlockDecompressor.new models) =
        Except.error (IdnDecompressorError.noActiveModel ModelType.Acids)) ∧
    (st.currentAcidModel.isSome → st.currentQScoreModel = none →
      IdnBlockDecompressor.nextSequenceInternal decode
          (IdnSlice.sequenceSlice dataLen seqLen data :: rest) st =
        Except.error (IdnDecompressorError.noActiveModel ModelType.QualityScores)) := by
  refine ⟨?_, ?_, ?_⟩
  · intro hle hidx hlen
    simp [IdnBlockDecompressor.handleSwitchModelSlice, Nat.not_lt.mpr hle,
      Nat.mod_eq_of_lt hidx, Nat.mod_eq_of_lt hlen, hle]
  · intro hPre
    exact nextSequenceInternal_identifiers_only_acid_none decode pre dataLen seqLen
      data rest (IdnBlockDecompressor.new models) rfl hPre
  · intro hAcid hQ
    obtain ⟨i, hi⟩ := Option.isSome_iff_exists.mp hAcid
    simp only [IdnBlockDecompressor.nextSequenceInternal,
      IdnBlockDecompressor.handleSequenceSlice,
      IdnBlockDecompressor.getCurrentAcidModel,
      IdnBlockDecompressor.getCurrentQScoreModel, hi, hQ]
    rfl

/-- Witness for the C8 theorem at concrete inputs: one acid model, switch
index 1 out of range; a sequence slice after one identifiers slice with no
prior switch errors on the acid model; with only an acid model set, the
quality-score model is reported missing. -/
theorem switch_model_and_sequence_slice_errors_witness :
    (IdnBlockDecompressor.mk [ModelType.Acids] [] none none).handleSwitchModelSlice 1 =
        Except.error (IdnDecompressorError.invalidModelIndex 1 1) ∧
    IdnBlockDecompressor.nextSequenceInternal (fun _ _ _ _ => ⟨"", [], []⟩)
        ([IdnSlice.identifiers ["a"]] ++ IdnSlice.sequenceSlice 0 0 [] :: [])
        (IdnBlockDecompressor.new [ModelType.Acids]) =
      Except.error (IdnDecompressorError.noActiveModel ModelType.Acids) ∧
    IdnBlockDecompressor.nextSequenceInternal (fun _ _ _ _ => ⟨"", [], []⟩)
        (IdnSlice.sequenceSlice 0 0 [] :: [])
        (IdnBlockDecompressor.mk [ModelType.Acids] [] (some 0) none) =
      Except.error (IdnDecompressorError.noActiveModel ModelType.QualityScores) := by
  obtain ⟨h1, h2, h3⟩ := switch_model_and_sequence_slice_errors
    (fun _ _ _ _ => ⟨"", [], []⟩)
    (IdnBlockDecompressor.mk [ModelType.Acids] [] (some 0) none) 1
    [IdnSlice.identifiers ["a"]] 0 0 [] [] [ModelType.Acids]
  refine ⟨?_, ?_, ?_⟩
  · obtain ⟨h1', _, _⟩ := switch_model_and_sequence_slice_errors
      (fun _ _ _ _ => ⟨"", [], []⟩)
      (IdnBlockDecompressor.mk [ModelType.Acids] [] none none) 1
      [] 0 0 [] [] [ModelType.Acids]
    exact h1' (by decide) (by decide) (by decide)
  · exact h2 (by intro sl hsl; simp at hsl; exact ⟨["a"], hsl⟩)
  · exact h3 (by decide) rfl

/-- C9 counterexample: for `LENGTH = 0` the source's `back()` starts with
`assert!(LENGTH > 0)` and panics (modelled by `none`), so it does not return
`0` as the claim states. -/
theorem intQueue_len_zero_back_panics :
    ¬ (IntQueue.back (IntQueue.withDefault 5 0 0) = some 0) := by
  decide

/-- C9 as amended: for `LENGTH = 0`, construction yields state `0`,
push-back and pop-back are no-ops keeping the state at `0`, and
`num_bits()`/`mask()` are `0`; but `back()` asserts `LENGTH > 0` and panics
instead of returning `0`. -/
theorem intQueue_len_zero_noop (m v x : ℕ) (_hm : 0 < m) :
    (IntQueue.withDefault m 0 v).state = 0 ∧
    (IntQueue.withDefault m 0 v).withPushedBack x = IntQueue.withDefault m 0 v ∧
    (IntQueue.withDefault m 0 v).withPoppedBack = IntQueue.withDefault m 0 v ∧
    IntQueue.numBits m 0 = 0 ∧
    IntQueue.mask m 0 = 0 ∧
    (IntQueue.withDefault m 0 v).back = none := by
  refine ⟨rfl, ?_, ?_, ?_, ?_, rfl⟩
  · simp [IntQueue.withPushedBack, IntQueue.withDefault]
  · simp [IntQueue.withPoppedBack, IntQueue.withDefault, IntQueue.calcDefaultState]
  · simp [IntQueue.numBits, Nat.size]
  · simp [IntQueue.mask, IntQueue.numBits, Nat.size]

/-- Witness for the C9 theorem at base 5. -/
theorem intQueue_len_zero_noop_witness :
    (IntQueue.withDefault 5 0 7).state = 0 ∧
    (IntQueue.withDefault 5 0 7).withPushedBack 3 = IntQueue.withDefault 5 0 7 ∧
    (IntQueue.withDefault 5 0 7).withPoppedBack = IntQueue.withDefault 5 0 7 ∧
    IntQueue.numBits 5 0 = 0 ∧
    IntQueue.mask 5 0 = 0 ∧
    (IntQueue.withDefault 5 0 7).back = none :=
  intQueue_len_zero_noop 5 7 3 (by decide)

/-- C7: `add_sequence` rejects every sequence longer than
`max_block_total_len / 2` with a sequence-too-long error carrying the actual
length and the limit, leaves the compressor state (in particular the pending
block) unchanged, and the compressor can still be finished cleanly. -/
theorem addSequence_rejects_too_long (c : IdnCompressor) (s : FastqSequence)
    (hlen : c.maxSeqLen < s.len) :
    c.addSequence s =
      (c, some (IdnCompressorError.sequenceTooLong s.len c.maxSeqLen)) ∧
    ∃ blocks, c.finish = Except.ok blocks := by
  constructor
  · simp only [IdnCompressor.addSequence]
    rw [if_pos hlen]
  · exact ⟨_, rfl⟩

/-- Witness for the C7 theorem: Scenario B — `max_block_total_len = 1`, a
4-acid sequence is rejected with actual length 4 and limit 0, and finishing
the untouched fresh compressor emits just the zero-length terminator
block. -/
theorem addSequence_rejects_too_long_witness :
    (IdnCompressor.withParams 1 true).addSequence ⟨"", [1, 2, 3, 4], [0, 1, 13, 50]⟩ =
      (IdnCompressor.withParams 1 true,
        some (IdnCompressorError.sequenceTooLong 4 0)) ∧
    (IdnCompressor.withParams 1 true).finish = Except.ok [[]] := by
  obtain ⟨h1, _⟩ := addSequence_rejects_too_long (IdnCompressor.withParams 1 true)
    ⟨"", [1, 2, 3, 4], [0, 1, 13, 50]⟩ (by decide)
  exact ⟨h1, rfl⟩

/-- C2 evaluated at the failing input: `BlockWriter::write_to` fills the
`block_num` header field with `slices_num`.  For the first block of a
one-sequence stream with identifiers (identifiers slice, two switch-model
slices, one sequence slice) the written `block_num` is 4, not the block
index 0; the zero-length terminator block (an empty writer) does carry
`length = 0` and `block_num = 0`. -/
theorem blockWriter_blockNum_is_slice_count (crc : List FastqSequence → ℕ)
    (idData seqData : List ℕ) (s : FastqSequence) :
    ((((BlockWriter.new.writeIdentifiers IdnIdentifierCompression.Deflate
          idData).writeSwitchModel 0).writeSwitchModel 1).writeSequence s
            seqData).header crc =
      { length := idData.length + seqData.length + 19, seqChecksum := crc [s],
        blockNum := 4 } ∧
    (4 : ℕ) ≠ 0 ∧
    (BlockWriter.new.header crc).length = 0 ∧
    (BlockWriter.new.header crc).blockNum = 0 := by
  refine ⟨?_, by decide, rfl, rfl⟩
  simp [BlockWriter.new, BlockWriter.writeIdentifiers, BlockWriter.writeSequence,
    BlockWriter.writeSwitchModel, BlockWriter.writeSliceHeader, BlockWriter.header,
    IdnSliceHeader.toBytes, u32BE, IdnIdentifierCompression.tag]
  omega

/-- Sum after bumping zeros to one: the original sum plus the number of
zeros. -/
theorem sum_map_bump (l : List ℕ) :
    (l.map fun f => if f = 0 then 1 else f).sum = l.sum + l.count 0 := by
  induction l with
  | nil => simp
  | cons x xs ih =>
      by_cases hx : x = 0 <;>
        simp [hx, ih, List.count_cons] <;> omega

/-- A list of positive naturals whose sum exceeds its length has an entry
greater than one. -/
theorem exists_gt_one_of_sum_gt (fs : List ℕ) (h1 : ∀ x ∈ fs, 1 ≤ x)
    (h2 : fs.length < fs.sum) : ∃ j, j < fs.length ∧ 1 < fs.getD j 0 := by
  induction fs with
  | nil => simp at h2
  | cons x xs ih =>
      by_cases hx : 1 < x
      · exact ⟨0, by simp, by simpa using hx⟩
      · have hx1 : x = 1 := by
          have := h1 x (List.mem_cons_self x xs)
          omega
        have hlt : xs.length < xs.sum := by
          simp [hx1] at h2
          omega
        obtain ⟨j, hj, hgt⟩ := ih (fun y hy => h1 y (List.mem_cons_of_mem _ hy)) hlt
        exact ⟨j + 1, by simpa using hj, by simpa using hgt⟩

/-- Sum of a list after setting one entry, stated without subtraction. -/
theorem sum_set_add (l : List ℕ) :
    ∀ i v, i < l.length → (l.set i v).sum + l.getD i 0 = l.sum + v := by
  induction l with
  | nil => intro i v h; simp at h
  | cons x xs ih =>
      intro i v h
      cases i with
      | zero => simp [List.set]; omega
      | succ i =>
          have := ih i v (by simpa using h)
          simp only [List.set, List.sum_cons, List.getD_cons_succ]
          omega
/-- Cyclic distance: from any position `i` there is a step count `d < n`
reaching any target `j < n` when walking modulo `n`. -/
theorem cyc_dist (n i j : ℕ) (hn : 0 < n) (hi : i ≤ n) (hj : j < n) :
    (j + n - i) % n < n ∧ (i + (j + n - i) % n) % n = j := by
  refine ⟨Nat.mod_lt _ hn, ?_⟩
  rw [Nat.add_mod_mod]
  have heq : i + (j + n - i) = j + n := by omega
  rw [heq, Nat.add_mod_right, Nat.mod_eq_of_lt hj]

/-- Sufficiency of the fuel for the `fix_zero_freqs` loop: starting from
positive entries whose sum is `T + zc` with `T` above the length, and fuel
covering `zc` decrements with at most one full cyclic scan before each, the
loop terminates with positive entries summing to `T`. -/
theorem fixZeroLoop_spec (T : ℕ) :
    ∀ fuel zc i fs, i < fs.length → (∀ x ∈ fs, 1 ≤ x) → fs.sum = T + zc →
      fs.length < T →
      (zc = 0 ∨ ∃ d, d < fs.length ∧ 1 < fs.getD ((i + d) % fs.length) 0 ∧
        zc * fs.length + d + 1 ≤ fuel) →
      (fixZeroLoop fuel zc i fs).length = fs.length ∧
      (∀ x ∈ fixZeroLoop fuel zc i fs, 1 ≤ x) ∧
      (fixZeroLoop fuel zc i fs).sum = T := by
  intro fuel
  induction fuel with
  | zero =>
      intro zc i fs hi hpos hsum hT hd
      rcases hd with h0 | ⟨d, _, _, hb⟩
      · subst h0
        exact ⟨rfl, hpos, by simpa using hsum⟩
      · exact absurd hb (Nat.not_succ_le_zero _)
  | succ fuel ih =>
      intro zc i fs hi hpos hsum hT hd
      cases zc with
      | zero => exact ⟨rfl, hpos, by simpa using hsum⟩
      | succ zc =>
          rcases hd with h0 | ⟨d, hdn, hbig, hfuel⟩
          · exact absurd h0 (Nat.succ_ne_zero zc)
          have hn : 0 < fs.length := Nat.lt_of_le_of_lt (Nat.zero_le i) hi
          have hi'lt : (if i + 1 ≥ fs.length then 0 else i + 1) < fs.length := by
            by_cases hge : i + 1 ≥ fs.length
            · simpa [hge] using hn
            · simpa [hge] using Nat.lt_of_not_le hge
          rw [fixZeroLoop]
          by_cases hcur : 1 < fs.getD i 0
          · -- decrement step: the entry at `i` loses one unit
            simp only [hcur, if_true]
            have hlen' : (fs.set i (fs.getD i 0 - 1)).length = fs.length := by
              simp
            have hsum' : (fs.set i (fs.getD i 0 - 1)).sum = T + zc := by
              have := sum_set_add fs i (fs.getD i 0 - 1) hi
              omega
            have hpos' : ∀ x ∈ fs.set i (fs.getD i 0 - 1), 1 ≤ x := by
              intro x hx
              rcases List.mem_or_eq_of_mem_set hx with hmem | rfl
              · exact hpos x hmem
              · omega
            have hres := ih zc (if i + 1 ≥ fs.length then 0 else i + 1)
              (fs.set i (fs.getD i 0 - 1)) ?_ hpos' hsum' ?_ ?_
            · exact ⟨hres.1.trans hlen', hres.2.1, hres.2.2⟩
            · rw [hlen']
              exact hi'lt
            · rw [hlen']
              exact hT
            · by_cases hzc : zc = 0
              · exact Or.inl hzc
              · right
                have hTlt : (fs.set i (fs.getD i 0 - 1)).length <
                    (fs.set i (fs.getD i 0 - 1)).sum := by
                  rw [hlen', hsum']
                  omega
                obtain ⟨j, hj, hjgt⟩ := exists_gt_one_of_sum_gt _ hpos' hTlt
                rw [hlen'] at hj
                obtain ⟨hdlt, hdeq⟩ := cyc_dist fs.length
                  (if i + 1 ≥ fs.length then 0 else i + 1) j hn
                  (Nat.le_of_lt hi'lt) hj
                refine ⟨(j + fs.length -
                  (if i + 1 ≥ fs.length then 0 else i + 1)) % fs.length,
                  ?_, ?_, ?_⟩
                · rw [hlen']
                  exact hdlt
                · rw [hlen', hdeq]
                  exact hjgt
                · rw [hlen']
                  have hmul : (zc + 1) * fs.length = zc * fs.length + fs.length :=
                    Nat.succ_mul zc fs.length
                  omega
          · -- skip step: the entry at `i` is one, advance the position
            simp only [hcur, if_false]
            have hd0 : d ≠ 0 := by
              intro h0
              rw [h0, Nat.add_zero, Nat.mod_eq_of_lt hi] at hbig
              exact hcur hbig
            refine ih (zc + 1) (if i + 1 ≥ fs.length then 0 else i + 1) fs hi'lt
              hpos hsum hT (Or.inr ?_)
            refine ⟨d - 1, by omega, ?_, by omega⟩
            · have hidx : ((if i + 1 ≥ fs.length then 0 else i + 1) + (d - 1)) %
                  fs.length = (i + d) % fs.length := by
                by_cases hge : i + 1 ≥ fs.length
                · have h1 : i + d = d - 1 + fs.length := by omega
                  simp only [hge, if_true, Nat.zero_add]
                  rw [h1, Nat.add_mod_right]
                · have h2 : (i + 1) + (d - 1) = i + d := by omega
                  simp only [hge, if_false]
                  rw [h2]
              rw [hidx]
              exact hbig

/-- Positivity and sum of `fix_zero_freqs`: when the frequencies sum to more
than their number (guaranteed by the `total > symbols_num` assertion), the
result keeps the length and the sum and every entry is at least one. -/
theorem fixZeroFreqs_spec (fs : List ℕ) (h0 : 0 < fs.length)
    (hT : fs.length < fs.sum) :
    (fixZeroFreqs fs).length = fs.length ∧
    (∀ x ∈ fixZeroFreqs fs, 1 ≤ x) ∧
    (fixZeroFreqs fs).sum = fs.sum := by
  have hblen : (fs.map fun f => if f = 0 then 1 else f).length = fs.length :=
    List.length_map fs _
  have hbpos : ∀ x ∈ fs.map fun f => if f = 0 then 1 else f, 1 ≤ x := by
    intro x hx
    obtain ⟨y, _, rfl⟩ := List.mem_map.mp hx
    by_cases hy : y = 0 <;> simp [hy]
    omega
  have hbsum : (fs.map fun f => if f = 0 then 1 else f).sum =
      fs.sum + fs.count 0 := sum_map_bump fs
  have hmain := fixZeroLoop_spec fs.sum
    (fs.count 0 * fs.length + fs.length + 1) (fs.count 0) 0
    (fs.map fun f => if f = 0 then 1 else f) (by rw [hblen]; exact h0)
    hbpos hbsum (by rw [hblen]; exact hT) ?_
  · unfold fixZeroFreqs
    exact ⟨hmain.1.trans hblen, hmain.2.1, hmain.2.2⟩
  · by_cases hzc : fs.count 0 = 0
    · exact Or.inl hzc
    · right
      have hlt : (fs.map fun f => if f = 0 then 1 else f).length <
          (fs.map fun f => if f = 0 then 1 else f).sum := by
        rw [hblen, hbsum]
        omega
      obtain ⟨j, hj, hjgt⟩ := exists_gt_one_of_sum_gt _ hbpos hlt
      refine ⟨j, hj, ?_, ?_⟩
      · rw [Nat.zero_add, Nat.mod_eq_of_lt hj]
        exact hjgt
      · simp only [hblen] at hj ⊢
        omega

/-- Length of exclusive prefix sums. -/
theorem exclusivePrefixSums_length (l : List ℚ) :
    ∀ acc, (exclusivePrefixSums acc l).length = l.length := by
  induction l with
  | nil => intro acc; rfl
  | cons x xs ih => intro acc; simp [exclusivePrefixSums, ih]

/-- Exclusive prefix sums of non-negative values form a non-decreasing chain
bounded between the accumulator and the accumulator plus the total sum. -/
theorem exclusivePrefixSums_chain (l : List ℚ) :
    ∀ acc, (∀ x ∈ l, 0 ≤ x) →
      List.Chain' (· ≤ ·) (exclusivePrefixSums acc l) ∧
      ∀ y ∈ exclusivePrefixSums acc l, acc ≤ y ∧ y ≤ acc + l.sum := by
  induction l with
  | nil => intro acc _; exact ⟨List.chain'_nil, by simp [exclusivePrefixSums]⟩
  | cons x xs ih =>
      intro acc hpos
      have hx : 0 ≤ x := hpos x (List.mem_cons_self x xs)
      have hxs : ∀ y ∈ xs, 0 ≤ y := fun y hy => hpos y (List.mem_cons_of_mem _ hy)
      have hsum : 0 ≤ xs.sum := List.sum_nonneg hxs
      obtain ⟨hchain, hbound⟩ := ih (acc + x) hxs
      constructor
      · refine hchain.cons' ?_
        intro y hy
        have := (hbound y (List.mem_of_mem_head? hy)).1
        linarith
      · intro y hy
        rcases List.mem_cons.mp hy with rfl | hy'
        · constructor
          · exact le_refl _
          · simp only [List.sum_cons]
            linarith
        · obtain ⟨h1, h2⟩ := hbound y hy'
          constructor
          · linarith
          · simp only [List.sum_cons]
            linarith

/-- Rounding a natural number plus one half floors back to the number. -/
theorem roundNonneg_natCast_add_half (t : ℕ) : ((t : ℚ) + 1 / 2).floor = t := by
  show ⌊(t : ℚ) + 1 / 2⌋ = t
  rw [Int.floor_eq_iff]
  constructor
  · push_cast
    linarith
  · push_cast
    linarith

/-- The `Rat.floor` used by the embedding agrees with the floor-ring
operator. -/
theorem ratFloor_eq_floor (q : ℚ) : q.floor = ⌊q⌋ :=
  rfl

/-- Monotonicity of the modelled `f32::round` on non-negative values. -/
theorem roundNonneg_mono {x y : ℚ} (h : x ≤ y) : roundNonneg x ≤ roundNonneg y := by
  unfold roundNonneg
  rw [ratFloor_eq_floor, ratFloor_eq_floor]
  exact Int.toNat_le_toNat (Int.floor_mono (by linarith))

/-- The modelled rounding fixes natural numbers. -/
theorem roundNonneg_natCast (t : ℕ) : roundNonneg (t : ℚ) = t := by
  unfold roundNonneg
  rw [roundNonneg_natCast_add_half]
  exact Int.toNat_natCast t

/-- Upper bound of the modelled rounding: a value at most `t` rounds to at
most `t`. -/
theorem roundNonneg_le {x : ℚ} {t : ℕ} (h : x ≤ t) : roundNonneg x ≤ t := by
  have h1 : roundNonneg x ≤ roundNonneg t := roundNonneg_mono h
  have h2 : roundNonneg (t : ℚ) = t := roundNonneg_natCast t
  omega

/-- Zero rounds to zero. -/
theorem roundNonneg_zero : roundNonneg 0 = 0 := by
  have := roundNonneg_natCast_add_half 0
  unfold roundNonneg
  simp only [Rat.zero_add] at this ⊢
  simpa using congrArg Int.toNat this

/-- Length of `cum_freq_to_freq`. -/
theorem cumFreqToFreq_length : ∀ (c : List ℕ) (total : ℕ),
    (cumFreqToFreq c total).length = c.length
  | [], _ => rfl
  | [_], _ => rfl
  | x :: y :: rest, total => by
      simp [cumFreqToFreq, cumFreqToFreq_length (y :: rest) total]

/-- Sum of `cum_freq_to_freq` on a non-decreasing cumulative list bounded by
`total`: the frequencies sum to `total` minus the first entry. -/
theorem cumFreqToFreq_sum : ∀ (l : List ℕ) (x total : ℕ),
    List.Chain' (· ≤ ·) (x :: l) → (∀ y ∈ x :: l, y ≤ total) →
    (cumFreqToFreq (x :: l) total).sum + x = total := by
  intro l
  induction l with
  | nil =>
      intro x total _ hb
      have := hb x (List.mem_cons_self x [])
      simp [cumFreqToFreq]
      omega
  | cons y rest ih =>
      intro x total hchain hb
      have hxy : x ≤ y := List.rel_of_chain_cons hchain
      have htail : List.Chain' (· ≤ ·) (y :: rest) := List.Chain'.tail hchain
      have hbtail : ∀ z ∈ y :: rest, z ≤ total := fun z hz =>
        hb z (List.mem_cons_of_mem _ hz)
      have := ih y total htail hbtail
      simp only [cumFreqToFreq, List.sum_cons]
      omega

/-- Members of `freq_to_cum_freq` are at least the accumulator. -/
theorem freqToCumFreqAux_ge : ∀ (l : List ℕ) (acc : ℕ),
    ∀ y ∈ freqToCumFreqAux acc l, acc ≤ y := by
  intro l
  induction l with
  | nil => intro acc y hy; simp [freqToCumFreqAux] at hy
  | cons x xs ih =>
      intro acc y hy
      rcases List.mem_cons.mp hy with rfl | hy'
      · exact le_refl _
      · have := ih (acc + x) y hy'
        omega

/-- With positive frequencies, `freq_to_cum_freq` is strictly increasing. -/
theorem freqToCumFreqAux_chain : ∀ (l : List ℕ) (acc : ℕ),
    (∀ x ∈ l, 1 ≤ x) → List.Chain' (· < ·) (freqToCumFreqAux acc l) := by
  intro l
  induction l with
  | nil => intro acc _; exact List.chain'_nil
  | cons x xs ih =>
      intro acc hpos
      have hx : 1 ≤ x := hpos x (List.mem_cons_self x xs)
      refine (ih (acc + x) (fun y hy => hpos y (List.mem_cons_of_mem _ hy))).cons' ?_
      intro y hy
      have := freqToCumFreqAux_ge xs (acc + x) y (List.mem_of_mem_head? hy)
      omega

/-- With positive frequencies, every member of `freq_to_cum_freq` is
strictly below the accumulator plus the total sum. -/
theorem freqToCumFreqAux_lt_sum : ∀ (l : List ℕ) (acc : ℕ),
    (∀ x ∈ l, 1 ≤ x) → ∀ y ∈ freqToCumFreqAux acc l, y + 1 ≤ acc + l.sum := by
  intro l
  induction l with
  | nil => intro acc _ y hy; simp [freqToCumFreqAux] at hy
  | cons x xs ih =>
      intro acc hpos y hy
      have hx : 1 ≤ x := hpos x (List.mem_cons_self x xs)
      have hsum : (x :: xs).sum = x + xs.sum := List.sum_cons
      rcases List.mem_cons.mp hy with rfl | hy'
      · have : 0 ≤ xs.sum := Nat.zero_le _
        omega
      · have := ih (acc + x) (fun z hz => hpos z (List.mem_cons_of_mem _ hz)) y hy'
        omega

/-- Length of `freq_to_cum_freq`. -/
theorem freqToCumFreqAux_length : ∀ (l : List ℕ) (acc : ℕ),
    (freqToCumFreqAux acc l).length = l.length := by
  intro l
  induction l with
  | nil => intro acc; rfl
  | cons x xs ih => intro acc; simp [freqToCumFreqAux, ih]

/-- Round trip between frequencies and cumulative frequencies: converting
frequencies to cumulative form and back recovers them when the accumulator
plus their sum is the scale total. -/
theorem cumFreqToFreq_freqToCumFreqAux : ∀ (l : List ℕ) (acc total : ℕ),
    l ≠ [] → acc + l.sum = total →
    cumFreqToFreq (freqToCumFreqAux acc l) total = l := by
  intro l
  induction l with
  | nil => intro acc total h _; exact absurd rfl h
  | cons x xs ih =>
      intro acc total _ hsum
      cases xs with
      | nil =>
          simp only [freqToCumFreqAux, cumFreqToFreq]
          simp at hsum
          congr 1
          omega
      | cons y ys =>
          have htail := ih (acc + x) total (List.cons_ne_nil y ys)
            (by simp at hsum ⊢; omega)
          simp only [freqToCumFreqAux, cumFreqToFreq] at htail ⊢
          rw [htail]
          congr 1
          omega

/-- C4 counterexample: for the context with symbol probabilities
`[1/8, 7/8, 0, 0]` and scale bits 4, the source subtracts the excess for the
two bumped zero frequencies from `freqs[0] = 2` and `freqs[1] = 14` (the
first two positions greater than one, scanning round-robin from the start),
yielding cumulative frequencies `[0, 1, 14, 15]`, whereas subtracting from
the largest frequencies, as the claim describes, yields `[0, 2, 14, 15]`. -/
theorem asIntegerCumFreqs_ne_sub_from_largest :
    Context.asIntegerCumFreqs ⟨1, [1/8, 7/8, 0, 0], 0⟩ 4 = [0, 1, 14, 15] ∧
    Context.asIntegerCumFreqsSpec ⟨1, [1/8, 7/8, 0, 0], 0⟩ 4 = [0, 2, 14, 15] ∧
    Context.asIntegerCumFreqs ⟨1, [1/8, 7/8, 0, 0], 0⟩ 4 ≠
      Context.asIntegerCumFreqsSpec ⟨1, [1/8, 7/8, 0, 0], 0⟩ 4 := by
  have hmap : ([1/8, 7/8, 0, 0] : List ℚ).map (fun x => x * ((2 ^ 4 : ℕ) : ℚ)) =
      [2, 14, 0, 0] := by
    norm_num
  have heps : exclusivePrefixSums 0 ([2, 14, 0, 0] : List ℚ) = [0, 2, 16, 16] := by
    simp only [exclusivePrefixSums]
    norm_num
  have hround : ([0, 2, 16, 16] : List ℚ).map roundNonneg = [0, 2, 16, 16] := by
    have h0 : roundNonneg (0 : ℚ) = 0 := by
      simpa using roundNonneg_natCast 0
    have h2 : roundNonneg (2 : ℚ) = 2 := by
      simpa using roundNonneg_natCast 2
    have h16 : roundNonneg (16 : ℚ) = 16 := by
      simpa using roundNonneg_natCast 16
    simp [h0, h2, h16]
  have hcum : (exclusivePrefixSums 0 (([1/8, 7/8, 0, 0] : List ℚ).map
      (fun x => x * ((2 ^ 4 : ℕ) : ℚ)))).map roundNonneg = [0, 2, 16, 16] := by
    rw [hmap, heps, hround]
  refine ⟨?_, ?_, ?_⟩
  · show freqToCumFreq (fixZeroFreqs (cumFreqToFreq ((exclusivePrefixSums 0
      (([1/8, 7/8, 0, 0] : List ℚ).map (fun x => x * ((2 ^ 4 : ℕ) : ℚ)))).map
        roundNonneg) (2 ^ 4))) = [0, 1, 14, 15]
    rw [hcum]
    decide
  · show freqToCumFreq (fixZeroFreqsSpec (cumFreqToFreq ((exclusivePrefixSums 0
      (([1/8, 7/8, 0, 0] : List ℚ).map (fun x => x * ((2 ^ 4 : ℕ) : ℚ)))).map
        roundNonneg) (2 ^ 4))) = [0, 2, 14, 15]
    rw [hcum]
    decide
  · show freqToCumFreq (fixZeroFreqs (cumFreqToFreq ((exclusivePrefixSums 0
      (([1/8, 7/8, 0, 0] : List ℚ).map (fun x => x * ((2 ^ 4 : ℕ) : ℚ)))).map
        roundNonneg) (2 ^ 4))) ≠
      freqToCumFreq (fixZeroFreqsSpec (cumFreqToFreq ((exclusivePrefixSums 0
      (([1/8, 7/8, 0, 0] : List ℚ).map (fun x => x * ((2 ^ 4 : ℕ) : ℚ)))).map
        roundNonneg) (2 ^ 4)))
    rw [hcum]
    decide

/-- C4 as amended: for a context with `K ≥ 1` symbol probabilities, each in
`[0, 1]` and summing to one within tolerance from below, and scale bits with
`2^S > K`, `as_integer_cum_freqs` returns `K` strictly increasing cumulative
frequencies, all below `2^S`; the per-symbol frequencies they induce sum to
`2^S` and are all at least one (every originally-zero frequency having been
bumped to one, with the excess subtracted round-robin from the start from
frequencies greater than one — not from the largest frequencies). -/
theorem asIntegerCumFreqs_valid (c : Context) (S : ℕ)
    (hrange : ∀ p ∈ c.symbolProb, 0 ≤ p ∧ p ≤ 1)
    (hlen : 1 ≤ c.symbolNum)
    (hsumub : c.symbolProb.sum ≤ 1)
    (_hsumlb : 1 - 1 / 1000000 ≤ c.symbolProb.sum)
    (hS : c.symbolNum < 2 ^ S) :
    (c.asIntegerCumFreqs S).length = c.symbolNum ∧
    List.Chain' (· < ·) (c.asIntegerCumFreqs S) ∧
    (∀ y ∈ c.asIntegerCumFreqs S, y < 2 ^ S) ∧
    (cumFreqToFreq (c.asIntegerCumFreqs S) (2 ^ S)).sum = 2 ^ S ∧
    (∀ f ∈ cumFreqToFreq (c.asIntegerCumFreqs S) (2 ^ S), 1 ≤ f) := by
  have htotpos : 0 < 2 ^ S := Nat.pos_pow_of_pos S (by omega)
  set total : ℕ := 2 ^ S with htotal
  set mapped := c.symbolProb.map (fun x => x * (total : ℚ)) with hmapped
  have hmpos : ∀ x ∈ mapped, 0 ≤ x := by
    intro x hx
    obtain ⟨p, hp, rfl⟩ := List.mem_map.mp hx
    exact mul_nonneg (hrange p hp).1 (by positivity)
  have hmsum : mapped.sum ≤ (total : ℚ) := by
    have : mapped.sum = c.symbolProb.sum * (total : ℚ) := by
      rw [hmapped]
      exact List.sum_map_mul_right c.symbolProb id (total : ℚ) ▸ by
        simp [List.sum_map_mul_right]
    rw [this]
    calc c.symbolProb.sum * (total : ℚ) ≤ 1 * (total : ℚ) := by
          apply mul_le_mul_of_nonneg_right hsumub (by positivity)
      _ = (total : ℚ) := one_mul _
  obtain ⟨hchain0, hbound0⟩ := exclusivePrefixSums_chain mapped 0 hmpos
  set cum := (exclusivePrefixSums 0 mapped).map roundNonneg with hcum
  have hcumlen : cum.length = c.symbolNum := by
    rw [hcum, List.length_map, exclusivePrefixSums_length]
    simp [hmapped, Context.symbolNum]
  have hcchain : List.Chain' (· ≤ ·) cum := by
    rw [hcum, List.chain'_map]
    exact hchain0.imp (fun a b hab => roundNonneg_mono hab)
  have hcbound : ∀ y ∈ cum, y ≤ total := by
    intro y hy
    obtain ⟨z, hz, rfl⟩ := List.mem_map.mp hy
    have := (hbound0 z hz).2
    exact roundNonneg_le (by linarith)
  -- the cumulative list starts with the rounding of zero
  obtain ⟨p, sp, hsp⟩ : ∃ p sp, c.symbolProb = p :: sp := by
    cases hsp' : c.symbolProb with
    | nil =>
        rw [Context.symbolNum, hsp'] at hlen
        simp at hlen
    | cons p sp => exact ⟨p, sp, rfl⟩
  obtain ⟨cl, hcl⟩ : ∃ cl, cum = 0 :: cl := by
    refine ⟨(exclusivePrefixSums (0 + p * (total : ℚ))
      (sp.map (fun x => x * (total : ℚ)))).map roundNonneg, ?_⟩
    rw [hcum, hmapped, hsp]
    simp only [List.map_cons, exclusivePrefixSums, List.map_cons]
    rw [roundNonneg_zero]
  set freqs := cumFreqToFreq cum total with hfreqs
  have hflen : freqs.length = c.symbolNum := by
    rw [hfreqs, cumFreqToFreq_length, hcumlen]
  have hfsum : freqs.sum = total := by
    have := cumFreqToFreq_sum cl 0 total (hcl ▸ hcchain) (hcl ▸ hcbound)
    rw [hfreqs, hcl]
    omega
  have hfix := fixZeroFreqs_spec freqs (by omega)
    (by rw [hflen, hfsum]; omega)
  have hfixlen : (fixZeroFreqs freqs).length = c.symbolNum := hfix.1.trans hflen
  have hfixpos := hfix.2.1
  have hfixsum : (fixZeroFreqs freqs).sum = total := hfix.2.2.trans hfsum
  have hne : fixZeroFreqs freqs ≠ [] := by
    intro h
    rw [h] at hfixlen
    simp at hfixlen
    omega
  have hres : c.asIntegerCumFreqs S = freqToCumFreq (fixZeroFreqs freqs) := by
    rw [Context.asIntegerCumFreqs]
  have hrt : cumFreqToFreq (freqToCumFreq (fixZeroFreqs freqs)) total =
      fixZeroFreqs freqs :=
    cumFreqToFreq_freqToCumFreqAux (fixZeroFreqs freqs) 0 total hne
      (by omega)
  refine ⟨?_, ?_, ?_, ?_, ?_⟩
  · rw [hres, freqToCumFreq, freqToCumFreqAux_length, hfixlen]
  · rw [hres, freqToCumFreq]
    exact freqToCumFreqAux_chain _ 0 hfixpos
  · intro y hy
    rw [hres, freqToCumFreq] at hy
    have := freqToCumFreqAux_lt_sum (fixZeroFreqs freqs) 0 hfixpos y hy
    omega
  · rw [hres, hrt, hfixsum]
  · intro f hf
    rw [hres, hrt] at hf
    exact hfixpos f hf

/-- Witness for the C4 theorem: the uniform 4-symbol context at scale bits
3. -/
theorem asIntegerCumFreqs_valid_witness :
    (Context.asIntegerCumFreqs ⟨1, [1/4, 1/4, 1/4, 1/4], 2⟩ 3).length = 4 ∧
    List.Chain' (· < ·) (Context.asIntegerCumFreqs ⟨1, [1/4, 1/4, 1/4, 1/4], 2⟩ 3) ∧
    (cumFreqToFreq (Context.asIntegerCumFreqs ⟨1, [1/4, 1/4, 1/4, 1/4], 2⟩ 3)
      (2 ^ 3)).sum = 2 ^ 3 := by
  have h := asIntegerCumFreqs_valid ⟨1, [1/4, 1/4, 1/4, 1/4], 2⟩ 3
    (by
      intro p hp
      simp only [List.mem_cons, List.not_mem_nil, or_false] at hp
      rcases hp with rfl | rfl | rfl | rfl <;> norm_num)
    (by simp [Context.symbolNum])
    (by norm_num)
    (by norm_num)
    (by simp [Context.symbolNum])
  exact ⟨h.1, h.2.1, h.2.2.2.1⟩

/-- A stable insertion is a permutation of consing the element. -/
theorem stableInsert_perm (le : α → α → Bool) (x : α) :
    ∀ l : List α, (stableInsert le x l).Perm (x :: l) := by
  intro l
  induction l with
  | nil => exact List.Perm.refl _
  | cons y ys ih =>
      simp only [stableInsert]
      by_cases hle : le y x
      · simp only [hle, if_true]
        exact (ih.cons y).trans (List.Perm.swap x y ys)
      · simp only [hle, if_false]
        exact List.Perm.refl _

/-- A stable sort is a permutation of the input. -/
theorem stableSort_perm_aux (le : α → α → Bool) :
    ∀ (l acc : List α),
      (List.foldl (fun acc x => stableInsert le x acc) acc l).Perm (acc ++ l) := by
  intro l
  induction l with
  | nil => intro acc; simp
  | cons x xs ih =>
      intro acc
      have h1 := ih (stableInsert le x acc)
      have h2 : (stableInsert le x acc ++ xs).Perm ((x :: acc) ++ xs) :=
        (stableInsert_perm le x acc).append_right xs
      have h3 : ((x :: acc) ++ xs).Perm (acc ++ x :: xs) := by
        simpa using List.perm_middle.symm
      exact (h1.trans h2).trans h3

/-- A stable sort is a permutation of the input. -/
theorem stableSort_perm (le : α → α → Bool) (l : List α) :
    (stableSort le l).Perm l := by
  simpa [stableSort] using stableSort_perm_aux le l []

/-- Stable insertion preserves sortedness, for a total transitive
comparison. -/
theorem stableInsert_pairwise (le : α → α → Bool)
    (htot : ∀ a b, le a b = true ∨ le b a = true)
    (htrans : ∀ a b c, le a b = true → le b c = true → le a c = true) (x : α) :
    ∀ l : List α, l.Pairwise (fun a b => le a b = true) →
      (stableInsert le x l).Pairwise (fun a b => le a b = true) := by
  intro l
  induction l with
  | nil => intro _; simp [stableInsert]
  | cons y ys ih =>
      intro hp
      rw [List.pairwise_cons] at hp
      obtain ⟨hy, hys⟩ := hp
      simp only [stableInsert]
      by_cases hle : le y x = true
      · rw [if_pos hle, List.pairwise_cons]
        refine ⟨?_, ih hys⟩
        intro z hz
        have hz2 : z = x ∨ z ∈ ys :=
          List.mem_cons.mp ((stableInsert_perm le x ys).mem_iff.mp hz)
        rcases hz2 with rfl | hz'
        · exact hle
        · exact hy z hz'
      · rw [if_neg hle, List.pairwise_cons]
        have hxy : le x y = true := by
          rcases htot x y with h | h
          · exact h
          · exact absurd h hle
        refine ⟨?_, List.pairwise_cons.mpr ⟨hy, hys⟩⟩
        intro z hz
        rcases List.mem_cons.mp hz with rfl | hz'
        · exact hxy
        · exact htrans x y z hxy (hy z hz')

/-- A stable sort is sorted, for a total transitive comparison. -/
theorem stableSort_pairwise (le : α → α → Bool)
    (htot : ∀ a b, le a b = true ∨ le b a = true)
    (htrans : ∀ a b c, le a b = true → le b c = true → le a c = true)
    (l : List α) :
    (stableSort le l).Pairwise (fun a b => le a b = true) := by
  suffices h : ∀ (l acc : List α), acc.Pairwise (fun a b => le a b = true) →
      (List.foldl (fun acc x => stableInsert le x acc) acc l).Pairwise
        (fun a b => le a b = true) by
    exact h l [] (by simp)
  intro l
  induction l with
  | nil => intro acc hacc; exact hacc
  | cons x xs ih =>
      intro acc hacc
      exact ih (stableInsert le x acc) (stableInsert_pairwise le htot htrans x acc hacc)

/-- Reflexivity of the lexicographic spec order. -/
theorem specsLe_refl : ∀ a : List ℕ, specsLe a a = true := by
  intro a
  induction a with
  | nil => rfl
  | cons x xs ih => simp [specsLe, ih]

/-- Head analysis of the lexicographic spec order on cons cells. -/
theorem specsLe_cons_elim {x y : ℕ} {xs ys : List ℕ}
    (h : specsLe (x :: xs) (y :: ys) = true) :
    x < y ∨ (x = y ∧ specsLe xs ys = true) := by
  simp only [specsLe] at h
  by_cases h1 : x < y
  · exact Or.inl h1
  · by_cases h2 : y < x
    · rw [if_neg h1, if_pos h2] at h
      exact absurd h (by simp)
    · right
      refine ⟨by omega, ?_⟩
      rw [if_neg h1, if_neg h2] at h
      exact h

/-- Introduction forms for the lexicographic spec order on cons cells. -/
theorem specsLe_cons_intro {x y : ℕ} {xs ys : List ℕ}
    (h : x < y ∨ (x = y ∧ specsLe xs ys = true)) :
    specsLe (x :: xs) (y :: ys) = true := by
  simp only [specsLe]
  rcases h with h1 | ⟨rfl, h2⟩
  · rw [if_pos h1]
  · rw [if_neg (by omega), if_neg (by omega)]
    exact h2

/-- Totality of the lexicographic spec order. -/
theorem specsLe_total : ∀ a b : List ℕ, specsLe a b = true ∨ specsLe b a = true := by
  intro a
  induction a with
  | nil => intro b; exact Or.inl rfl
  | cons x xs ih =>
      intro b
      cases b with
      | nil => exact Or.inr rfl
      | cons y ys =>
          by_cases hxy : x < y
          · exact Or.inl (specsLe_cons_intro (Or.inl hxy))
          · by_cases hyx : y < x
            · exact Or.inr (specsLe_cons_intro (Or.inl hyx))
            · rcases ih ys with h | h
              · exact Or.inl (specsLe_cons_intro (Or.inr ⟨by omega, h⟩))
              · exact Or.inr (specsLe_cons_intro (Or.inr ⟨by omega, h⟩))

/-- Transitivity of the lexicographic spec order. -/
theorem specsLe_trans : ∀ a b c : List ℕ, specsLe a b = true → specsLe b c = true →
    specsLe a c = true := by
  intro a
  induction a with
  | nil => intro b c _ _; rfl
  | cons x xs ih =>
      intro b c hab hbc
      cases b with
      | nil => exact absurd hab (by simp [specsLe])
      | cons y ys =>
          cases c with
          | nil => exact absurd hbc (by simp [specsLe])
          | cons z zs =>
              rcases specsLe_cons_elim hab with h1 | ⟨rfl, hr1⟩ <;>
                rcases specsLe_cons_elim hbc with h2 | ⟨heq2, hr2⟩
              · exact specsLe_cons_intro (Or.inl (by omega))
              · exact specsLe_cons_intro (Or.inl (by omega))
              · exact specsLe_cons_intro (Or.inl (by omega))
              · exact specsLe_cons_intro (Or.inr ⟨heq2, ih ys zs hr1 hr2⟩)

/-- Antisymmetry of the lexicographic spec order. -/
theorem specsLe_antisymm : ∀ a b : List ℕ, specsLe a b = true → specsLe b a = true →
    a = b := by
  intro a
  induction a with
  | nil =>
      intro b hab hba
      cases b with
      | nil => rfl
      | cons y ys => exact absurd hba (by simp [specsLe])
  | cons x xs ih =>
      intro b hab hba
      cases b with
      | nil => exact absurd hab (by simp [specsLe])
      | cons y ys =>
          rcases specsLe_cons_elim hab with h1 | ⟨heq1, hr1⟩ <;>
            rcases specsLe_cons_elim hba with h2 | ⟨heq2, hr2⟩
          · omega
          · omega
          · omega
          · rw [heq1, ih ys hr1 hr2]

/-- Two sorted permutations of a list of complex contexts in which the spec
list determines the element are equal. -/
theorem sorted_complexContexts_unique :
    ∀ l1 l2 : List ComplexContext, l1.Perm l2 →
      l1.Pairwise (fun a b => specsLe a.specs b.specs = true) →
      l2.Pairwise (fun a b => specsLe a.specs b.specs = true) →
      (∀ x ∈ l1, ∀ y ∈ l1, x.specs = y.specs → x = y) → l1 = l2 := by
  intro l1
  induction l1 with
  | nil =>
      intro l2 hperm _ _ _
      exact (hperm.symm.eq_nil).symm ▸ rfl
  | cons a t1 ih =>
      intro l2 hperm hp1 hp2 hkey
      cases l2 with
      | nil => exact absurd hperm.eq_nil (by simp)
      | cons b t2 =>
          have hamem : a ∈ b :: t2 := hperm.mem_iff.mp (List.mem_cons_self a t1)
          have hbmem : b ∈ a :: t1 := hperm.symm.mem_iff.mp (List.mem_cons_self b t2)
          have hab : specsLe a.specs b.specs = true := by
            rcases List.mem_cons.mp hbmem with rfl | hb'
            · exact specsLe_refl _
            · exact (List.pairwise_cons.mp hp1).1 b hb'
          have hba : specsLe b.specs a.specs = true := by
            rcases List.mem_cons.mp hamem with rfl | ha'
            · exact specsLe_refl _
            · exact (List.pairwise_cons.mp hp2).1 a ha'
          have heq : a = b :=
            hkey a (List.mem_cons_self a t1) b hbmem
              (specsLe_antisymm _ _ hab hba)
          subst heq
          have htails : t1.Perm t2 := hperm.cons_inv
          have := ih t2 htails (List.pairwise_cons.mp hp1).2
            (List.pairwise_cons.mp hp2).2
            (fun x hx y hy hxy =>
              hkey x (List.mem_cons_of_mem a hx) y (List.mem_cons_of_mem a hy) hxy)
          rw [this]

/-- C6 counterexample: two complex contexts sharing the spec list `[0]` but
carrying different contexts form the same multiset in both input orders, yet
the two constructed models hash different canonical serializations (the
stable sort keeps the input order of the equal spec lists), so their SHA-3
identifiers differ.  The claim as stated is therefore false. -/
theorem model_identifier_order_dependent_on_duplicate_specs :
    ([⟨[0], ⟨1, [1, 0, 0, 0, 0], 0⟩⟩, ⟨[0], ⟨1, [0, 1, 0, 0, 0], 0⟩⟩] :
        List ComplexContext).Perm
      [⟨[0], ⟨1, [0, 1, 0, 0, 0], 0⟩⟩, ⟨[0], ⟨1, [1, 0, 0, 0, 0], 0⟩⟩] ∧
    (Model.withModelAndSpecType ModelType.Acids ⟨"dummy", 1⟩
        [⟨[0], ⟨1, [1, 0, 0, 0, 0], 0⟩⟩, ⟨[0], ⟨1, [0, 1, 0, 0, 0], 0⟩⟩]).identifier ≠
    (Model.withModelAndSpecType ModelType.Acids ⟨"dummy", 1⟩
        [⟨[0], ⟨1, [0, 1, 0, 0, 0], 0⟩⟩, ⟨[0], ⟨1, [1, 0, 0, 0, 0], 0⟩⟩]).identifier := by
  constructor
  · exact List.Perm.swap _ _ _
  · decide

/-- C6 as amended: two models built via `with_model_and_spec_type` with the
same model type, the same spec type, and the same multiset of complex
contexts presented in any input order have equal identifiers, provided no
two distinct complex contexts of the multiset share the same spec list (the
constructor sorts by spec list, which then canonicalizes the order). -/
theorem model_identifier_input_order_independent (mt : ModelType)
    (st : ContextSpecType) (l1 l2 : List ComplexContext) (hperm : l1.Perm l2)
    (hkey : ∀ x ∈ l1, ∀ y ∈ l1, x.specs = y.specs → x = y) :
    (Model.withModelAndSpecType mt st l1).identifier =
      (Model.withModelAndSpecType mt st l2).identifier := by
  have htot : ∀ a b : ComplexContext,
      specsLe a.specs b.specs = true ∨ specsLe b.specs a.specs = true :=
    fun a b => specsLe_total a.specs b.specs
  have htrans : ∀ a b c : ComplexContext, specsLe a.specs b.specs = true →
      specsLe b.specs c.specs = true → specsLe a.specs c.specs = true :=
    fun a b c => specsLe_trans a.specs b.specs c.specs
  have hsorteq : stableSort (fun a b => specsLe a.specs b.specs) l1 =
      stableSort (fun a b => specsLe a.specs b.specs) l2 := by
    refine sorted_complexContexts_unique _ _ ?_ ?_ ?_ ?_
    · exact ((stableSort_perm _ l1).trans hperm).trans (stableSort_perm _ l2).symm
    · exact stableSort_pairwise _ htot htrans l1
    · exact stableSort_pairwise _ htot htrans l2
    · intro x hx y hy hxy
      exact hkey x ((stableSort_perm _ l1).mem_iff.mp hx)
        y ((stableSort_perm _ l1).mem_iff.mp hy) hxy
  unfold Model.withModelAndSpecType mapContexts
  rw [hsorteq]

/-- Witness for the C6 theorem: two single-spec complex contexts with
distinct spec lists, presented in both orders, give models with equal
identifiers. -/
theorem model_identifier_input_order_independent_witness :
    ([⟨[0], ⟨1, [1, 0, 0, 0, 0], 0⟩⟩, ⟨[1], ⟨1, [0, 1, 0, 0, 0], 0⟩⟩] :
        List ComplexContext).Perm
      [⟨[1], ⟨1, [0, 1, 0, 0, 0], 0⟩⟩, ⟨[0], ⟨1, [1, 0, 0, 0, 0], 0⟩⟩] ∧
    (Model.withModelAndSpecType ModelType.Acids ⟨"dummy", 2⟩
        [⟨[0], ⟨1, [1, 0, 0, 0, 0], 0⟩⟩, ⟨[1], ⟨1, [0, 1, 0, 0, 0], 0⟩⟩]).identifier =
    (Model.withModelAndSpecType ModelType.Acids ⟨"dummy", 2⟩
        [⟨[1], ⟨1, [0, 1, 0, 0, 0], 0⟩⟩, ⟨[0], ⟨1, [1, 0, 0, 0, 0], 0⟩⟩]).identifier := by
  constructor
  · exact List.Perm.swap _ _ _
  · refine model_identifier_input_order_independent ModelType.Acids ⟨"dummy", 2⟩
      _ _ (List.Perm.swap _ _ _) ?_
    intro x hx y hy hxy
    simp only [List.mem_cons, List.not_mem_nil, or_false] at hx hy
    rcases hx with rfl | rfl <;> rcases hy with rfl | rfl
    · rfl
    · exact absurd hxy (by decide)
    · exact absurd hxy (by decide)
    · rfl

/-- Setting one index leaves other indices unchanged. -/
theorem getD_set_ne (l : List ℕ) :
    ∀ i j v d, i ≠ j → (l.set i v).getD j d = l.getD j d := by
  induction l with
  | nil => intro i j v d _; cases i <;> rfl
  | cons x xs ih =>
      intro i j v d hne
      cases i with
      | zero =>
          cases j with
          | zero => exact absurd rfl hne
          | succ j => rfl
      | succ i =>
          cases j with
          | zero => rfl
          | succ j =>
              simp only [List.set, List.getD_cons_succ]
              exact ih i j v d (by omega)

/-- Setting an in-range index stores the value there. -/
theorem getD_set_self (l : List ℕ) :
    ∀ i v d, i < l.length → (l.set i v).getD i d = v := by
  induction l with
  | nil => intro i v d h; simp at h
  | cons x xs ih =>
      intro i v d h
      cases i with
      | zero => rfl
      | succ i =>
          simp only [List.set, List.getD_cons_succ]
          exact ih i v d (by simpa using h)

/-- Every entry of a replicated zero list reads zero. -/
theorem getD_replicate_zero : ∀ n spec : ℕ, (List.replicate n (0 : ℕ)).getD spec 0 = 0 := by
  intro n
  induction n with
  | zero => intro spec; cases spec <;> rfl
  | succ n ih =>
      intro spec
      cases spec with
      | zero => rfl
      | succ spec =>
          simp only [List.replicate, List.getD_cons_succ]
          exact ih spec

/-- Reading a mapped list at an in-range index. -/
theorem getD_map_lt {α β : Type} (f : α → β) (l : List α) :
    ∀ v (d : α) (dm : β), v < l.length → (l.map f).getD v dm = f (l.getD v d) := by
  induction l with
  | nil => intro v d dm h; simp at h
  | cons x xs ih =>
      intro v d dm h
      cases v with
      | zero => rfl
      | succ v =>
          simp only [List.map, List.getD_cons_succ]
          exact ih v d dm (by simpa using h)

/-- The `from_model` fold keeps the dense map's length. -/
theorem buildSpecMap_foldl_length (entries : List (ℕ × ℕ)) :
    ∀ m : List ℕ,
      (entries.foldl (fun m kv => m.set kv.1 (kv.2 + 1)) m).length = m.length := by
  induction entries with
  | nil => intro m; rfl
  | cons e rest ih =>
      intro m
      simp only [List.foldl_cons]
      rw [ih (m.set e.1 (e.2 + 1))]
      simp

/-- Specs absent from the model's map are untouched by the fold. -/
theorem buildSpecMap_foldl_not_mem (entries : List (ℕ × ℕ)) :
    ∀ (m : List ℕ) (spec : ℕ), spec ∉ entries.map Prod.fst →
      (entries.foldl (fun m kv => m.set kv.1 (kv.2 + 1)) m).getD spec 0 =
        m.getD spec 0 := by
  induction entries with
  | nil => intro m spec _; rfl
  | cons e rest ih =>
      intro m spec hmem
      simp only [List.map_cons, List.mem_cons] at hmem
      push_neg at hmem
      simp only [List.foldl_cons]
      rw [ih (m.set e.1 (e.2 + 1)) spec hmem.2]
      exact getD_set_ne m e.1 spec (e.2 + 1) 0 (fun h => hmem.1 h.symm)

/-- Mapped specs read their context index plus one after the fold, when the
map keys are distinct and the key is in range. -/
theorem buildSpecMap_foldl_mem (entries : List (ℕ × ℕ)) :
    ∀ m : List ℕ, (entries.map Prod.fst).Nodup →
      ∀ kv ∈ entries, kv.1 < m.length →
        (entries.foldl (fun m kv => m.set kv.1 (kv.2 + 1)) m).getD kv.1 0 =
          kv.2 + 1 := by
  induction entries with
  | nil => intro m _ kv hkv; simp at hkv
  | cons e rest ih =>
      intro m hnodup kv hkv hlt
      simp only [List.map_cons, List.nodup_cons] at hnodup
      simp only [List.foldl_cons]
      rcases List.mem_cons.mp hkv with rfl | hkv'
      · rw [buildSpecMap_foldl_not_mem rest _ kv.1 hnodup.1]
        exact getD_set_self m kv.1 (kv.2 + 1) 0 hlt
      · exact ih (m.set e.1 (e.2 + 1)) hnodup.2 kv hkv' (by simpa using hlt)

/-- C10: for every rANS coder model built by `from_model` (encoder and
decoder), context lookup is total on every spec below `spec_num()`: specs
absent from the model's map resolve through map entry `0` to the reserved
dummy context — a uniform distribution over the model's alphabet — at table
index 0, and mapped specs resolve to their model context at its index
shifted by one. -/
theorem ransModel_context_lookup_total (h : ℚ → ℚ) (n : ℕ) (model : Model)
    (S : ℕ) (hsize : model.contexts.length ≤ 10000)
    (hvals : ∀ kv ∈ model.map, kv.2 < model.contexts.length)
    (hnodup : (model.map.map Prod.fst).Nodup) :
    ∃ me md, RansEncModel.fromModel h n model S = some me ∧
      RansDecModel.fromModel h n model S = some md ∧
      (Context.dummy h n).symbolProb = List.replicate n (1 / (n : ℚ)) ∧
      me.map.length = model.specType.specNum ∧
      md.map.length = model.specType.specNum ∧
      (∀ spec, spec < model.specType.specNum →
        me.map.getD spec 0 < me.contexts.length ∧
        md.map.getD spec 0 < md.contexts.length) ∧
      (∀ spec, spec < model.specType.specNum → spec ∉ model.map.map Prod.fst →
        me.map.getD spec 0 = 0 ∧
        me.contextFor spec = RansEncContext.fromContext (Context.dummy h n) S ∧
        md.map.getD spec 0 = 0 ∧
        md.contextFor spec = RansDecContext.fromContext (Context.dummy h n) S) ∧
      (∀ kv ∈ model.map, kv.1 < model.specType.specNum →
        me.map.getD kv.1 0 = kv.2 + 1 ∧
        me.contextFor kv.1 =
          RansEncContext.fromContext (model.contexts.getD kv.2 ⟨0, [], 0⟩) S ∧
        md.contextFor kv.1 =
          RansDecContext.fromContext (model.contexts.getD kv.2 ⟨0, [], 0⟩) S) := by
  have hcheck : checkModel model = true := by
    simp [checkModel, hsize]
  refine ⟨⟨model.identifier, model.specType,
      RansEncContext.fromContext (Context.dummy h n) S ::
        model.contexts.map (fun c => RansEncContext.fromContext c S),
      buildSpecMap model.specType.specNum model.map⟩,
    ⟨model.specType,
      RansDecContext.fromContext (Context.dummy h n) S ::
        model.contexts.map (fun c => RansDecContext.fromContext c S),
      buildSpecMap model.specType.specNum model.map⟩,
    ?_, ?_, rfl, ?_, ?_, ?_, ?_, ?_⟩
  · rw [RansEncModel.fromModel, if_pos hcheck]
  · rw [RansDecModel.fromModel, if_pos hcheck]
  · rw [buildSpecMap, buildSpecMap_foldl_length, List.length_replicate]
  · rw [buildSpecMap, buildSpecMap_foldl_length, List.length_replicate]
  · intro spec hspec
    constructor
    · by_cases hmem : spec ∈ model.map.map Prod.fst
      · obtain ⟨kv, hkv, rfl⟩ := List.mem_map.mp hmem
        rw [buildSpecMap, buildSpecMap_foldl_mem model.map _ hnodup kv hkv
          (by rw [List.length_replicate]; exact hspec)]
        have := hvals kv hkv
        simp only [List.length_cons, List.length_map]
        omega
      · rw [buildSpecMap, buildSpecMap_foldl_not_mem model.map _ spec hmem,
          getD_replicate_zero]
        simp
    · by_cases hmem : spec ∈ model.map.map Prod.fst
      · obtain ⟨kv, hkv, rfl⟩ := List.mem_map.mp hmem
        rw [buildSpecMap, buildSpecMap_foldl_mem model.map _ hnodup kv hkv
          (by rw [List.length_replicate]; exact hspec)]
        have := hvals kv hkv
        simp only [List.length_cons, List.length_map]
        omega
      · rw [buildSpecMap, buildSpecMap_foldl_not_mem model.map _ spec hmem,
          getD_replicate_zero]
        simp
  · intro spec _ hmem
    have hz : (buildSpecMap model.specType.specNum model.map).getD spec 0 = 0 := by
      rw [buildSpecMap, buildSpecMap_foldl_not_mem model.map _ spec hmem,
        getD_replicate_zero]
    exact ⟨hz, by rw [RansEncModel.contextFor, hz]; rfl, hz,
      by rw [RansDecModel.contextFor, hz]; rfl⟩
  · intro kv hkv hrange
    have hv : (buildSpecMap model.specType.specNum model.map).getD kv.1 0 =
        kv.2 + 1 := by
      rw [buildSpecMap]
      exact buildSpecMap_foldl_mem model.map _ hnodup kv hkv
        (by rw [List.length_replicate]; exact hrange)
    refine ⟨hv, ?_, ?_⟩
    · rw [RansEncModel.contextFor, hv]
      simp only [List.getD_cons_succ]
      exact getD_map_lt _ model.contexts kv.2 ⟨0, [], 0⟩ _ (hvals kv hkv)
    · rw [RansDecModel.contextFor, hv]
      simp only [List.getD_cons_succ]
      exact getD_map_lt _ model.contexts kv.2 ⟨0, [], 0⟩ _ (hvals kv hkv)

/-- Witness for the C10 theorem: a one-context model over spec type bound 4
with the single spec `1` mapped to context `0`. -/
theorem ransModel_context_lookup_total_witness :
    ∃ me md,
      RansEncModel.fromModel (fun _ => 0) 5
        ⟨[], ModelType.Acids, ⟨"t", 4⟩, [⟨1, [1, 0, 0, 0, 0], 0⟩], [(1, 0)]⟩ 14 =
          some me ∧
      RansDecModel.fromModel (fun _ => 0) 5
        ⟨[], ModelType.Acids, ⟨"t", 4⟩, [⟨1, [1, 0, 0, 0, 0], 0⟩], [(1, 0)]⟩ 14 =
          some md ∧
      (Context.dummy (fun _ => 0) 5).symbolProb = List.replicate 5 (1 / (5 : ℚ)) ∧
      me.map.length = 4 ∧ md.map.length = 4 ∧
      (∀ spec, spec < 4 →
        me.map.getD spec 0 < me.contexts.length ∧
        md.map.getD spec 0 < md.contexts.length) ∧
      (∀ spec, spec < 4 → spec ∉ [(1, 0)].map (Prod.fst (α := ℕ) (β := ℕ)) →
        me.map.getD spec 0 = 0 ∧
        me.contextFor spec =
          RansEncContext.fromContext (Context.dummy (fun _ => 0) 5) 14 ∧
        md.map.getD spec 0 = 0 ∧
        md.contextFor spec =
          RansDecContext.fromContext (Context.dummy (fun _ => 0) 5) 14) ∧
      (∀ kv ∈ ([(1, 0)] : List (ℕ × ℕ)), kv.1 < 4 →
        me.map.getD kv.1 0 = kv.2 + 1 ∧
        me.contextFor kv.1 =
          RansEncContext.fromContext
            (([⟨1, [1, 0, 0, 0, 0], 0⟩] : List Context).getD kv.2 ⟨0, [], 0⟩) 14 ∧
        md.contextFor kv.1 =
          RansDecContext.fromContext
            (([⟨1, [1, 0, 0, 0, 0], 0⟩] : List Context).getD kv.2 ⟨0, [], 0⟩) 14) :=
  ransModel_context_lookup_total (fun _ => 0) 5
    ⟨[], ModelType.Acids, ⟨"t", 4⟩, [⟨1, [1, 0, 0, 0, 0], 0⟩], [(1, 0)]⟩ 14
    (by decide)
    (by intro kv hkv; simp only [List.mem_singleton] at hkv; subst hkv; decide)
    (by decide)

/-- Bridging between `getElem?` and `getD` at an in-range index. -/
theorem getElem?_eq_some_getD {α : Type} (l : List α) (i : ℕ) (d : α)
    (h : i < l.length) : l[i]? = some (l.getD i d) := by
  rw [List.getD_eq_getElem?_getD, List.getElem?_eq_getElem h]
  rfl

/-- The specs below a node do not depend on the fuel (beyond the node's
index) nor on nodes appended after the vector, for well-formed vectors. -/
theorem specsUnder_ext (nodes ext : List ContextNode) (hwf : wfTree nodes) :
    ∀ i, i < nodes.length → ∀ f1 f2, i < f1 → i < f2 →
      specsUnder (nodes ++ ext) f1 i = specsUnder nodes f2 i := by
  intro i
  induction i using Nat.strong_induction_on with
  | _ i ih =>
      intro hi f1 f2 hf1 hf2
      obtain ⟨g1, rfl⟩ : ∃ g, f1 = g + 1 := ⟨f1 - 1, by omega⟩
      obtain ⟨g2, rfl⟩ : ∃ g, f2 = g + 1 := ⟨f2 - 1, by omega⟩
      have hsome := getElem?_eq_some_getD nodes i (ContextNode.leaf [] ⟨0, [], 0⟩) hi
      have happ : (nodes ++ ext)[i]? = nodes[i]? := List.getElem?_append_left hi
      cases hnode : nodes.getD i (ContextNode.leaf [] ⟨0, [], 0⟩) with
      | leaf sp c =>
          rw [hnode] at hsome
          simp only [specsUnder, happ, hsome]
      | node c m l r =>
          have hch := hwf i hi
          rw [hnode] at hsome hch
          simp only [nodeChildrenLt, Bool.and_eq_true, decide_eq_true_eq] at hch
          simp only [specsUnder, happ, hsome]
          rw [ih l hch.1 (by omega) g1 g2 (by omega) (by omega),
            ih r hch.2 (by omega) g1 g2 (by omega) (by omega)]

/-- Analogue of `specsUnder_ext` for the leaf count. -/
theorem leavesUnder_ext (nodes ext : List ContextNode) (hwf : wfTree nodes) :
    ∀ i, i < nodes.length → ∀ f1 f2, i < f1 → i < f2 →
      leavesUnder (nodes ++ ext) f1 i = leavesUnder nodes f2 i := by
  intro i
  induction i using Nat.strong_induction_on with
  | _ i ih =>
      intro hi f1 f2 hf1 hf2
      obtain ⟨g1, rfl⟩ : ∃ g, f1 = g + 1 := ⟨f1 - 1, by omega⟩
      obtain ⟨g2, rfl⟩ : ∃ g, f2 = g + 1 := ⟨f2 - 1, by omega⟩
      have hsome := getElem?_eq_some_getD nodes i (ContextNode.leaf [] ⟨0, [], 0⟩) hi
      have happ : (nodes ++ ext)[i]? = nodes[i]? := List.getElem?_append_left hi
      cases hnode : nodes.getD i (ContextNode.leaf [] ⟨0, [], 0⟩) with
      | leaf sp c =>
          rw [hnode] at hsome
          simp only [leavesUnder, happ, hsome]
      | node c m l r =>
          have hch := hwf i hi
          rw [hnode] at hsome hch
          simp only [nodeChildrenLt, Bool.and_eq_true, decide_eq_true_eq] at hch
          simp only [leavesUnder, happ, hsome]
          rw [ih l hch.1 (by omega) g1 g2 (by omega) (by omega),
            ih r hch.2 (by omega) g1 g2 (by omega) (by omega)]

/-- Analogue of `specsUnder_ext` for the node count. -/
theorem nodesUnder_ext (nodes ext : List ContextNode) (hwf : wfTree nodes) :
    ∀ i, i < nodes.length → ∀ f1 f2, i < f1 → i < f2 →
      nodesUnder (nodes ++ ext) f1 i = nodesUnder nodes f2 i := by
  intro i
  induction i using Nat.strong_induction_on with
  | _ i ih =>
      intro hi f1 f2 hf1 hf2
      obtain ⟨g1, rfl⟩ : ∃ g, f1 = g + 1 := ⟨f1 - 1, by omega⟩
      obtain ⟨g2, rfl⟩ : ∃ g, f2 = g + 1 := ⟨f2 - 1, by omega⟩
      have hsome := getElem?_eq_some_getD nodes i (ContextNode.leaf [] ⟨0, [], 0⟩) hi
      have happ : (nodes ++ ext)[i]? = nodes[i]? := List.getElem?_append_left hi
      cases hnode : nodes.getD i (ContextNode.leaf [] ⟨0, [], 0⟩) with
      | leaf sp c =>
          rw [hnode] at hsome
          simp only [nodesUnder, happ, hsome]
      | node c m l r =>
          have hch := hwf i hi
          rw [hnode] at hsome hch
          simp only [nodeChildrenLt, Bool.and_eq_true, decide_eq_true_eq] at hch
          simp only [nodesUnder, happ, hsome]
          rw [ih l hch.1 (by omega) g1 g2 (by omega) (by omega),
            ih r hch.2 (by omega) g1 g2 (by omega) (by omega)]

/-- Analogue of `specsUnder_ext` for the leaf index list. -/
theorem leafIndicesUnder_ext (nodes ext : List ContextNode) (hwf : wfTree nodes) :
    ∀ i, i < nodes.length → ∀ f1 f2, i < f1 → i < f2 →
      leafIndicesUnder (nodes ++ ext) f1 i = leafIndicesUnder nodes f2 i := by
  intro i
  induction i using Nat.strong_induction_on with
  | _ i ih =>
      intro hi f1 f2 hf1 hf2
      obtain ⟨g1, rfl⟩ : ∃ g, f1 = g + 1 := ⟨f1 - 1, by omega⟩
      obtain ⟨g2, rfl⟩ : ∃ g, f2 = g + 1 := ⟨f2 - 1, by omega⟩
      have hsome := getElem?_eq_some_getD nodes i (ContextNode.leaf [] ⟨0, [], 0⟩) hi
      have happ : (nodes ++ ext)[i]? = nodes[i]? := List.getElem?_append_left hi
      cases hnode : nodes.getD i (ContextNode.leaf [] ⟨0, [], 0⟩) with
      | leaf sp c =>
          rw [hnode] at hsome
          simp only [leafIndicesUnder, happ, hsome]
      | node c m l r =>
          have hch := hwf i hi
          rw [hnode] at hsome hch
          simp only [nodeChildrenLt, Bool.and_eq_true, decide_eq_true_eq] at hch
          simp only [leafIndicesUnder, happ, hsome]
          rw [ih l hch.1 (by omega) g1 g2 (by omega) (by omega),
            ih r hch.2 (by omega) g1 g2 (by omega) (by omega)]

/-- Every valid subtree has at least one leaf. -/
theorem leavesUnder_pos (nodes : List ContextNode) (hwf : wfTree nodes) :
    ∀ i, i < nodes.length → ∀ fuel, i < fuel → 1 ≤ leavesUnder nodes fuel i := by
  intro i
  induction i using Nat.strong_induction_on with
  | _ i ih =>
      intro hi fuel hf
      obtain ⟨g, rfl⟩ : ∃ g, fuel = g + 1 := ⟨fuel - 1, by omega⟩
      have hsome := getElem?_eq_some_getD nodes i (ContextNode.leaf [] ⟨0, [], 0⟩) hi
      cases hnode : nodes.getD i (ContextNode.leaf [] ⟨0, [], 0⟩) with
      | leaf sp c =>
          rw [hnode] at hsome
          simp [leavesUnder, hsome]
      | node c m l r =>
          have hch := hwf i hi
          rw [hnode] at hsome hch
          simp only [nodeChildrenLt, Bool.and_eq_true, decide_eq_true_eq] at hch
          simp only [leavesUnder, hsome]
          have := ih l hch.1 (by omega) g (by omega)
          omega

/-- The node count of a subtree is bounded exponentially in its root
index. -/
theorem nodesUnder_lt_pow (nodes : List ContextNode) (hwf : wfTree nodes) :
    ∀ i, i < nodes.length → ∀ fuel, i < fuel →
      nodesUnder nodes fuel i < 2 ^ (i + 1) := by
  intro i
  induction i using Nat.strong_induction_on with
  | _ i ih =>
      intro hi fuel hf
      obtain ⟨g, rfl⟩ : ∃ g, fuel = g + 1 := ⟨fuel - 1, by omega⟩
      have hsome := getElem?_eq_some_getD nodes i (ContextNode.leaf [] ⟨0, [], 0⟩) hi
      cases hnode : nodes.getD i (ContextNode.leaf [] ⟨0, [], 0⟩) with
      | leaf sp c =>
          rw [hnode] at hsome
          simp only [nodesUnder, hsome]
          exact Nat.one_lt_two_pow_iff.mpr (by omega)
      | node c m l r =>
          have hch := hwf i hi
          rw [hnode] at hsome hch
          simp only [nodeChildrenLt, Bool.and_eq_true, decide_eq_true_eq] at hch
          simp only [nodesUnder, hsome]
          have h1 := ih l hch.1 (by omega) g (by omega)
          have h2 := ih r hch.2 (by omega) g (by omega)
          have hle1 : 2 ^ (l + 1) ≤ 2 ^ i := Nat.pow_le_pow_right (by omega) (by omega)
          have hle2 : 2 ^ (r + 1) ≤ 2 ^ i := Nat.pow_le_pow_right (by omega) (by omega)
          have : 2 ^ (i + 1) = 2 ^ i + 2 ^ i := by ring
          omega

/-- The leaf count below a node is the length of its leaf index list. -/
theorem leavesUnder_eq_length_leafIndices (nodes : List ContextNode) :
    ∀ fuel i, leavesUnder nodes fuel i = (leafIndicesUnder nodes fuel i).length := by
  intro fuel
  induction fuel with
  | zero => intro i; rfl
  | succ fuel ih =>
      intro i
      simp only [leavesUnder, leafIndicesUnder]
      cases hi : nodes[i]? with
      | none => rfl
      | some n =>
          cases n with
          | leaf sp c => rfl
          | node c m l r => simp [ih]

/-- Every member of a leaf index list points at a leaf node. -/
theorem leafIndicesUnder_mem (nodes : List ContextNode) :
    ∀ fuel i j, j ∈ leafIndicesUnder nodes fuel i →
      ∃ sp c, nodes[j]? = some (ContextNode.leaf sp c) := by
  intro fuel
  induction fuel with
  | zero => intro i j hj; simp [leafIndicesUnder] at hj
  | succ fuel ih =>
      intro i j hj
      simp only [leafIndicesUnder] at hj
      cases hi : nodes[i]? with
      | none => rw [hi] at hj; simp at hj
      | some n =>
          cases n with
          | leaf sp c =>
              rw [hi] at hj
              simp at hj
              subst hj
              exact ⟨sp, c, hi⟩
          | node c m l r =>
              rw [hi] at hj
              rcases List.mem_append.mp hj with h | h
              · exact ih l j h
              · exact ih r j h

/-- Fuel-independence corollary of `specsUnder_ext`. -/
theorem specsUnder_fuel (nodes : List ContextNode) (hwf : wfTree nodes)
    (i : ℕ) (hi : i < nodes.length) (f1 f2 : ℕ) (h1 : i < f1) (h2 : i < f2) :
    specsUnder nodes f1 i = specsUnder nodes f2 i := by
  simpa using specsUnder_ext nodes [] hwf i hi f1 f2 h1 h2

/-- Fuel-independence corollary of `leavesUnder_ext`. -/
theorem leavesUnder_fuel (nodes : List ContextNode) (hwf : wfTree nodes)
    (i : ℕ) (hi : i < nodes.length) (f1 f2 : ℕ) (h1 : i < f1) (h2 : i < f2) :
    leavesUnder nodes f1 i = leavesUnder nodes f2 i := by
  simpa using leavesUnder_ext nodes [] hwf i hi f1 f2 h1 h2

/-- Fuel-independence corollary of `nodesUnder_ext`. -/
theorem nodesUnder_fuel (nodes : List ContextNode) (hwf : wfTree nodes)
    (i : ℕ) (hi : i < nodes.length) (f1 f2 : ℕ) (h1 : i < f1) (h2 : i < f2) :
    nodesUnder nodes f1 i = nodesUnder nodes f2 i := by
  simpa using nodesUnder_ext nodes [] hwf i hi f1 f2 h1 h2

/-- Fuel-independence corollary of `leafIndicesUnder_ext`. -/
theorem leafIndicesUnder_fuel (nodes : List ContextNode) (hwf : wfTree nodes)
    (i : ℕ) (hi : i < nodes.length) (f1 f2 : ℕ) (h1 : i < f1) (h2 : i < f2) :
    leafIndicesUnder nodes f1 i = leafIndicesUnder nodes f2 i := by
  simpa using leafIndicesUnder_ext nodes [] hwf i hi f1 f2 h1 h2

/-- A node reachable through `getElem?` is in range, and for a well-formed
vector its children are strictly below it. -/
theorem wf_children_lt (nodes : List ContextNode) (hwf : wfTree nodes)
    {i : ℕ} {c : Context} {m : ℚ} {l r : ℕ}
    (hnode : nodes[i]? = some (ContextNode.node c m l r)) :
    l < i ∧ r < i ∧ i < nodes.length := by
  have hi : i < nodes.length := by
    rw [List.getElem?_eq_some_iff] at hnode
    exact hnode.1
  have hsome := getElem?_eq_some_getD nodes i (ContextNode.leaf [] ⟨0, [], 0⟩) hi
  have hgd : nodes.getD i (ContextNode.leaf [] ⟨0, [], 0⟩) = ContextNode.node c m l r :=
    Option.some.inj (hsome.symm.trans hnode)
  have hch := hwf i hi
  rw [hgd] at hch
  simp only [nodeChildrenLt, Bool.and_eq_true, decide_eq_true_eq] at hch
  exact ⟨hch.1, hch.2, hi⟩

/-- Value of `specsUnder` at a leaf. -/
theorem specsUnder_leaf (nodes : List ContextNode) {i : ℕ} {sp : List ℕ}
    {c : Context} (hnode : nodes[i]? = some (ContextNode.leaf sp c))
    (fuel : ℕ) (hf : 0 < fuel) : specsUnder nodes fuel i = sp := by
  obtain ⟨g, rfl⟩ : ∃ g, fuel = g + 1 := ⟨fuel - 1, by omega⟩
  simp [specsUnder, hnode]

/-- Value of `leavesUnder` at a leaf. -/
theorem leavesUnder_leaf (nodes : List ContextNode) {i : ℕ} {sp : List ℕ}
    {c : Context} (hnode : nodes[i]? = some (ContextNode.leaf sp c))
    (fuel : ℕ) (hf : 0 < fuel) : leavesUnder nodes fuel i = 1 := by
  obtain ⟨g, rfl⟩ : ∃ g, fuel = g + 1 := ⟨fuel - 1, by omega⟩
  simp [leavesUnder, hnode]

/-- Value of `nodesUnder` at a leaf. -/
theorem nodesUnder_leaf (nodes : List ContextNode) {i : ℕ} {sp : List ℕ}
    {c : Context} (hnode : nodes[i]? = some (ContextNode.leaf sp c))
    (fuel : ℕ) (hf : 0 < fuel) : nodesUnder nodes fuel i = 1 := by
  obtain ⟨g, rfl⟩ : ∃ g, fuel = g + 1 := ⟨fuel - 1, by omega⟩
  simp [nodesUnder, hnode]

/-- Value of `leafIndicesUnder` at a leaf. -/
theorem leafIndicesUnder_leaf (nodes : List ContextNode) {i : ℕ} {sp : List ℕ}
    {c : Context} (hnode : nodes[i]? = some (ContextNode.leaf sp c))
    (fuel : ℕ) (hf : 0 < fuel) : leafIndicesUnder nodes fuel i = [i] := by
  obtain ⟨g, rfl⟩ : ∃ g, fuel = g + 1 := ⟨fuel - 1, by omega⟩
  simp [leafIndicesUnder, hnode]

/-- Value of `specsUnder` at an inner node, at the canonical fuel. -/
theorem specsUnder_node (nodes : List ContextNode) (hwf : wfTree nodes)
    {i : ℕ} {c : Context} {m : ℚ} {l r : ℕ}
    (hnode : nodes[i]? = some (ContextNode.node c m l r)) :
    specsUnder nodes nodes.length i =
      specsUnder nodes nodes.length l ++ specsUnder nodes nodes.length r := by
  obtain ⟨hl, hr, hi⟩ := wf_children_lt nodes hwf hnode
  obtain ⟨g, hg⟩ : ∃ g, nodes.length = g + 1 := ⟨nodes.length - 1, by omega⟩
  calc specsUnder nodes nodes.length i = specsUnder nodes (g + 1) i := by rw [hg]
    _ = specsUnder nodes g l ++ specsUnder nodes g r := by simp only [specsUnder, hnode]
    _ = specsUnder nodes nodes.length l ++ specsUnder nodes nodes.length r := by
        rw [specsUnder_fuel nodes hwf l (by omega) g nodes.length (by omega) (by omega),
          specsUnder_fuel nodes hwf r (by omega) g nodes.length (by omega) (by omega)]

/-- Value of `leavesUnder` at an inner node, at the canonical fuel. -/
theorem leavesUnder_node (nodes : List ContextNode) (hwf : wfTree nodes)
    {i : ℕ} {c : Context} {m : ℚ} {l r : ℕ}
    (hnode : nodes[i]? = some (ContextNode.node c m l r)) :
    leavesUnder nodes nodes.length i =
      leavesUnder nodes nodes.length l + leavesUnder nodes nodes.length r := by
  obtain ⟨hl, hr, hi⟩ := wf_children_lt nodes hwf hnode
  obtain ⟨g, hg⟩ : ∃ g, nodes.length = g + 1 := ⟨nodes.length - 1, by omega⟩
  calc leavesUnder nodes nodes.length i = leavesUnder nodes (g + 1) i := by rw [hg]
    _ = leavesUnder nodes g l + leavesUnder nodes g r := by simp only [leavesUnder, hnode]
    _ = leavesUnder nodes nodes.length l + leavesUnder nodes nodes.length r := by
        rw [leavesUnder_fuel nodes hwf l (by omega) g nodes.length (by omega) (by omega),
          leavesUnder_fuel nodes hwf r (by omega) g nodes.length (by omega) (by omega)]

/-- Value of `nodesUnder` at an inner node, at the canonical fuel. -/
theorem nodesUnder_node (nodes : List ContextNode) (hwf : wfTree nodes)
    {i : ℕ} {c : Context} {m : ℚ} {l r : ℕ}
    (hnode : nodes[i]? = some (ContextNode.node c m l r)) :
    nodesUnder nodes nodes.length i =
      nodesUnder nodes nodes.length l + nodesUnder nodes nodes.length r + 1 := by
  obtain ⟨hl, hr, hi⟩ := wf_children_lt nodes hwf hnode
  obtain ⟨g, hg⟩ : ∃ g, nodes.length = g + 1 := ⟨nodes.length - 1, by omega⟩
  calc nodesUnder nodes nodes.length i = nodesUnder nodes (g + 1) i := by rw [hg]
    _ = nodesUnder nodes g l + nodesUnder nodes g r + 1 := by simp only [nodesUnder, hnode]
    _ = nodesUnder nodes nodes.length l + nodesUnder nodes nodes.length r + 1 := by
        rw [nodesUnder_fuel nodes hwf l (by omega) g nodes.length (by omega) (by omega),
          nodesUnder_fuel nodes hwf r (by omega) g nodes.length (by omega) (by omega)]

/-- Value of `leafIndicesUnder` at an inner node, at the canonical fuel. -/
theorem leafIndicesUnder_node (nodes : List ContextNode) (hwf : wfTree nodes)
    {i : ℕ} {c : Context} {m : ℚ} {l r : ℕ}
    (hnode : nodes[i]? = some (ContextNode.node c m l r)) :
    leafIndicesUnder nodes nodes.length i =
      leafIndicesUnder nodes nodes.length l ++ leafIndicesUnder nodes nodes.length r := by
  obtain ⟨hl, hr, hi⟩ := wf_children_lt nodes hwf hnode
  obtain ⟨g, hg⟩ : ∃ g, nodes.length = g + 1 := ⟨nodes.length - 1, by omega⟩
  calc leafIndicesUnder nodes nodes.length i = leafIndicesUnder nodes (g + 1) i := by rw [hg]
    _ = leafIndicesUnder nodes g l ++ leafIndicesUnder nodes g r := by simp only [leafIndicesUnder, hnode]
    _ = leafIndicesUnder nodes nodes.length l ++ leafIndicesUnder nodes nodes.length r := by
        rw [leafIndicesUnder_fuel nodes hwf l (by omega) g nodes.length (by omega) (by omega),
          leafIndicesUnder_fuel nodes hwf r (by omega) g nodes.length (by omega) (by omega)]

/-- The pop `popBest` returns `none` only on the empty queue. -/
theorem popBest_none (cost : ℕ → ℚ) :
    ∀ q : List ℕ, popBest cost q = none → q = [] := by
  intro q h
  cases q with
  | nil => rfl
  | cons i rest =>
      simp only [popBest] at h
      cases hp : popBest cost rest with
      | none => simp [hp] at h
      | some p =>
          obtain ⟨j, r⟩ := p
          rw [hp] at h
          by_cases hc : cost i ≤ cost j <;> simp [hc] at h

/-- The pop `popBest` yields a permutation: the queue is the popped element plus the
rest. -/
theorem popBest_perm (cost : ℕ → ℚ) :
    ∀ (q : List ℕ) (i : ℕ) (rest : List ℕ),
      popBest cost q = some (i, rest) → q.Perm (i :: rest) := by
  intro q
  induction q with
  | nil => intro i rest h; simp [popBest] at h
  | cons a as ih =>
      intro i rest h
      simp only [popBest] at h
      cases hp : popBest cost as with
      | none =>
          rw [hp] at h
          simp only [Option.some.injEq, Prod.mk.injEq] at h
          obtain ⟨rfl, rfl⟩ := h
          have : as = [] := popBest_none cost as hp
          subst this
          exact List.Perm.refl _
      | some p =>
          obtain ⟨j, r⟩ := p
          rw [hp] at h
          by_cases hc : cost a ≤ cost j
          · simp only [if_pos hc, Option.some.injEq, Prod.mk.injEq] at h
            obtain ⟨rfl, rfl⟩ := h
            exact List.Perm.refl _
          · simp only [if_neg hc, Option.some.injEq, Prod.mk.injEq] at h
            obtain ⟨rfl, rfl⟩ := h
            exact ((ih j r hp).cons a).trans (List.Perm.swap j a r)

/-- The drain phase outputs a permutation of the queue, combined, appended
to the accumulated result. -/
theorem drainLoop_spec (nodes : List ContextNode) :
    ∀ (fuel : ℕ) (queue : List ℕ) (result : List ComplexContext),
      queue.length ≤ fuel →
      ∃ q2 : List ℕ, q2.Perm queue ∧
        drainLoop nodes fuel queue result =
          result ++ q2.map (combineContexts nodes) := by
  intro fuel
  induction fuel with
  | zero =>
      intro queue result hle
      have : queue = [] := List.length_eq_zero.mp (by omega)
      subst this
      exact ⟨[], List.Perm.refl _, by simp [drainLoop]⟩
  | succ fuel ih =>
      intro queue result hle
      cases hp : popBest (costAt nodes) queue with
      | none =>
          have : queue = [] := popBest_none _ queue hp
          subst this
          exact ⟨[], List.Perm.refl _, by simp [drainLoop, hp]⟩
      | some p =>
          obtain ⟨i, rest⟩ := p
          have hperm := popBest_perm _ queue i rest hp
          have hlen : queue.length = rest.length + 1 := hperm.length_eq
          obtain ⟨q2, hq2p, hq2e⟩ := ih rest (result ++ [combineContexts nodes i])
            (by omega)
          refine ⟨i :: q2, ?_, ?_⟩
          · exact (hq2p.cons i).trans hperm.symm
          · simp only [drainLoop, hp, hq2e, List.map_cons]
            simp

/-- A list of positive naturals has sum at least its length. -/
theorem length_le_sum_of_pos :
    ∀ l : List ℕ, (∀ x ∈ l, 1 ≤ x) → l.length ≤ l.sum := by
  intro l
  induction l with
  | nil => intro _; simp
  | cons b bs ih =>
      intro h
      simp only [List.sum_cons, List.length_cons]
      have hb := h b (List.mem_cons_self b bs)
      have := ih (fun y hy => h y (List.mem_cons_of_mem b hy))
      omega

/-- In a list of positive naturals whose sum equals its length, every
element is one. -/
theorem sum_eq_length_all_one :
    ∀ l : List ℕ, (∀ x ∈ l, 1 ≤ x) → l.sum = l.length → ∀ x ∈ l, x = 1 := by
  intro l
  induction l with
  | nil => intro _ _ x hx; simp at hx
  | cons a as ih =>
      intro hpos hsum x hx
      have ha : 1 ≤ a := hpos a (List.mem_cons_self a as)
      have has : ∀ y ∈ as, 1 ≤ y := fun y hy => hpos y (List.mem_cons_of_mem a hy)
      have hsum' : as.length ≤ as.sum := length_le_sum_of_pos as has
      simp only [List.sum_cons, List.length_cons] at hsum
      rcases List.mem_cons.mp hx with rfl | hx2
      · omega
      · exact ih has (by omega) x hx2

/-- The spec list of a combined context is a permutation of the raw specs
below the node. -/
theorem combineContexts_specs_perm (nodes : List ContextNode) (i : ℕ) :
    (combineContexts nodes i).specs.Perm (specsUnder nodes nodes.length i) := by
  simpa [combineContexts, ComplexContext.new] using
    stableSort_perm (fun a b => decide (a ≤ b)) (specsUnder nodes nodes.length i)

/-- Flattening the spec lists of combined contexts agrees, up to
permutation, with flattening the raw specs below the nodes. -/
theorem flatten_specs_combine_perm (nodes : List ContextNode) :
    ∀ q : List ℕ,
      ((q.map (combineContexts nodes)).map ComplexContext.specs).flatten.Perm
        ((q.map (fun i => specsUnder nodes nodes.length i)).flatten) := by
  intro q
  induction q with
  | nil => simp
  | cons a as ih =>
      simp only [List.map_cons, List.flatten_cons]
      exact (combineContexts_specs_perm nodes a).append ih

/-- A node with at most one leaf below it is itself a leaf. -/
theorem leaf_of_leavesUnder_le_one (nodes : List ContextNode) (hwf : wfTree nodes)
    (i : ℕ) (hi : i < nodes.length)
    (hone : leavesUnder nodes nodes.length i ≤ 1) :
    ∃ sp c, nodes[i]? = some (ContextNode.leaf sp c) := by
  have hsome := getElem?_eq_some_getD nodes i (ContextNode.leaf [] ⟨0, [], 0⟩) hi
  cases hnode : nodes.getD i (ContextNode.leaf [] ⟨0, [], 0⟩) with
  | leaf sp c =>
      rw [hnode] at hsome
      exact ⟨sp, c, hsome⟩
  | node c m l r =>
      rw [hnode] at hsome
      obtain ⟨hl, hr, _⟩ := wf_children_lt nodes hwf hsome
      have h1 := leavesUnder_pos nodes hwf l (by omega) nodes.length (by omega)
      have h2 := leavesUnder_pos nodes hwf r (by omega) nodes.length (by omega)
      rw [leavesUnder_node nodes hwf hsome] at hone
      omega

/-- Mapping a function that returns singletons and flattening is the
identity. -/
theorem flatten_map_singleton (f : ℕ → List ℕ) :
    ∀ q : List ℕ, (∀ i ∈ q, f i = [i]) → (q.map f).flatten = q := by
  intro q
  induction q with
  | nil => intro _; simp
  | cons a as ih =>
      intro h
      simp only [List.map_cons, List.flatten_cons,
        h a (List.mem_cons_self a as), List.cons_append, List.nil_append]
      rw [ih (fun i hi => h i (List.mem_cons_of_mem a hi))]

/-- Master specification of the main traversal loop: with fuel beyond the
total subtree node count the loop succeeds; the output length follows the
min formula; the flattened output specs are a permutation of the
accumulated plus queued specs; and when the requested count is at least the
total leaf count, the output is the accumulated results plus one combine
per queued leaf. -/
theorem traverseLoop_spec (nodes : List ContextNode) (K : ℕ) (hwf : wfTree nodes) :
    ∀ (fuel : ℕ) (queue : List ℕ) (result : List ComplexContext),
      (∀ j ∈ queue, j < nodes.length) →
      (queue.map (fun j => nodesUnder nodes nodes.length j)).sum < fuel →
      ∃ out, traverseLoop nodes K fuel queue result = some out ∧
        out.length = (if result.length + queue.length < K
          then min K (result.length +
            (queue.map (fun j => leavesUnder nodes nodes.length j)).sum)
          else result.length + queue.length) ∧
        ((out.map ComplexContext.specs).flatten).Perm
          ((result.map ComplexContext.specs).flatten ++
            (queue.map (fun j => specsUnder nodes nodes.length j)).flatten) ∧
        (result.length +
            (queue.map (fun j => leavesUnder nodes nodes.length j)).sum ≤ K →
          out.Perm (result ++
            ((queue.map (fun j => leafIndicesUnder nodes nodes.length j)).flatten).map
              (combineContexts nodes))) := by
  intro fuel
  induction fuel with
  | zero =>
      intro queue result hq hfuel
      exact absurd hfuel (Nat.not_lt_zero _)
  | succ fuel ih =>
      intro queue result hq hfuel
      by_cases hS : result.length + queue.length < K
      · cases hp : popBest (costAt nodes) queue with
        | none =>
            have hqe : queue = [] := popBest_none _ queue hp
            subst hqe
            refine ⟨result, ?_, ?_, ?_, ?_⟩
            · simp [traverseLoop, if_pos hS, hp, drainLoop]
            · rw [if_pos hS]
              have hS' : result.length < K := by simpa using hS
              simp only [List.map_nil, List.sum_nil, Nat.add_zero]
              omega
            · simp
            · intro _
              simp only [List.map_nil, List.flatten_nil, List.append_nil]
              exact List.Perm.refl _
        | some p =>
            obtain ⟨i, rest⟩ := p
            have hperm := popBest_perm _ queue i rest hp
            have hi : i < nodes.length :=
              hq i (hperm.mem_iff.mpr (List.mem_cons_self i rest))
            have hrest : ∀ j ∈ rest, j < nodes.length := fun j hj =>
              hq j (hperm.mem_iff.mpr (List.mem_cons_of_mem i hj))
            have hlenq : queue.length = rest.length + 1 := by
              simpa using hperm.length_eq
            have hsumN : (queue.map (fun j => nodesUnder nodes nodes.length j)).sum
                = nodesUnder nodes nodes.length i +
                  (rest.map (fun j => nodesUnder nodes nodes.length j)).sum := by
              simpa using (hperm.map (fun j => nodesUnder nodes nodes.length j)).sum_eq
            have hsumL : (queue.map (fun j => leavesUnder nodes nodes.length j)).sum
                = leavesUnder nodes nodes.length i +
                  (rest.map (fun j => leavesUnder nodes nodes.length j)).sum := by
              simpa using (hperm.map (fun j => leavesUnder nodes nodes.length j)).sum_eq
            have hflatS :
                (queue.map (fun j => specsUnder nodes nodes.length j)).flatten.Perm
                  (specsUnder nodes nodes.length i ++
                    (rest.map (fun j => specsUnder nodes nodes.length j)).flatten) := by
              simpa using (hperm.map (fun j => specsUnder nodes nodes.length j)).flatten
            have hflatI :
                (queue.map (fun j => leafIndicesUnder nodes nodes.length j)).flatten.Perm
                  (leafIndicesUnder nodes nodes.length i ++
                    (rest.map (fun j => leafIndicesUnder nodes nodes.length j)).flatten) := by
              simpa using
                (hperm.map (fun j => leafIndicesUnder nodes nodes.length j)).flatten
            cases hnode : nodes[i]? with
            | none =>
                exfalso
                have hsome := getElem?_eq_some_getD nodes i (ContextNode.leaf [] ⟨0, [], 0⟩) hi
                rw [hnode] at hsome
                exact Option.noConfusion hsome
            | some nd =>
                cases nd with
                | leaf sp c =>
                    have hNi : nodesUnder nodes nodes.length i = 1 :=
                      nodesUnder_leaf nodes hnode nodes.length (by omega)
                    have hLi : leavesUnder nodes nodes.length i = 1 :=
                      leavesUnder_leaf nodes hnode nodes.length (by omega)
                    have hSi : specsUnder nodes nodes.length i = sp :=
                      specsUnder_leaf nodes hnode nodes.length (by omega)
                    have hIi : leafIndicesUnder nodes nodes.length i = [i] :=
                      leafIndicesUnder_leaf nodes hnode nodes.length (by omega)
                    obtain ⟨out, hout, hlen, hspec, hall⟩ :=
                      ih rest (result ++ [combineContexts nodes i]) hrest (by omega)
                    refine ⟨out, ?_, ?_, ?_, ?_⟩
                    · simp only [traverseLoop, if_pos hS, hp, hnode]
                      exact hout
                    · rw [if_pos hS]
                      have hrl : (result ++ [combineContexts nodes i]).length
                          = result.length + 1 := by simp
                      rw [hrl] at hlen
                      rw [if_pos (by omega : result.length + 1 + rest.length < K)] at hlen
                      omega
                    · have heqL : ((result ++ [combineContexts nodes i]).map
                            ComplexContext.specs).flatten
                          = (result.map ComplexContext.specs).flatten ++
                            (combineContexts nodes i).specs := by simp
                      rw [heqL, List.append_assoc] at hspec
                      have h1 : (combineContexts nodes i).specs.Perm sp := by
                        have h2 := combineContexts_specs_perm nodes i
                        rw [hSi] at h2
                        exact h2
                      rw [hSi] at hflatS
                      exact hspec.trans (List.Perm.append_left _
                        ((h1.append (List.Perm.refl _)).trans hflatS.symm))
                    · intro hK
                      have hout2 := hall (by
                        simp only [List.length_append, List.length_cons, List.length_nil]
                        omega)
                      rw [List.append_assoc, List.singleton_append] at hout2
                      rw [hIi, List.singleton_append] at hflatI
                      have hm := hflatI.map (combineContexts nodes)
                      rw [List.map_cons] at hm
                      exact hout2.trans (List.Perm.append_left result hm.symm)
                | node c m l r =>
                    obtain ⟨hl, hr, _⟩ := wf_children_lt nodes hwf hnode
                    have hNi := nodesUnder_node nodes hwf hnode
                    have hLi := leavesUnder_node nodes hwf hnode
                    have hSi := specsUnder_node nodes hwf hnode
                    have hIi := leafIndicesUnder_node nodes hwf hnode
                    have hLl := leavesUnder_pos nodes hwf l (by omega) nodes.length (by omega)
                    have hLr := leavesUnder_pos nodes hwf r (by omega) nodes.length (by omega)
                    have hbounds : ∀ j ∈ rest ++ [l, r], j < nodes.length := by
                      intro j hj
                      rcases List.mem_append.mp hj with h1 | h1
                      · exact hrest j h1
                      · simp only [List.mem_cons, List.not_mem_nil, or_false] at h1
                        rcases h1 with rfl | rfl <;> omega
                    obtain ⟨out, hout, hlen, hspec, hall⟩ :=
                      ih (rest ++ [l, r]) result hbounds (by
                        simp only [List.map_append, List.sum_append, List.map_cons,
                          List.sum_cons, List.map_nil, List.sum_nil]
                        omega)
                    have hrestlv : rest.length ≤
                        (rest.map (fun j => leavesUnder nodes nodes.length j)).sum := by
                      have hlp := length_le_sum_of_pos
                        (rest.map (fun j => leavesUnder nodes nodes.length j)) (by
                          intro x hx
                          obtain ⟨j, hj, rfl⟩ := List.mem_map.mp hx
                          have hjlen := hrest j hj
                          exact leavesUnder_pos nodes hwf j hjlen nodes.length (by omega))
                      simpa using hlp
                    refine ⟨out, ?_, ?_, ?_, ?_⟩
                    · simp only [traverseLoop, if_pos hS, hp, hnode]
                      exact hout
                    · rw [if_pos hS]
                      simp only [List.length_append, List.length_cons, List.length_nil,
                        List.map_append, List.sum_append, List.map_cons, List.sum_cons,
                        List.map_nil, List.sum_nil] at hlen
                      split at hlen <;> omega
                    · have heqS : ((rest ++ [l, r]).map
                            (fun j => specsUnder nodes nodes.length j)).flatten
                          = (rest.map (fun j => specsUnder nodes nodes.length j)).flatten ++
                            (specsUnder nodes nodes.length l ++
                              specsUnder nodes nodes.length r) := by simp
                      have hstepS : (((rest ++ [l, r]).map
                            (fun j => specsUnder nodes nodes.length j)).flatten).Perm
                          ((queue.map (fun j => specsUnder nodes nodes.length j)).flatten) := by
                        rw [heqS]
                        refine List.perm_append_comm.trans ?_
                        rw [← hSi]
                        exact hflatS.symm
                      exact hspec.trans (List.Perm.append_left _ hstepS)
                    · intro hK
                      have hout2 := hall (by
                        simp only [List.map_append, List.sum_append, List.map_cons,
                          List.sum_cons, List.map_nil, List.sum_nil]
                        omega)
                      have heqI : ((rest ++ [l, r]).map
                            (fun j => leafIndicesUnder nodes nodes.length j)).flatten
                          = (rest.map (fun j => leafIndicesUnder nodes nodes.length j)).flatten ++
                            (leafIndicesUnder nodes nodes.length l ++
                              leafIndicesUnder nodes nodes.length r) := by simp
                      have hstepI : (((rest ++ [l, r]).map
                            (fun j => leafIndicesUnder nodes nodes.length j)).flatten).Perm
                          ((queue.map (fun j => leafIndicesUnder nodes nodes.length j)).flatten) := by
                        rw [heqI]
                        refine List.perm_append_comm.trans ?_
                        rw [← hIi]
                        exact hflatI.symm
                      exact hout2.trans (List.Perm.append_left result
                        (hstepI.map (combineContexts nodes)))
      · obtain ⟨q2, hq2p, hq2e⟩ := drainLoop_spec nodes queue.length queue result (le_refl _)
        refine ⟨result ++ q2.map (combineContexts nodes), ?_, ?_, ?_, ?_⟩
        · simp only [traverseLoop, if_neg hS]
          rw [hq2e]
        · rw [if_neg hS]
          simp only [List.length_append, List.length_map]
          rw [hq2p.length_eq]
        · have heq2 : ((result ++ q2.map (combineContexts nodes)).map
                ComplexContext.specs).flatten
              = (result.map ComplexContext.specs).flatten ++
                ((q2.map (combineContexts nodes)).map ComplexContext.specs).flatten := by
            simp
          rw [heq2]
          refine List.Perm.append_left _ ?_
          exact (flatten_specs_combine_perm nodes q2).trans
            ((hq2p.map (fun j => specsUnder nodes nodes.length j)).flatten)
        · intro hK
          have hpos : ∀ x ∈ queue.map (fun j => leavesUnder nodes nodes.length j), 1 ≤ x := by
            intro x hx
            obtain ⟨j, hj, rfl⟩ := List.mem_map.mp hx
            have hjlen := hq j hj
            exact leavesUnder_pos nodes hwf j hjlen nodes.length (by omega)
          have hlenlesum := length_le_sum_of_pos _ hpos
          have hlm : (queue.map (fun j => leavesUnder nodes nodes.length j)).length
              = queue.length := List.length_map _ _
          have hsumeq : (queue.map (fun j => leavesUnder nodes nodes.length j)).sum
              = (queue.map (fun j => leavesUnder nodes nodes.length j)).length := by
            omega
          have hone := sum_eq_length_all_one _ hpos hsumeq
          have hleaf : ∀ j ∈ queue,
              leafIndicesUnder nodes nodes.length j = [j] := by
            intro j hj
            have h1 : leavesUnder nodes nodes.length j = 1 :=
              hone _ (List.mem_map.mpr ⟨j, hj, rfl⟩)
            obtain ⟨sp, c, hnd⟩ :=
              leaf_of_leavesUnder_le_one nodes hwf j (hq j hj) (by omega)
            have hjlen := hq j hj
            exact leafIndicesUnder_leaf nodes hnd nodes.length (by omega)
          have hflatid : (queue.map
              (fun j => leafIndicesUnder nodes nodes.length j)).flatten = queue :=
            flatten_map_singleton _ queue hleaf
          rw [hflatid]
          exact List.Perm.append_left result (hq2p.map _)

/-- C5 counterexample: `ContextTree::traverse` begins with
`assert!(num_contexts > 0)`, so for `num_contexts = 0` it panics (modelled
by `none`) instead of returning the empty output the claim promises — even
on a well-formed single-leaf tree. -/
theorem traverse_zero_panics_not_empty :
    (ContextTree.mk [ContextNode.leaf [0] ⟨1, [1], 0⟩]).traverse 0 = none ∧
      (ContextTree.mk [ContextNode.leaf [0] ⟨1, [1], 0⟩]).traverse 0 ≠
        some [] := by
  refine ⟨rfl, ?_⟩
  intro h
  exact Option.noConfusion h

/-- C5 (amended): for every well-formed nonempty context tree,
`traverse(0)` panics (`none`), and `traverse(K)` for `K` at least the
number of leaves returns exactly the leaves, each combined into its own
complex context (in pop order, i.e. as a permutation of the leaf list). -/
theorem contextTree_traverse_zero_and_all_leaves (t : ContextTree)
    (hwf : wfTree t.vec) (hne : t.vec ≠ []) :
    t.traverse 0 = none ∧
    ∀ K, leavesUnder t.vec t.vec.length (t.vec.length - 1) ≤ K →
      ∃ out, t.traverse K = some out ∧
        out.length = leavesUnder t.vec t.vec.length (t.vec.length - 1) ∧
        out.Perm ((leafIndicesUnder t.vec t.vec.length (t.vec.length - 1)).map
          (combineContexts t.vec)) := by
  constructor
  · simp [ContextTree.traverse]
  · intro K hK
    have hlen1 : 0 < t.vec.length := List.length_pos.mpr hne
    have hroot : t.vec.length - 1 < t.vec.length := by omega
    have hlv := leavesUnder_pos t.vec hwf (t.vec.length - 1) hroot t.vec.length
      (by omega)
    have hKne : K ≠ 0 := by omega
    have hpow := nodesUnder_lt_pow t.vec hwf (t.vec.length - 1) hroot t.vec.length
      (by omega)
    have hpe : t.vec.length - 1 + 1 = t.vec.length := by omega
    rw [hpe] at hpow
    obtain ⟨out, hout, hlen, hspec, hall⟩ :=
      traverseLoop_spec t.vec K hwf (2 ^ t.vec.length) [t.vec.length - 1] []
        (by intro j hj; simp only [List.mem_singleton] at hj; omega)
        (by simpa using hpow)
    have hallc := hall (by simpa using hK)
    simp only [List.map_cons, List.map_nil, List.flatten_cons, List.flatten_nil,
      List.append_nil, List.nil_append] at hallc
    refine ⟨out, ?_, ?_, ?_⟩
    · simp only [ContextTree.traverse, if_neg hKne]
      exact hout
    · rw [hallc.length_eq, List.length_map, ← leavesUnder_eq_length_leafIndices]
    · exact hallc

/-- Closed-form check of the amended C5 statement on a concrete two-leaf
tree. -/
theorem contextTree_traverse_zero_and_all_leaves_witness :
    wfTree [ContextNode.leaf [0] ⟨1, [1], 0⟩, ContextNode.leaf [1] ⟨1, [1], 0⟩,
        ContextNode.node ⟨1, [1], 0⟩ 0 0 1] ∧
      (ContextTree.mk [ContextNode.leaf [0] ⟨1, [1], 0⟩,
        ContextNode.leaf [1] ⟨1, [1], 0⟩,
        ContextNode.node ⟨1, [1], 0⟩ 0 0 1]).traverse 0 = none := by
  have hwf : wfTree [ContextNode.leaf [0] ⟨1, [1], 0⟩,
      ContextNode.leaf [1] ⟨1, [1], 0⟩,
      ContextNode.node ⟨1, [1], 0⟩ 0 0 1] := by
    intro i hi
    have hi3 : i < 3 := by simpa using hi
    interval_cases i <;> decide
  refine ⟨hwf, ?_⟩
  exact (contextTree_traverse_zero_and_all_leaves
    ⟨[ContextNode.leaf [0] ⟨1, [1], 0⟩, ContextNode.leaf [1] ⟨1, [1], 0⟩,
      ContextNode.node ⟨1, [1], 0⟩ 0 0 1]⟩ hwf (by simp)).1

/-- Reading `getD` on an append, inside the left part. -/
theorem getD_append_left {α : Type} (l1 l2 : List α) (k : ℕ) (d : α)
    (hk : k < l1.length) : (l1 ++ l2).getD k d = l1.getD k d := by
  rw [List.getD_eq_getElem?_getD, List.getElem?_append_left hk,
    ← List.getD_eq_getElem?_getD]

/-- Reading `getD` of a one-element append at the old length. -/
theorem getD_concat_length {α : Type} (l : List α) (x : α) (d : α) :
    (l ++ [x]).getD l.length d = x := by
  rw [List.getD_eq_getElem?_getD, List.getElem?_concat_length]
  rfl

/-- Reading `getD` after `set` at a different index. -/
theorem getD_set_of_ne {α : Type} (l : List α) (i j : ℕ) (v : α) (d : α)
    (h : i ≠ j) : (l.set i v).getD j d = l.getD j d := by
  rw [List.getD_eq_getElem?_getD, List.getElem?_set_ne h,
    ← List.getD_eq_getElem?_getD]

/-- Reading `getD` after `set` at the written index. -/
theorem getD_set_eq {α : Type} (l : List α) (i : ℕ) (v : α) (d : α)
    (h : i < l.length) : (l.set i v).getD i d = v := by
  rw [List.getD_eq_getElem?_getD, List.getElem?_set_self h]
  rfl

/-- Reading `getD` of `replicate` in range. -/
theorem getD_replicate_lt {α : Type} (n i : ℕ) (a d : α) (h : i < n) :
    (List.replicate n a).getD i d = a := by
  rw [List.getD_eq_getElem?_getD, List.getElem?_replicate, if_pos h]
  rfl

/-- The selection `selectMin` returns `none` only on the empty list. -/
theorem selectMin_none (cost : ℕ × ℕ → ℚ) :
    ∀ l : List (ℕ × ℕ), selectMin cost l = none → l = [] := by
  intro l h
  cases l with
  | nil => rfl
  | cons x xs =>
      simp only [selectMin] at h
      cases hp : selectMin cost xs with
      | none => simp [hp] at h
      | some y =>
          rw [hp] at h
          by_cases hc : cost x ≤ cost y <;> simp [hc] at h

/-- The selection `selectMin` returns a member of the list. -/
theorem selectMin_mem (cost : ℕ × ℕ → ℚ) :
    ∀ (l : List (ℕ × ℕ)) (p : ℕ × ℕ), selectMin cost l = some p → p ∈ l := by
  intro l
  induction l with
  | nil => intro p h; simp [selectMin] at h
  | cons x xs ih =>
      intro p h
      simp only [selectMin] at h
      cases hp : selectMin cost xs with
      | none =>
          rw [hp] at h
          simp only [Option.some.injEq] at h
          subst h
          exact List.mem_cons_self x xs
      | some y =>
          rw [hp] at h
          by_cases hc : cost x ≤ cost y
          · simp only [if_pos hc, Option.some.injEq] at h
            subst h
            exact List.mem_cons_self x xs
          · simp only [if_neg hc, Option.some.injEq] at h
            subst h
            exact List.mem_cons_of_mem x (ih y hp)

/-- Membership in the `tuple_combinations` pair enumeration. -/
theorem allPairs_mem (n i j : ℕ) : (i, j) ∈ allPairs n ↔ i < j ∧ j < n := by
  constructor
  · intro h
    simp only [allPairs, List.mem_flatMap, List.mem_map, List.mem_filter,
      List.mem_range, decide_eq_true_eq, Prod.mk.injEq] at h
    obtain ⟨a, ha, b, ⟨hb, hab⟩, rfl, rfl⟩ := h
    exact ⟨hab, hb⟩
  · rintro ⟨hij, hjn⟩
    simp only [allPairs, List.mem_flatMap, List.mem_map, List.mem_filter,
      List.mem_range, decide_eq_true_eq, Prod.mk.injEq]
    exact ⟨i, by omega, j, ⟨hjn, hij⟩, rfl, rfl⟩

/-- A duplicate-free list with at least two elements has two members in
strict order. -/
theorem exists_lt_pair_of_two_le (S : List ℕ) (hnd : S.Nodup)
    (h2 : 2 ≤ S.length) : ∃ i j, i ∈ S ∧ j ∈ S ∧ i < j := by
  cases S with
  | nil => simp at h2
  | cons a tail =>
      cases tail with
      | nil => simp at h2
      | cons b rest =>
          have hne : a ≠ b := by
            simp only [List.nodup_cons, List.mem_cons] at hnd
            intro he
            exact hnd.1 (Or.inl he)
          rcases Nat.lt_or_ge a b with hab | hab
          · exact ⟨a, b, List.mem_cons_self _ _,
              List.mem_cons_of_mem _ (List.mem_cons_self _ _), hab⟩
          · have hba : b < a := by omega
            exact ⟨b, a, List.mem_cons_of_mem _ (List.mem_cons_self _ _),
              List.mem_cons_self _ _, hba⟩

/-- Appending a node whose children are in range preserves tree
well-formedness. -/
theorem wfTree_append (nodes : List ContextNode) (hwf : wfTree nodes)
    (nd : ContextNode) (hnd : nodeChildrenLt nd nodes.length = true) :
    wfTree (nodes ++ [nd]) := by
  intro k hk
  simp only [List.length_append, List.length_cons, List.length_nil] at hk
  by_cases hkl : k < nodes.length
  · rw [getD_append_left _ _ _ _ hkl]
    exact hwf k hkl
  · have hke : k = nodes.length := by omega
    subst hke
    rw [getD_concat_length]
    exact hnd

/-- Constructor `newFromMerge` unfolded. -/
theorem newFromMerge_eq (h : ℚ → ℚ) (left right : Context) (li ri : ℕ) :
    ContextNode.newFromMerge h left right li ri =
      ContextNode.node (Context.mergeWith h left right)
        (Context.mergeCost (Context.mergeWith h left right) left right) li ri := rfl

/-- Appending an inner node preserves the single-spec-leaf property. -/
theorem singleSpecLeaf_append (nodes : List ContextNode)
    (hss : ∀ (j : ℕ) (sp : List ℕ) (c : Context),
      nodes[j]? = some (ContextNode.leaf sp c) → sp.length = 1)
    (c0 : Context) (m : ℚ) (li ri : ℕ) :
    ∀ (j : ℕ) (sp : List ℕ) (c : Context),
      (nodes ++ [ContextNode.node c0 m li ri])[j]? =
          some (ContextNode.leaf sp c) → sp.length = 1 := by
  intro j sp c hj
  by_cases hjl : j < nodes.length
  · rw [List.getElem?_append_left hjl] at hj
    exact hss j sp c hj
  · by_cases hje : j = nodes.length
    · subst hje
      rw [List.getElem?_concat_length] at hj
      exact ContextNode.noConfusion (Option.some.inj hj)
    · have hlen : (nodes ++ [ContextNode.node c0 m li ri]).length ≤ j := by
        simp only [List.length_append, List.length_cons, List.length_nil]
        omega
      rw [List.getElem?_eq_none hlen] at hj
      exact Option.noConfusion hj

/-- With single-spec leaves, the spec count below a node equals its leaf
count. -/
theorem specsUnder_length_eq_leaves (nodes : List ContextNode)
    (hss : ∀ (j : ℕ) (sp : List ℕ) (c : Context),
      nodes[j]? = some (ContextNode.leaf sp c) → sp.length = 1) :
    ∀ (fuel i : ℕ), (specsUnder nodes fuel i).length = leavesUnder nodes fuel i := by
  intro fuel
  induction fuel with
  | zero => intro i; rfl
  | succ fuel ih =>
      intro i
      simp only [specsUnder, leavesUnder]
      cases hi : nodes[i]? with
      | none => rfl
      | some nd =>
          cases nd with
          | leaf sp c => exact hss i sp c hi
          | node c m l r => simp [List.length_append, ih]

/-- Mapping `getD` over the index range reproduces the list. -/
theorem range_map_getD {α : Type} (d : α) :
    ∀ l : List α, (List.range l.length).map (fun i => l.getD i d) = l := by
  intro l
  induction l with
  | nil => simp
  | cons a as ih =>
      rw [List.length_cons, List.range_succ_eq_map]
      simp only [List.map_cons, List.getD_cons_zero, List.map_map]
      have hfe : ((fun i => (a :: as).getD i d) ∘ Nat.succ) =
          fun i => as.getD i d := by
        funext i
        simp [Function.comp, List.getD_cons_succ]
      rw [hfe, ih]

/-- Flattening singleton lists undoes the wrapping. -/
theorem flatten_map_singleton_fn {α : Type} (g : ℕ → α) :
    ∀ l : List ℕ, (l.map (fun i => [g i])).flatten = l.map g := by
  intro l
  induction l with
  | nil => rfl
  | cons a as ih => simp [ih]

/-- The binning invariant holds before the first agglomeration round. -/
theorem binInv_base (input : List (ℕ × Context)) (hN : 1 ≤ input.length) :
    BinInv input
      (input.map (fun sc => ContextNode.newLeaf sc.1 sc.2),
        List.replicate input.length true)
      (List.range input.length) 0 := by
  unfold BinInv
  dsimp only
  refine ⟨by simp, by simp, ?_, ?_, List.nodup_range _, ?_, by simp, ?_, ?_, ?_⟩
  · intro i hi
    simp only [List.length_map] at hi
    rw [getD_map_lt (fun sc => ContextNode.newLeaf sc.1 sc.2) input i (0, ⟨0, [], 0⟩)
      (ContextNode.leaf [] ⟨0, [], 0⟩) hi]
    rfl
  · intro j sp c hj
    rw [List.getElem?_map] at hj
    cases hx : input[j]? with
    | none =>
        rw [hx] at hj
        exact Option.noConfusion hj
    | some sc =>
        rw [hx] at hj
        have hj2 : ContextNode.leaf [sc.1] sc.2 = ContextNode.leaf sp c :=
          Option.some.inj hj
        injection hj2 with h1 h2
        rw [← h1]
        rfl
  · intro k hk
    rw [List.mem_range] at hk
    simpa using hk
  · simp only [List.length_map, List.mem_range]
    omega
  · intro k hk
    simp only [List.length_map] at hk
    rw [getD_replicate_lt input.length k true false hk]
    simp [List.mem_range, hk]
  · have hpoint : ∀ i ∈ List.range input.length,
        specsUnder (input.map (fun sc => ContextNode.newLeaf sc.1 sc.2))
          (input.map (fun sc => ContextNode.newLeaf sc.1 sc.2)).length i
          = [(input.getD i (0, ⟨0, [], 0⟩)).1] := by
      intro i hi
      rw [List.mem_range] at hi
      have hilen : i < (input.map (fun sc => ContextNode.newLeaf sc.1 sc.2)).length := by
        simpa using hi
      have hsome := getElem?_eq_some_getD
        (input.map (fun sc => ContextNode.newLeaf sc.1 sc.2)) i
        (ContextNode.leaf [] ⟨0, [], 0⟩) hilen
      rw [getD_map_lt (fun sc => ContextNode.newLeaf sc.1 sc.2) input i
        (0, ⟨0, [], 0⟩) (ContextNode.leaf [] ⟨0, [], 0⟩) hi] at hsome
      exact specsUnder_leaf _ hsome _ (by simp only [List.length_map]; omega)
    rw [List.map_congr_left hpoint,
      flatten_map_singleton_fn (fun i => (input.getD i (0, ⟨0, [], 0⟩)).1)]
    have h2 : (List.range input.length).map (fun i => (input.getD i (0, ⟨0, [], 0⟩)).1)
        = input.map Prod.fst := by
      have h3 := range_map_getD (0 : ℕ) (input.map Prod.fst)
      rw [List.length_map] at h3
      rw [← h3]
      apply List.map_congr_left
      intro i hi
      rw [List.mem_range] at hi
      rw [getD_map_lt Prod.fst input i (0, ⟨0, [], 0⟩) 0 hi]
    rw [h2]

/-- Reading `getD` of a one-element append at the left part's length, given as an
equation. -/
theorem getD_concat_of_length {α : Type} (l : List α) (x d : α) (n : ℕ)
    (hl : l.length = n) : (l ++ [x]).getD n d = x := by
  subst hl
  exact getD_concat_length l x d

/-- One agglomeration round preserves the binning invariant: two available
nodes are merged into a freshly appended node. -/
theorem binRound_step (h : ℚ → ℚ) (input : List (ℕ × Context))
    (nodes : List ContextNode) (avail : List Bool) (S : List ℕ) (t : ℕ)
    (hinv : BinInv input (nodes, avail) S t) (h2 : t + 2 ≤ input.length) :
    ∃ S2, BinInv input (binRound h (nodes, avail)) S2 (t + 1) := by
  unfold BinInv at hinv
  dsimp only at hinv
  obtain ⟨hn, ha, hwf, hss, hnd, hklt, hScard, hroot, hmem, hperm⟩ := hinv
  have hS2 : 2 ≤ S.length := by omega
  obtain ⟨i0, j0, hi0, hj0, hij0⟩ := exists_lt_pair_of_two_le S hnd hS2
  have hi0n : i0 < nodes.length := hklt i0 hi0
  have hj0n : j0 < nodes.length := hklt j0 hj0
  have hmemP : (i0, j0) ∈ (allPairs nodes.length).filter
      (fun p => avail.getD p.1 false && avail.getD p.2 false) := by
    apply List.mem_filter.mpr
    refine ⟨(allPairs_mem _ _ _).mpr ⟨hij0, hj0n⟩, ?_⟩
    have hv1 : avail.getD i0 false = true := (hmem i0 hi0n).mpr hi0
    have hv2 : avail.getD j0 false = true := (hmem j0 hj0n).mpr hj0
    show (avail.getD i0 false && avail.getD j0 false) = true
    rw [hv1, hv2]
    rfl
  cases hsel : selectMin (pairCost h nodes) ((allPairs nodes.length).filter
      (fun p => avail.getD p.1 false && avail.getD p.2 false)) with
  | none =>
      exfalso
      have hnil := selectMin_none _ _ hsel
      rw [hnil] at hmemP
      exact List.not_mem_nil _ hmemP
  | some p =>
      obtain ⟨i, j⟩ := p
      have hmemP2 := selectMin_mem _ _ _ hsel
      have hfil := List.mem_filter.mp hmemP2
      have hijn := (allPairs_mem nodes.length i j).mp hfil.1
      have hij : i < j := hijn.1
      have hjn : j < nodes.length := hijn.2
      have hin : i < nodes.length := by omega
      have hav := hfil.2
      simp only [Bool.and_eq_true] at hav
      have hiS : i ∈ S := (hmem i hin).mp hav.1
      have hjS : j ∈ S := (hmem j hjn).mp hav.2
      have hbr : binRound h (nodes, avail) =
          (nodes ++ [ContextNode.newFromMerge h (contextAt nodes i)
            (contextAt nodes j) i j],
            ((avail.set i false).set j false) ++ [true]) := by
        simp only [binRound, hsel]
      rw [hbr, newFromMerge_eq]
      generalize Context.mergeCost
        (Context.mergeWith h (contextAt nodes i) (contextAt nodes j))
        (contextAt nodes i) (contextAt nodes j) = M
      generalize Context.mergeWith h (contextAt nodes i) (contextAt nodes j) = C
      refine ⟨((S.erase i).erase j) ++ [nodes.length], ?_⟩
      have hjS' : j ∈ S.erase i := (List.mem_erase_of_ne (by omega)).mpr hjS
      have hndE : ((S.erase i).erase j).Nodup := (hnd.erase i).erase j
      have hsubE : ∀ k ∈ (S.erase i).erase j, k ∈ S := fun k hk =>
        List.mem_of_mem_erase (List.mem_of_mem_erase hk)
      have hiNE : i ∉ (S.erase i).erase j := fun hm =>
        hnd.not_mem_erase (List.mem_of_mem_erase hm)
      have hjNE : j ∉ (S.erase i).erase j := (hnd.erase i).not_mem_erase
      have hlenE : ((S.erase i).erase j).length + 2 = S.length := by
        rw [List.length_erase_of_mem hjS', List.length_erase_of_mem hiS]
        omega
      have hpermS : S.Perm (i :: j :: ((S.erase i).erase j)) :=
        (List.perm_cons_erase hiS).trans ((List.perm_cons_erase hjS').cons i)
      unfold BinInv
      dsimp only
      refine ⟨?_, ?_, ?_, ?_, ?_, ?_, ?_, ?_, ?_, ?_⟩
      · simp only [List.length_append, List.length_cons, List.length_nil]
        omega
      · simp only [List.length_append, List.length_cons, List.length_nil,
          List.length_set]
        omega
      · exact wfTree_append nodes hwf _ (by
          simp only [nodeChildrenLt, Bool.and_eq_true, decide_eq_true_eq]
          exact ⟨hin, hjn⟩)
      · exact singleSpecLeaf_append nodes hss C M i j
      · refine hndE.append (List.nodup_singleton _) ?_
        intro a haE haS
        rw [List.mem_singleton] at haS
        subst haS
        have := hklt _ (hsubE _ haE)
        omega
      · intro k hk
        rcases List.mem_append.mp hk with hA | hB
        · have := hklt k (hsubE k hA)
          simp only [List.length_append, List.length_cons, List.length_nil]
          omega
        · rw [List.mem_singleton] at hB
          subst hB
          simp only [List.length_append, List.length_cons, List.length_nil]
          omega
      · simp only [List.length_append, List.length_cons, List.length_nil]
        omega
      · simp
      · intro k hk
        simp only [List.length_append, List.length_cons, List.length_nil] at hk
        have hsetlen : ((avail.set i false).set j false).length = nodes.length := by
          simp only [List.length_set]
          omega
        by_cases hkN : k = nodes.length
        · subst hkN
          rw [getD_concat_of_length _ _ _ _ hsetlen]
          simp
        · have hkn : k < nodes.length := by omega
          rw [getD_append_left _ _ _ _ (by rw [hsetlen]; exact hkn)]
          by_cases hkj : k = j
          · subst hkj
            rw [getD_set_eq _ _ _ _ (by simp only [List.length_set]; omega)]
            constructor
            · intro hfalse
              exact absurd hfalse (by simp)
            · intro hmem2
              exfalso
              rcases List.mem_append.mp hmem2 with hA | hB
              · exact hjNE hA
              · rw [List.mem_singleton] at hB
                omega
          · by_cases hki : k = i
            · subst hki
              rw [getD_set_of_ne _ _ _ _ _ (by omega),
                getD_set_eq _ _ _ _ (by omega)]
              constructor
              · intro hfalse
                exact absurd hfalse (by simp)
              · intro hmem2
                exfalso
                rcases List.mem_append.mp hmem2 with hA | hB
                · exact hiNE hA
                · rw [List.mem_singleton] at hB
                  omega
            · rw [getD_set_of_ne _ _ _ _ _ (by omega),
                getD_set_of_ne _ _ _ _ _ (by omega)]
              rw [hmem k hkn]
              constructor
              · intro hkS
                exact List.mem_append_left _
                  ((List.mem_erase_of_ne hkj).mpr ((List.mem_erase_of_ne hki).mpr hkS))
              · intro hk2
                rcases List.mem_append.mp hk2 with hA | hB
                · exact hsubE k hA
                · rw [List.mem_singleton] at hB
                  omega
      · have hspecExt : ∀ k, k < nodes.length →
            specsUnder (nodes ++ [ContextNode.node C M i j])
              (nodes ++ [ContextNode.node C M i j]).length k
            = specsUnder nodes nodes.length k := by
          intro k hk
          have hl2 : (nodes ++ [ContextNode.node C M i j]).length
              = nodes.length + 1 := by simp
          rw [hl2]
          exact specsUnder_ext nodes _ hwf k hk (nodes.length + 1) nodes.length
            (by omega) (by omega)
        have hnodeN : (nodes ++ [ContextNode.node C M i j])[nodes.length]? =
            some (ContextNode.node C M i j) := List.getElem?_concat_length _ _
        have hl2 : (nodes ++ [ContextNode.node C M i j]).length
            = nodes.length + 1 := by simp
        have hspecN : specsUnder (nodes ++ [ContextNode.node C M i j])
            (nodes ++ [ContextNode.node C M i j]).length nodes.length
            = specsUnder nodes nodes.length i ++ specsUnder nodes nodes.length j := by
          rw [hl2]
          simp only [specsUnder, hnodeN]
          rw [specsUnder_ext nodes [ContextNode.node C M i j] hwf i hin nodes.length
              nodes.length (by omega) (by omega),
            specsUnder_ext nodes [ContextNode.node C M i j] hwf j hjn nodes.length
              nodes.length (by omega) (by omega)]
        have hmapE : (((S.erase i).erase j).map
              (fun k => specsUnder (nodes ++ [ContextNode.node C M i j])
                (nodes ++ [ContextNode.node C M i j]).length k))
            = (((S.erase i).erase j).map
              (fun k => specsUnder nodes nodes.length k)) := by
          apply List.map_congr_left
          intro k hk
          exact hspecExt k (hklt k (hsubE k hk))
        rw [List.map_append, List.flatten_append, hmapE]
        simp only [List.map_cons, List.map_nil, List.flatten_cons, List.flatten_nil,
          List.append_nil]
        rw [hspecN]
        have hp2 := (hpermS.map (fun k => specsUnder nodes nodes.length k)).flatten
        simp only [List.map_cons, List.flatten_cons] at hp2
        refine (List.Perm.trans ?_ hp2.symm).trans hperm
        refine List.perm_append_comm.trans ?_
        rw [List.append_assoc]

/-- The binning invariant holds after every prefix of the agglomeration
rounds. -/
theorem binInv_fold (h : ℚ → ℚ) (input : List (ℕ × Context))
    (hN : 1 ≤ input.length) :
    ∀ t, t < input.length →
      ∃ S, BinInv input
        ((List.range t).foldl (fun st _ => binRound h st)
          (input.map (fun sc => ContextNode.newLeaf sc.1 sc.2),
            List.replicate input.length true)) S t := by
  intro t
  induction t with
  | zero =>
      intro _
      refine ⟨List.range input.length, ?_⟩
      simp only [List.range_zero, List.foldl_nil]
      exact binInv_base input hN
  | succ t ih =>
      intro ht
      obtain ⟨S, hS⟩ := ih (by omega)
      have heq : (List.range (t + 1)).foldl (fun st _ => binRound h st)
          (input.map (fun sc => ContextNode.newLeaf sc.1 sc.2),
            List.replicate input.length true)
          = binRound h ((List.range t).foldl (fun st _ => binRound h st)
            (input.map (fun sc => ContextNode.newLeaf sc.1 sc.2),
              List.replicate input.length true)) := by
        rw [List.range_succ, List.foldl_append]
        rfl
      rw [heq]
      exact binRound_step h input _ _ S t hS (by omega)

/-- C3: binning a collection of single-spec contexts with pairwise-distinct
specs (pre-binning disabled, i.e. the pre-binning threshold at least the
input size) and traversing the resulting tree to `K` contexts, `1 ≤ K ≤ N`,
returns exactly `K` complex contexts whose spec lists partition the
original specs: the concatenation of the output spec lists is a
permutation of the input specs and each output spec list is
duplicate-free. -/
theorem binContexts_traverse_partition (h : ℚ → ℚ) (preNum : ℕ)
    (input : List (ℕ × Context)) (K : ℕ)
    (hnodup : (input.map Prod.fst).Nodup)
    (hpre : input.length ≤ preNum)
    (hK1 : 1 ≤ K) (hKN : K ≤ input.length) :
    ∃ out, (binContextsWithKeys h preNum input).traverse K = some out ∧
      out.length = K ∧
      ((out.map ComplexContext.specs).flatten).Perm (input.map Prod.fst) ∧
      ∀ cc ∈ out, cc.specs.Nodup := by
  have hN : 1 ≤ input.length := by omega
  have hbw : binContextsWithKeys h preNum input =
      binContextsNodes h (input.map (fun sc => ContextNode.newLeaf sc.1 sc.2)) := by
    unfold binContextsWithKeys
    rw [if_neg (by omega)]
  rw [hbw]
  unfold binContextsNodes
  simp only [List.length_map]
  obtain ⟨S, hinv⟩ := binInv_fold h input hN (input.length - 1) (by omega)
  unfold BinInv at hinv
  obtain ⟨hn, ha, hwf, hss, hnd, hklt, hScard, hroot, hmem, hperm⟩ := hinv
  set nodesT := ((List.range (input.length - 1)).foldl (fun st _ => binRound h st)
    (input.map (fun sc => ContextNode.newLeaf sc.1 sc.2),
      List.replicate input.length true)).1 with hnodesT
  have hS1 : S.length = 1 := by omega
  obtain ⟨x, hx⟩ := List.length_eq_one.mp hS1
  subst hx
  rw [List.mem_singleton] at hroot
  subst hroot
  simp only [List.map_cons, List.map_nil, List.flatten_cons, List.flatten_nil,
    List.append_nil] at hperm
  have hlv : leavesUnder nodesT nodesT.length (nodesT.length - 1) = input.length := by
    have h1 := specsUnder_length_eq_leaves nodesT hss nodesT.length (nodesT.length - 1)
    have h2 := hperm.length_eq
    rw [List.length_map] at h2
    omega
  have hroot_lt : nodesT.length - 1 < nodesT.length := by omega
  have hpow := nodesUnder_lt_pow nodesT hwf (nodesT.length - 1) hroot_lt
    nodesT.length (by omega)
  have hpe : nodesT.length - 1 + 1 = nodesT.length := by omega
  rw [hpe] at hpow
  obtain ⟨out, hout, hlen, hspec, hall⟩ :=
    traverseLoop_spec nodesT K hwf (2 ^ nodesT.length) [nodesT.length - 1] []
      (by intro j hj; rw [List.mem_singleton] at hj; omega)
      (by simpa using hpow)
  have hspecFlat : ((out.map ComplexContext.specs).flatten).Perm
      (input.map Prod.fst) := by
    have hs := hspec
    simp only [List.map_nil, List.flatten_nil, List.nil_append, List.map_cons,
      List.flatten_cons, List.append_nil] at hs
    exact hs.trans hperm
  refine ⟨out, ?_, ?_, ?_, ?_⟩
  · simp only [ContextTree.traverse, if_neg (by omega : ¬ K = 0)]
    exact hout
  · simp only [List.length_nil, List.length_cons, List.map_cons, List.map_nil,
      List.sum_cons, List.sum_nil, Nat.add_zero, Nat.zero_add] at hlen
    rw [hlv] at hlen
    split at hlen <;> omega
  · exact hspecFlat
  · intro cc hcc
    have hflatnd : ((out.map ComplexContext.specs).flatten).Nodup :=
      (hspecFlat.nodup_iff).mpr hnodup
    rw [List.nodup_flatten] at hflatnd
    exact hflatnd.1 _ (List.mem_map.mpr ⟨cc, hcc, rfl⟩)

/-- Closed-form check of C3 on two single-spec contexts binned and
traversed to two contexts. -/
theorem binContexts_traverse_partition_witness :
    ([((0 : ℕ), (⟨1, [1], 0⟩ : Context)), (1, ⟨1, [1], 0⟩)].map Prod.fst).Nodup ∧
      ([((0 : ℕ), (⟨1, [1], 0⟩ : Context)), (1, ⟨1, [1], 0⟩)] :
        List (ℕ × Context)).length ≤ 2 ∧ 1 ≤ 2 ∧
      ∃ out, (binContextsWithKeys (fun _ => 0) 2
          [((0 : ℕ), (⟨1, [1], 0⟩ : Context)), (1, ⟨1, [1], 0⟩)]).traverse 2 = some out ∧
        out.length = 2 ∧
        ((out.map ComplexContext.specs).flatten).Perm
          ([((0 : ℕ), (⟨1, [1], 0⟩ : Context)), (1, ⟨1, [1], 0⟩)].map Prod.fst) ∧
        ∀ cc ∈ out, cc.specs.Nodup :=
  ⟨by decide, by decide, by decide,
    binContexts_traverse_partition (fun _ => 0) 2
      [((0 : ℕ), (⟨1, [1], 0⟩ : Context)), (1, ⟨1, [1], 0⟩)] 2
      (by decide) (by decide) (by decide) (by decide)⟩

/-- Re-attaching the original identifier after decoding undoes the
discarding. -/
theorem set_identifier_discarded (s : FastqSequence) :
    { s.withIdentifierDiscarded with identifier := s.identifier } = s := by
  cases s
  rfl

/-- Discarding is the identity on sequences with an empty identifier. -/
theorem withIdentifierDiscarded_of_empty (s : FastqSequence)
    (h : s.identifier = "") : s.withIdentifierDiscarded = s := by
  cases s with
  | mk ident ac qs =>
      have h2 : ident = "" := h
      subst h2
      rfl

/-- An identifiers slice only loads the identifier stack. -/
theorem nextSeq_identifiers (decode : ℕ → ℕ → ℕ → List ℕ → FastqSequence)
    (mt : List ModelType) (ids0 : List String) (cA cQ : Option ℕ)
    (lines : List String) (r : List IdnSlice) :
    IdnBlockDecompressor.nextSequenceInternal decode
      (IdnSlice.identifiers lines :: r) ⟨mt, ids0, cA, cQ⟩
    = IdnBlockDecompressor.nextSequenceInternal decode r
      ⟨mt, lines.reverse, cA, cQ⟩ := rfl

/-- A switch-model slice naming an acid model in range sets the current
acid model. -/
theorem nextSeq_switch_acid (decode : ℕ → ℕ → ℕ → List ℕ → FastqSequence)
    (mt : List ModelType) (ids : List String) (cA cQ : Option ℕ) (acid : ℕ)
    (r : List IdnSlice) (hai : acid < mt.length)
    (hat : mt.getD acid ModelType.Acids = ModelType.Acids) :
    IdnBlockDecompressor.nextSequenceInternal decode
      (IdnSlice.switchModel acid :: r) ⟨mt, ids, cA, cQ⟩
    = IdnBlockDecompressor.nextSequenceInternal decode r
      ⟨mt, ids, some acid, cQ⟩ := by
  simp only [IdnBlockDecompressor.nextSequenceInternal,
    IdnBlockDecompressor.handleSwitchModelSlice]
  rw [if_neg (by omega : ¬ acid ≥ mt.length)]
  simp only [hat]
  rfl

/-- A switch-model slice naming a quality-score model in range sets the
current quality-score model. -/
theorem nextSeq_switch_q (decode : ℕ → ℕ → ℕ → List ℕ → FastqSequence)
    (mt : List ModelType) (ids : List String) (cA cQ : Option ℕ) (q : ℕ)
    (r : List IdnSlice) (hqi : q < mt.length)
    (hqt : mt.getD q ModelType.Acids = ModelType.QualityScores) :
    IdnBlockDecompressor.nextSequenceInternal decode
      (IdnSlice.switchModel q :: r) ⟨mt, ids, cA, cQ⟩
    = IdnBlockDecompressor.nextSequenceInternal decode r
      ⟨mt, ids, cA, some q⟩ := by
  simp only [IdnBlockDecompressor.nextSequenceInternal,
    IdnBlockDecompressor.handleSwitchModelSlice]
  rw [if_neg (by omega : ¬ q ≥ mt.length)]
  simp only [hqt]
  rfl

/-- A sequence slice with both models set decodes the payload and pops the
identifier stack. -/
theorem nextSeq_seq (decode : ℕ → ℕ → ℕ → List ℕ → FastqSequence)
    (mt : List ModelType) (ids : List String) (acid q dlen seqLen : ℕ)
    (data : List ℕ) (r : List IdnSlice) :
    IdnBlockDecompressor.nextSequenceInternal decode
      (IdnSlice.sequenceSlice dlen seqLen data :: r)
      ⟨mt, ids, some acid, some q⟩
    = match ids.getLast? with
      | some ident => Except.ok (some
          ({ decode acid q seqLen data with identifier := ident },
            ⟨mt, ids.dropLast, some acid, some q⟩, r))
      | none => Except.ok (some (decode acid q seqLen data,
          ⟨mt, ids, some acid, some q⟩, r)) := by
  cases hil : ids.getLast? <;>
    simp only [IdnBlockDecompressor.nextSequenceInternal,
      IdnBlockDecompressor.handleSequenceSlice,
      IdnBlockDecompressor.getCurrentAcidModel,
      IdnBlockDecompressor.getCurrentQScoreModel, hil] <;>
    rfl

/-- Decompressing the per-sequence slices with the identifier stack
preloaded with the block's identifier lines reproduces the sequences
exactly, identifiers included. -/
theorem allSequences_slicesLoop_ids
    (encode : ℕ → ℕ → FastqSequence → List ℕ)
    (decode : ℕ → ℕ → ℕ → List ℕ → FastqSequence)
    (chooseAcid chooseQ : Option ℕ → FastqSequence → ℕ) (mt : List ModelType)
    (hca : ∀ cur s, chooseAcid cur s < mt.length ∧
      mt.getD (chooseAcid cur s) ModelType.Acids = ModelType.Acids)
    (hcq : ∀ cur s, chooseQ cur s < mt.length ∧
      mt.getD (chooseQ cur s) ModelType.Acids = ModelType.QualityScores)
    (hdec : ∀ a q s, decode a q (FastqSequence.len s) (encode a q s) =
      s.withIdentifierDiscarded) :
    ∀ (b : List FastqSequence) (fuel : ℕ), b.length < fuel →
      ∀ (c1 c2 : Option ℕ),
      IdnBlockDecompressor.allSequences decode fuel
        (IdnBlockCompressor.slicesLoop encode chooseAcid chooseQ b c1 c2)
        ⟨mt, (b.map FastqSequence.identifier).reverse, c1, c2⟩
      = Except.ok b := by
  intro b
  induction b with
  | nil =>
      intro fuel hf c1 c2
      obtain ⟨f, rfl⟩ : ∃ f, fuel = f + 1 := ⟨fuel - 1, by omega⟩
      rfl
  | cons s rest ih =>
      intro fuel hf c1 c2
      obtain ⟨f, rfl⟩ : ∃ f, fuel = f + 1 := ⟨fuel - 1, by omega⟩
      simp only [List.length_cons] at hf
      obtain ⟨hai, hat⟩ := hca c1 s
      obtain ⟨hqi, hqt⟩ := hcq c2 s
      have hdecs := hdec (chooseAcid c1 s) (chooseQ c2 s) s
      have hslices : IdnBlockCompressor.slicesLoop encode chooseAcid chooseQ
          (s :: rest) c1 c2
          = (if c1 = some (chooseAcid c1 s) then []
              else [IdnSlice.switchModel (chooseAcid c1 s)]) ++
            ((if c2 = some (chooseQ c2 s) then []
              else [IdnSlice.switchModel (chooseQ c2 s)]) ++
              (IdnSlice.sequenceSlice
                  (encode (chooseAcid c1 s) (chooseQ c2 s) s).length s.len
                  (encode (chooseAcid c1 s) (chooseQ c2 s) s) ::
                IdnBlockCompressor.slicesLoop encode chooseAcid chooseQ rest
                  (some (chooseAcid c1 s)) (some (chooseQ c2 s)))) := by
        simp only [IdnBlockCompressor.slicesLoop, List.append_assoc,
          List.singleton_append]
      have hids : ((s :: rest).map FastqSequence.identifier).reverse
          = (rest.map FastqSequence.identifier).reverse ++ [s.identifier] := by
        simp [List.reverse_cons]
      rw [hslices, hids]
      set acid := chooseAcid c1 s with hacid
      set q := chooseQ c2 s with hq
      have hstep : IdnBlockDecompressor.nextSequenceInternal decode
          ((if c1 = some acid then [] else [IdnSlice.switchModel acid]) ++
            ((if c2 = some q then [] else [IdnSlice.switchModel q]) ++
              (IdnSlice.sequenceSlice (encode acid q s).length s.len
                  (encode acid q s) ::
                IdnBlockCompressor.slicesLoop encode chooseAcid chooseQ rest
                  (some acid) (some q))))
          ⟨mt, (rest.map FastqSequence.identifier).reverse ++ [s.identifier], c1, c2⟩
          = Except.ok (some (s,
              ⟨mt, (rest.map FastqSequence.identifier).reverse, some acid, some q⟩,
              IdnBlockCompressor.slicesLoop encode chooseAcid chooseQ rest
                (some acid) (some q))) := by
        by_cases hA : c1 = some acid <;> by_cases hQ : c2 = some q
        · rw [if_pos hA, if_pos hQ, List.nil_append, List.nil_append, hA, hQ,
            nextSeq_seq, List.getLast?_concat]
          simp only [List.dropLast_concat, hdecs]
          rfl
        · rw [if_pos hA, if_neg hQ, List.nil_append, List.singleton_append, hA,
            nextSeq_switch_q decode mt _ _ _ _ _ hqi hqt,
            nextSeq_seq, List.getLast?_concat]
          simp only [List.dropLast_concat, hdecs]
          rfl
        · rw [if_neg hA, if_pos hQ, List.nil_append, List.singleton_append,
            nextSeq_switch_acid decode mt _ _ _ _ _ hai hat, hQ,
            nextSeq_seq, List.getLast?_concat]
          simp only [List.dropLast_concat, hdecs]
          rfl
        · rw [if_neg hA, if_neg hQ, List.singleton_append, List.singleton_append,
            nextSeq_switch_acid decode mt _ _ _ _ _ hai hat,
            nextSeq_switch_q decode mt _ _ _ _ _ hqi hqt,
            nextSeq_seq, List.getLast?_concat]
          simp only [List.dropLast_concat, hdecs]
          rfl
      simp only [IdnBlockDecompressor.allSequences, hstep]
      rw [ih f (by omega) (some acid) (some q)]

/-- Decompressing the per-sequence slices with an empty identifier stack
reproduces the sequences with identifiers discarded. -/
theorem allSequences_slicesLoop_noids
    (encode : ℕ → ℕ → FastqSequence → List ℕ)
    (decode : ℕ → ℕ → ℕ → List ℕ → FastqSequence)
    (chooseAcid chooseQ : Option ℕ → FastqSequence → ℕ) (mt : List ModelType)
    (hca : ∀ cur s, chooseAcid cur s < mt.length ∧
      mt.getD (chooseAcid cur s) ModelType.Acids = ModelType.Acids)
    (hcq : ∀ cur s, chooseQ cur s < mt.length ∧
      mt.getD (chooseQ cur s) ModelType.Acids = ModelType.QualityScores)
    (hdec : ∀ a q s, decode a q (FastqSequence.len s) (encode a q s) =
      s.withIdentifierDiscarded) :
    ∀ (b : List FastqSequence) (fuel : ℕ), b.length < fuel →
      ∀ (c1 c2 : Option ℕ),
      IdnBlockDecompressor.allSequences decode fuel
        (IdnBlockCompressor.slicesLoop encode chooseAcid chooseQ b c1 c2)
        ⟨mt, [], c1, c2⟩
      = Except.ok (b.map FastqSequence.withIdentifierDiscarded) := by
  intro b
  induction b with
  | nil =>
      intro fuel hf c1 c2
      obtain ⟨f, rfl⟩ : ∃ f, fuel = f + 1 := ⟨fuel - 1, by omega⟩
      rfl
  | cons s rest ih =>
      intro fuel hf c1 c2
      obtain ⟨f, rfl⟩ : ∃ f, fuel = f + 1 := ⟨fuel - 1, by omega⟩
      simp only [List.length_cons] at hf
      obtain ⟨hai, hat⟩ := hca c1 s
      obtain ⟨hqi, hqt⟩ := hcq c2 s
      have hdecs := hdec (chooseAcid c1 s) (chooseQ c2 s) s
      have hslices : IdnBlockCompressor.slicesLoop encode chooseAcid chooseQ
          (s :: rest) c1 c2
          = (if c1 = some (chooseAcid c1 s) then []
              else [IdnSlice.switchModel (chooseAcid c1 s)]) ++
            ((if c2 = some (chooseQ c2 s) then []
              else [IdnSlice.switchModel (chooseQ c2 s)]) ++
              (IdnSlice.sequenceSlice
                  (encode (chooseAcid c1 s) (chooseQ c2 s) s).length s.len
                  (encode (chooseAcid c1 s) (chooseQ c2 s) s) ::
                IdnBlockCompressor.slicesLoop encode chooseAcid chooseQ rest
                  (some (chooseAcid c1 s)) (some (chooseQ c2 s)))) := by
        simp only [IdnBlockCompressor.slicesLoop, List.append_assoc,
          List.singleton_append]
      rw [hslices]
      set acid := chooseAcid c1 s with hacid
      set q := chooseQ c2 s with hq
      have hstep : IdnBlockDecompressor.nextSequenceInternal decode
          ((if c1 = some acid then [] else [IdnSlice.switchModel acid]) ++
            ((if c2 = some q then [] else [IdnSlice.switchModel q]) ++
              (IdnSlice.sequenceSlice (encode acid q s).length s.len
                  (encode acid q s) ::
                IdnBlockCompressor.slicesLoop encode chooseAcid chooseQ rest
                  (some acid) (some q))))
          ⟨mt, [], c1, c2⟩
          = Except.ok (some (s.withIdentifierDiscarded,
              ⟨mt, [], some acid, some q⟩,
              IdnBlockCompressor.slicesLoop encode chooseAcid chooseQ rest
                (some acid) (some q))) := by
        by_cases hA : c1 = some acid <;> by_cases hQ : c2 = some q
        · rw [if_pos hA, if_pos hQ, List.nil_append, List.nil_append, hA, hQ,
            nextSeq_seq]
          simp only [List.getLast?_nil, hdecs]
        · rw [if_pos hA, if_neg hQ, List.nil_append, List.singleton_append, hA,
            nextSeq_switch_q decode mt _ _ _ _ _ hqi hqt, nextSeq_seq]
          simp only [List.getLast?_nil, hdecs]
        · rw [if_neg hA, if_pos hQ, List.nil_append, List.singleton_append,
            nextSeq_switch_acid decode mt _ _ _ _ _ hai hat, hQ, nextSeq_seq]
          simp only [List.getLast?_nil, hdecs]
        · rw [if_neg hA, if_neg hQ, List.singleton_append, List.singleton_append,
            nextSeq_switch_acid decode mt _ _ _ _ _ hai hat,
            nextSeq_switch_q decode mt _ _ _ _ _ hqi hqt, nextSeq_seq]
          simp only [List.getLast?_nil, hdecs]
      simp only [IdnBlockDecompressor.allSequences, hstep]
      rw [ih f (by omega) (some acid) (some q)]
      rfl

/-- Every sequence produces at least one slice. -/
theorem slicesLoop_length_ge (encode : ℕ → ℕ → FastqSequence → List ℕ)
    (chooseAcid chooseQ : Option ℕ → FastqSequence → ℕ) :
    ∀ (b : List FastqSequence) (c1 c2 : Option ℕ),
      b.length ≤
        (IdnBlockCompressor.slicesLoop encode chooseAcid chooseQ b c1 c2).length := by
  intro b
  induction b with
  | nil =>
      intro c1 c2
      simp [IdnBlockCompressor.slicesLoop]
  | cons s rest ih =>
      intro c1 c2
      simp only [IdnBlockCompressor.slicesLoop, List.length_cons,
        List.length_append, List.length_nil]
      have := ih (some (chooseAcid c1 s)) (some (chooseQ c2 s))
      omega

/-- An identifiers slice is transparent to the collect loop apart from
loading the stack. -/
theorem allSequences_cons_identifiers
    (decode : ℕ → ℕ → ℕ → List ℕ → FastqSequence) (f : ℕ)
    (lines : List String) (r : List IdnSlice) (st : IdnBlockDecompressor) :
    IdnBlockDecompressor.allSequences decode (f + 1)
      (IdnSlice.identifiers lines :: r) st
    = IdnBlockDecompressor.allSequences decode (f + 1) r
      (st.handleIdentifiersSlice lines) := rfl

/-- Round trip of one block at the slice level: decompressing the slices
emitted for a block returns exactly the block's sequences (when
identifiers are not included, the block's sequences must already carry
empty identifiers, as the compressor front-end guarantees). -/
theorem blockSlices_roundTrip (encode : ℕ → ℕ → FastqSequence → List ℕ)
    (decode : ℕ → ℕ → ℕ → List ℕ → FastqSequence)
    (chooseAcid chooseQ : Option ℕ → FastqSequence → ℕ) (mt : List ModelType)
    (inc : Bool)
    (hca : ∀ cur s, chooseAcid cur s < mt.length ∧
      mt.getD (chooseAcid cur s) ModelType.Acids = ModelType.Acids)
    (hcq : ∀ cur s, chooseQ cur s < mt.length ∧
      mt.getD (chooseQ cur s) ModelType.Acids = ModelType.QualityScores)
    (hdec : ∀ a q s, decode a q (FastqSequence.len s) (encode a q s) =
      s.withIdentifierDiscarded)
    (b : List FastqSequence)
    (hb : inc = false → ∀ s ∈ b, s.identifier = "") :
    IdnBlockDecompressor.allSequences decode
      ((IdnBlockCompressor.slices encode chooseAcid chooseQ inc b).length + 1)
      (IdnBlockCompressor.slices encode chooseAcid chooseQ inc b)
      (IdnBlockDecompressor.new mt)
    = Except.ok b := by
  by_cases hbe : b.isEmpty
  · have hbnil : b = [] := List.isEmpty_iff.mp hbe
    subst hbnil
    rfl
  · have hlen := slicesLoop_length_ge encode chooseAcid chooseQ b none none
    cases inc with
    | true =>
        have hsl : IdnBlockCompressor.slices encode chooseAcid chooseQ true b
            = IdnSlice.identifiers (b.map FastqSequence.identifier) ::
              IdnBlockCompressor.slicesLoop encode chooseAcid chooseQ b none none := by
          simp [IdnBlockCompressor.slices, hbe]
        rw [hsl, allSequences_cons_identifiers]
        exact allSequences_slicesLoop_ids encode decode chooseAcid chooseQ mt
          hca hcq hdec b _ (by simp only [List.length_cons]; omega) none none
    | false =>
        have hsl : IdnBlockCompressor.slices encode chooseAcid chooseQ false b
            = IdnBlockCompressor.slicesLoop encode chooseAcid chooseQ b none none := by
          simp [IdnBlockCompressor.slices, hbe]
        rw [hsl]
        have hres := allSequences_slicesLoop_noids encode decode chooseAcid chooseQ mt
          hca hcq hdec b
          ((IdnBlockCompressor.slicesLoop encode chooseAcid chooseQ b none none).length + 1)
          (by omega) none none
        have hmap : b.map FastqSequence.withIdentifierDiscarded = b := by
          have h1 : b.map FastqSequence.withIdentifierDiscarded = b.map id :=
            List.map_congr_left (fun s hs =>
              withIdentifierDiscarded_of_empty s (hb rfl s hs))
          rw [h1, List.map_id]
        rw [hmap] at hres
        exact hres

/-- A sequence within the length limit is accepted: no error, configuration
preserved, and the accumulated content grows by the (possibly
identifier-discarded) sequence. -/
theorem addSequence_ok_spec (c : IdnCompressor) (s : FastqSequence)
    (hle : s.len ≤ c.maxBlockTotalLen / 2) :
    (c.addSequence s).2 = none ∧
    (c.addSequence s).1.maxBlockTotalLen = c.maxBlockTotalLen ∧
    (c.addSequence s).1.includeIdentifiers = c.includeIdentifiers ∧
    (c.addSequence s).1.emitted.flatten ++ (c.addSequence s).1.block
      = (c.emitted.flatten ++ c.block) ++
        [if c.includeIdentifiers then s else s.withIdentifierDiscarded] := by
  have hne : ¬ s.len > c.maxSeqLen := by
    unfold IdnCompressor.maxSeqLen
    omega
  by_cases hov : c.blockLength + s.len > c.maxBlockTotalLen
  · simp only [IdnCompressor.addSequence, if_neg hne, if_pos hov]
    simp [IdnCompressor.makeBlock]
  · simp only [IdnCompressor.addSequence, if_neg hne, if_neg hov]
    simp

/-- Feeding a list of sequences within the length limit through
`add_sequence` accepts them all and accumulates the (possibly
identifier-discarded) sequences in order. -/
theorem addSequence_fold_spec (M : ℕ) (inc : Bool) :
    ∀ (seqs : List FastqSequence) (c : IdnCompressor),
      c.maxBlockTotalLen = M → c.includeIdentifiers = inc →
      (∀ s ∈ seqs, s.len ≤ M / 2) →
      ∃ final : IdnCompressor,
        seqs.foldl (fun acc s => (((acc.1).addSequence s).1,
            acc.2 && (((acc.1).addSequence s).2).isNone)) (c, true) = (final, true) ∧
        final.maxBlockTotalLen = M ∧ final.includeIdentifiers = inc ∧
        final.emitted.flatten ++ final.block =
          (c.emitted.flatten ++ c.block) ++
            seqs.map (fun s => if inc then s else s.withIdentifierDiscarded) := by
  intro seqs
  induction seqs with
  | nil =>
      intro c hM hinc _
      exact ⟨c, rfl, hM, hinc, by simp⟩
  | cons s rest ih =>
      intro c hM hinc hacc
      obtain ⟨h2, hM2, hinc2, hflat2⟩ := addSequence_ok_spec c s
        (by rw [hM]; exact hacc s (List.mem_cons_self s rest))
      obtain ⟨final, hfold, hfM, hfinc, hfflat⟩ := ih ((c.addSequence s).1)
        (hM2.trans hM) (hinc2.trans hinc)
        (fun s2 hs2 => hacc s2 (List.mem_cons_of_mem s hs2))
      refine ⟨final, ?_, hfM, hfinc, ?_⟩
      · simp only [List.foldl_cons, h2, Option.isNone_none, Bool.and_true]
        exact hfold
      · rw [hfflat, hflat2, hinc]
        simp [List.append_assoc]

/-- Finishing via `finish` always succeeds and the returned blocks carry exactly the
accumulated content (the trailing terminator block is empty). -/
theorem finish_spec (c : IdnCompressor) :
    ∃ blocks, c.finish = Except.ok blocks ∧
      blocks.flatten = c.emitted.flatten ++ c.block := by
  by_cases hb : c.block.isEmpty
  · refine ⟨c.makeBlock.emitted, ?_, ?_⟩
    · simp only [IdnCompressor.finish, if_pos hb]
    · have hbe : c.block = [] := List.isEmpty_iff.mp hb
      simp [IdnCompressor.makeBlock, hbe]
  · refine ⟨c.makeBlock.makeBlock.emitted, ?_, ?_⟩
    · simp only [IdnCompressor.finish, if_neg hb]
    · simp [IdnCompressor.makeBlock]

/-- C1: round trip of the IDN pipeline.  Every sequence within the length
limit is accepted by `add_sequence` with no error; `finish` emits blocks
whose concatenation is exactly the submitted sequences, in order, with
identifiers kept when `include_identifiers` is set and discarded
otherwise; and decompressing each emitted block's slices (with the
external rANS coder abstracted as an `encode`/`decode` pair that inverts
on acids and quality scores, and the model chooser abstracted as
`chooseAcid`/`chooseQScore` returning in-range indices of the right
alphabet) returns exactly that block's sequences, byte-for-byte and in
order. -/
theorem idn_compress_decompress_round_trip
    (M : ℕ) (inc : Bool) (seqs : List FastqSequence)
    (encode : ℕ → ℕ → FastqSequence → List ℕ)
    (decode : ℕ → ℕ → ℕ → List ℕ → FastqSequence)
    (chooseAcid chooseQ : Option ℕ → FastqSequence → ℕ) (mt : List ModelType)
    (hacc : ∀ s ∈ seqs, s.len ≤ M / 2)
    (hca : ∀ cur s, chooseAcid cur s < mt.length ∧
      mt.getD (chooseAcid cur s) ModelType.Acids = ModelType.Acids)
    (hcq : ∀ cur s, chooseQ cur s < mt.length ∧
      mt.getD (chooseQ cur s) ModelType.Acids = ModelType.QualityScores)
    (hdec : ∀ a q s, decode a q (FastqSequence.len s) (encode a q s) =
      s.withIdentifierDiscarded) :
    ∃ final : IdnCompressor,
      seqs.foldl (fun acc s => (((acc.1).addSequence s).1,
          acc.2 && (((acc.1).addSequence s).2).isNone))
        (IdnCompressor.withParams M inc, true) = (final, true) ∧
      ∃ blocks, final.finish = Except.ok blocks ∧
        blocks.flatten =
          seqs.map (fun s => if inc then s else s.withIdentifierDiscarded) ∧
        ∀ b ∈ blocks,
          IdnBlockDecompressor.allSequences decode
            ((IdnBlockCompressor.slices encode chooseAcid chooseQ inc b).length + 1)
            (IdnBlockCompressor.slices encode chooseAcid chooseQ inc b)
            (IdnBlockDecompressor.new mt)
          = Except.ok b := by
  obtain ⟨final, hfold, hfM, hfinc, hfflat⟩ :=
    addSequence_fold_spec M inc seqs (IdnCompressor.withParams M inc) rfl rfl hacc
  obtain ⟨blocks, hfin, hbflat⟩ := finish_spec final
  have hflat : blocks.flatten =
      seqs.map (fun s => if inc then s else s.withIdentifierDiscarded) := by
    rw [hbflat, hfflat]
    simp [IdnCompressor.withParams]
  refine ⟨final, hfold, blocks, hfin, hflat, ?_⟩
  intro b hbmem
  apply blockSlices_roundTrip encode decode chooseAcid chooseQ mt inc hca hcq hdec b
  intro hincf s hs
  subst hincf
  have hsmem : s ∈ blocks.flatten := List.mem_flatten.mpr ⟨b, hbmem, hs⟩
  rw [hflat] at hsmem
  obtain ⟨s0, _, rfl⟩ := List.mem_map.mp hsmem
  rfl

/-- Closed-form check of C1: one two-acid sequence, a take/drop coder, and
a two-model provider. -/
theorem idn_compress_decompress_round_trip_witness :
    (∀ s ∈ [(⟨"r1", [1, 2], [3, 4]⟩ : FastqSequence)],
      FastqSequence.len s ≤ 1000 / 2) ∧
    (∀ (a q : ℕ) (s : FastqSequence),
      (fun _ _ n (data : List ℕ) =>
        (⟨"", data.take n, data.drop n⟩ : FastqSequence)) a q
          (FastqSequence.len s)
          ((fun _ _ (s : FastqSequence) => s.acids ++ s.qualityScores) a q s) =
        s.withIdentifierDiscarded) ∧
    ∃ final : IdnCompressor,
      [(⟨"r1", [1, 2], [3, 4]⟩ : FastqSequence)].foldl
        (fun acc s => (((acc.1).addSequence s).1,
          acc.2 && (((acc.1).addSequence s).2).isNone))
        (IdnCompressor.withParams 1000 true, true) = (final, true) ∧
      ∃ blocks, final.finish = Except.ok blocks ∧
        blocks.flatten =
          [(⟨"r1", [1, 2], [3, 4]⟩ : FastqSequence)].map
            (fun s => if true then s else s.withIdentifierDiscarded) ∧
        ∀ b ∈ blocks,
          IdnBlockDecompressor.allSequences
            (fun _ _ n (data : List ℕ) =>
              (⟨"", data.take n, data.drop n⟩ : FastqSequence))
            ((IdnBlockCompressor.slices
                (fun _ _ (s : FastqSequence) => s.acids ++ s.qualityScores)
                (fun _ _ => 0) (fun _ _ => 1) true b).length + 1)
            (IdnBlockCompressor.slices
              (fun _ _ (s : FastqSequence) => s.acids ++ s.qualityScores)
              (fun _ _ => 0) (fun _ _ => 1) true b)
            (IdnBlockDecompressor.new [ModelType.Acids, ModelType.QualityScores])
          = Except.ok b := by
  have hdec : ∀ (a q : ℕ) (s : FastqSequence),
      (fun _ _ n (data : List ℕ) =>
        (⟨"", data.take n, data.drop n⟩ : FastqSequence)) a q
          (FastqSequence.len s)
          ((fun _ _ (s : FastqSequence) => s.acids ++ s.qualityScores) a q s) =
        s.withIdentifierDiscarded := by
    intro a q s
    cases s with
    | mk ident ac qs =>
        simp only [FastqSequence.len, FastqSequence.withIdentifierDiscarded]
        rw [List.take_left, List.drop_left]
  refine ⟨by intro s hs; simp at hs; subst hs; decide, hdec, ?_⟩
  exact idn_compress_decompress_round_trip 1000 true
    [(⟨"r1", [1, 2], [3, 4]⟩ : FastqSequence)]
    (fun _ _ (s : FastqSequence) => s.acids ++ s.qualityScores)
    (fun _ _ n (data : List ℕ) => (⟨"", data.take n, data.drop n⟩ : FastqSequence))
    (fun _ _ => 0) (fun _ _ => 1) [ModelType.Acids, ModelType.QualityScores]
    (by intro s hs; simp at hs; subst hs; decide)
    (by intro cur s; refine ⟨?_, rfl⟩; show (0 : ℕ) < 2; decide)
    (by intro cur s; refine ⟨?_, rfl⟩; show (1 : ℕ) < 2; decide)
    hdec

end Idencomp
